import Mathlib

/-!
# Spanner driver of `kine`: statement compiler, transaction bridge, connection

A shallow embedding of `pkg/drivers/spanner/driver` and the properties proved
about it.

* Go strings are byte sequences: `List Byte`.
* A Go `error` value is an `Option`: `none` is `nil`.
* A run-time panic is a result of its own (`Run.panicked`, `Step.panic`).
* Slices and strings are unbounded lists: the memory a `make` may use is not
  part of the embedding.  `int` is the 64-bit `int` of the platforms the driver
  is built for; the only place where the width matters is `strconv.ParseInt`.
-/

namespace Kine

/-! ## Bytes and strings -/

/-- A Go `byte`. -/
abbrev Byte := UInt8

/-- The bytes of a string literal (Go source strings are UTF-8). -/
def bytes (s : String) : List Byte := s.toUTF8.data.toList

/-- The test `b >= '0' && b <= '9'` of `parseArg`. -/
def isDigit (b : Byte) : Bool := decide (48 ≤ b) && decide (b ≤ 57)

/-- The byte of the decimal digit `d`. -/
def digitByte (d : Nat) : Byte := UInt8.ofNat (48 + d)

/-- The digits of `n`, most significant first; `fuel` bounds the number of digits. -/
def formatDigits : Nat → Nat → List Byte
  | 0, _ => []
  | fuel + 1, n =>
    if n < 10 then [digitByte n] else formatDigits fuel (n / 10) ++ [digitByte (n % 10)]

/-- The call `strconv.FormatInt(int64(p), 10)` for `p ≥ 0`: the decimal digits of `p`
without leading zeros, `"0"` for zero. -/
def FormatInt (p : Nat) : List Byte := formatDigits (p + 1) p

/-- The errors of `strconv.ParseInt`. -/
inductive NumError
  | ErrSyntax
  | ErrRange
  deriving DecidableEq, Repr

/-- The value of a string of decimal digits. -/
def digitsValue (s : List Byte) : Nat :=
  s.foldl (fun acc b => 10 * acc + (b.toNat - 48)) 0

/-- The call `strconv.ParseInt(arg, 10, 64)` on the strings `parseArg` hands it, which
hold decimal digits only (no sign): the empty string is a syntax error, a value of
`2^63` or more is a range error. -/
def ParseInt (arg : List Byte) : Except NumError Nat :=
  if arg = [] then .error .ErrSyntax
  else if arg.all isDigit then
    if digitsValue arg < 2 ^ 63 then .ok (digitsValue arg) else .error .ErrRange
  else .error .ErrSyntax

/-! ## statement.go -/

/-- The `Statement` struct without its back pointer to the connection. -/
structure Statement where
  sql : List Byte
  args : List (List Byte)
  deriving DecidableEq, Repr

/-- The Go function `paramName`. -/
def paramName (p : Nat) : List Byte := bytes "param_" ++ FormatInt p

/-- The struct `statmentBuilder`: `sb` is the text written to the `strings.Builder`. -/
structure statmentBuilder where
  pi : Nat
  sb : List Byte
  args : List (List Byte)
  deriving DecidableEq, Repr

/-- The method `statmentBuilder.WriteByte`. -/
def statmentBuilder.WriteByte (s : statmentBuilder) (b : Byte) : statmentBuilder :=
  { s with sb := s.sb ++ [b] }

/-- The method `statmentBuilder.WriteParam`.  The slice grows to length `p` when it is
shorter (new entries are empty strings); the store `s.args[p-1] = pn` is out of range
for `p = 0`, where Go panics: `none`.  Here `make([]string, p)` returns for every `p`;
`WriteParamWithin` below is the method in a run in which it returns up to a given
length only, and `parseStatementWithin_eq` relates the two. -/
def statmentBuilder.WriteParam (s : statmentBuilder) (p : Nat) : Option statmentBuilder :=
  let args := if p > s.args.length then s.args ++ List.replicate (p - s.args.length) [] else s.args
  let pn := paramName p
  if p = 0 then none
  else some { s with args := args.set (p - 1) pn, sb := s.sb ++ (64 :: pn) }

/-- The method `statmentBuilder.AutoParam`. -/
def statmentBuilder.AutoParam (s : statmentBuilder) : Option statmentBuilder :=
  statmentBuilder.WriteParam { s with pi := s.pi + 1 } (s.pi + 1)

/-- The method `statmentBuilder.Statement`. -/
def statmentBuilder.Statement (s : statmentBuilder) : Statement :=
  { sql := s.sb, args := s.args }

/-- The method `ReadByte` of `strings.Reader`: the next byte and the rest of the input,
or the zero byte and `io.EOF` (`true`) at the end. -/
def ReadByte (r : List Byte) : Byte × Bool × List Byte :=
  match r with
  | [] => (0, true, [])
  | b :: rest => (b, false, rest)

/-- The digit loop of `parseArg`: reads bytes while they are digits.  Returns the byte
that ended the loop (the zero byte at the end of the input), the rest of the input and
the digits collected. -/
def parseArg.scan : List Byte → List Byte → Byte × List Byte × List Byte
  | [], acc => (0, [], acc)
  | b :: rest, acc => if isDigit b then parseArg.scan rest (acc ++ [b]) else (b, rest, acc)

/-- The Go function `parseArg`.  The result is the byte returned, whether the error
returned is non-nil, the rest of the input and the builder; `none` when `WriteParam`
panics.  The error of the digit loop is overwritten by that of `ParseInt`. -/
def parseArg (r : List Byte) (stmt : statmentBuilder) :
    Option (Byte × Bool × List Byte × statmentBuilder) :=
  match parseArg.scan r [] with
  | (b, rest, arg) =>
    match ParseInt arg with
    | .error _ => some (b, true, rest, stmt)
    | .ok pn =>
      match stmt.WriteParam pn with
      | none => none
      | some stmt' => some (b, false, rest, stmt')

/-- How a run of the parser ends. -/
inductive Run (α : Type)
  | done (a : α)
  | panicked
  | outOfFuel
  deriving DecidableEq, Repr

/-- The `for` loop of `parseStatement`, one iteration per unit of fuel.  The state is
the flag `escaped`, the current byte `b`, whether `err` is non-nil, the reader and the
builder.  `case 0: break` leaves the `switch` only; the `break` under `if err != nil`
leaves the loop; the `'$'` case jumps back to the top (`continue`) without that test. -/
def parseStatement.loop :
    Nat → Bool → Byte → Bool → List Byte → statmentBuilder → Run statmentBuilder
  | 0, _, _, _, _, _ => .outOfFuel
  | fuel + 1, escaped, b, err, r, sb =>
    if escaped then
      match ReadByte r with
      | (b', err', r') => parseStatement.loop fuel false b' err' r' (sb.WriteByte b)
    else if b = 36 then
      match parseArg r sb with
      | none => .panicked
      | some (b', err', r', sb') => parseStatement.loop fuel false b' err' r' sb'
    else
      let after : Bool × Option statmentBuilder :=
        if b = 0 then (false, some sb)
        else if b = 92 then (true, some sb)
        else if b = 63 then (false, sb.AutoParam)
        else (false, some (sb.WriteByte b))
      match after with
      | (_, none) => .panicked
      | (escaped', some sb') =>
        if err then .done sb'
        else
          match ReadByte r with
          | (b', err', r') => parseStatement.loop fuel escaped' b' err' r' sb'

/-- The loop entered with the reader at `r`: the first `ReadByte` and then the loop. -/
def parseStatement.start (fuel : Nat) (r : List Byte) (sb : statmentBuilder) :
    Run statmentBuilder :=
  match ReadByte r with
  | (b, err, r') => parseStatement.loop fuel false b err r' sb

/-- The Go function `parseStatement`.  An iteration reads at least one byte unless the
input is at its end, where at most three more follow, so `len(q) + 2` iterations are
enough for every input (`parseStatement_fuel`). -/
def parseStatement (q : List Byte) : Run Statement :=
  match parseStatement.start (q.length + 2) q { pi := 0, sb := [], args := [] } with
  | .done sb => .done sb.Statement
  | .panicked => .panicked
  | .outOfFuel => .outOfFuel

/-- The method `Statement.NumInput`. -/
def Statement.NumInput (s : Statement) : Nat := s.args.length

/-- A byte the loop of `parseStatement` copies: not NUL, backslash, `$` or `?`. -/
def isPlain (b : Byte) : Bool := b != 0 && b != 92 && b != 36 && b != 63

/-- A query of `?` placeholders: each text of `ts` preceded by one `?`. -/
def autoQuery : List (List Byte) → List Byte
  | [] => []
  | t :: ts => 63 :: (t ++ autoQuery ts)

/-- The text expected for it: the `?` before the texts of `ts` replaced by
`@param_i`, `@param_(i+1)`, ... -/
def autoSql : Nat → List (List Byte) → List Byte
  | _, [] => []
  | i, t :: ts => 64 :: (paramName i ++ t ++ autoSql (i + 1) ts)

/-- The list `[param_1, ..., param_n]`. -/
def paramNames (n : Nat) : List (List Byte) := (List.range n).map (fun i => paramName (i + 1))

/-! ## error.go -/

/-- A non-nil Go `error`: the constants of `error.go`, or an error made elsewhere (by
the Spanner client, or by `fmt.Errorf`), told apart by a number. -/
inductive Error
  | ErrRollback
  | ErrTxnReadOnly
  | ErrTxnStarted
  | ErrTxnFailed
  | ErrTxnRetry
  | ErrUnsupported
  | other (code : Nat)
  deriving DecidableEq, Repr

/-! ## Channels -/

/-- What one step of a goroutine does: it goes on, it cannot proceed (a blocked
channel operation, or a step that is not the next one of its goroutine), or it
panics. -/
inductive Step (σ : Type)
  | ok (s : σ)
  | blocked
  | panic
  deriving DecidableEq, Repr

/-- A Go channel made with `make(chan α, cap)`. -/
structure Chan (α : Type) where
  cap : Nat
  buf : List α
  closed : Bool
  deriving DecidableEq, Repr

/-- The call `make(chan α, cap)`. -/
def Chan.make (α : Type) (cap : Nat) : Chan α := { cap := cap, buf := [], closed := false }

/-- The statement `ch <- v` on a channel that is not nil: a panic when the channel is
closed, blocked when the buffer is full. -/
def Chan.send {α : Type} (ch : Chan α) (v : α) : Step (Chan α) :=
  if ch.closed then .panic
  else if ch.buf.length < ch.cap then .ok { ch with buf := ch.buf ++ [v] }
  else .blocked

/-- The expression `<-ch` on a channel that is not nil: the oldest buffered value, or
`none` (the zero value, `ok == false`) when the channel is closed and empty. -/
def Chan.recv {α : Type} (ch : Chan α) : Step (Option α × Chan α) :=
  match ch.buf with
  | v :: rest => .ok (some v, { ch with buf := rest })
  | [] => if ch.closed then .ok (none, ch) else .blocked

/-- The call `close(ch)` on a channel that is not nil: a panic when it is closed. -/
def Chan.close {α : Type} (ch : Chan α) : Step (Chan α) :=
  if ch.closed then .panic else .ok { ch with closed := true }

/-- The call `close(ch)` on a channel variable: closing the nil channel panics. -/
def closeChan {α : Type} (ch : Option (Chan α)) : Step (Chan α) :=
  match ch with
  | none => .panic
  | some c => c.close

/-! ## transaction.go and connection.go -/

/-- A `driver.Value`, known by a number. -/
structure Value where
  id : Nat
  deriving DecidableEq, Repr

/-- The struct `spanner.Statement`.  The map `Params` is a list of bindings with
pairwise different names. -/
structure SpannerStatement where
  SQL : List Byte
  Params : List (List Byte × Value)
  deriving DecidableEq, Repr

/-- The closures sent on `txnOpCh`: the one built by `conn.exec` and the one built by
`conn.query`, each around the statement it captured. -/
inductive transactionOp
  | exec (stmt : SpannerStatement)
  | query (stmt : SpannerStatement)
  deriving DecidableEq, Repr

/-- The struct `transaction` (without its context).  A channel field is `none` when
it is nil. -/
structure transaction where
  readonly : Bool
  txnOpCh : Option (Chan transactionOp)
  rollbackCh : Chan Unit
  resultCh : Option (Chan (Option Error))
  err : Option Error
  deriving DecidableEq, Repr

/-- The Go function `newTransaction`. -/
def newTransaction (readonly : Bool) : transaction :=
  { readonly := readonly
    txnOpCh := some (Chan.make transactionOp 1)
    rollbackCh := Chan.make Unit 1
    resultCh := some (Chan.make (Option Error) 1)
    err := none }

/-- The method `transaction.running`, on a pointer that may be nil. -/
def transaction.running (t : Option transaction) : Bool :=
  match t with
  | none => false
  | some t => t.txnOpCh.isSome

/-- The method `transaction.failed`. -/
def transaction.failed (t : transaction) : Bool := t.err.isSome

/-- The struct `conn`: its field `txn`. -/
structure conn where
  txn : Option transaction
  deriving DecidableEq, Repr

/-- The Spanner client, as far as the driver sees it.  `update` and `query` are the
error of `rw.Update` and of the first `Next` of a query (other than `iterator.Done`),
given the statements sent before; `readWriteTransaction` is the error that
`client.ReadWriteTransaction` returns when the first run of its callback returned the
given error (after a commit, a rollback or a retry, as the client decides). -/
structure Backend where
  update : List SpannerStatement → SpannerStatement → Option Error
  query : List SpannerStatement → SpannerStatement → Option Error
  readWriteTransaction : Option Error → Option Error

/-- The goroutine `go c.txn.run(c.client)`. -/
inductive LoopState
  | none
  | running
  | returned (outcome : Option Error)
  | exited
  deriving DecidableEq, Repr

/-- The methods the caller of the driver calls. -/
inductive Call
  | BeginTx
  | exec
  | query
  | Commit
  | Rollback
  deriving DecidableEq, Repr

/-- Where the calling goroutine is: between two calls, or inside a call at one of its
channel operations. -/
inductive CallerState
  | idle
  | execSend (op : transactionOp)
  | execWait (op : transactionOp)
  | rollbackFinish
  | commitRecv
  | rollbackRecv
  deriving DecidableEq, Repr

/-- A connection in use: the connection, the goroutine of its transaction, the
calling goroutine, the statements sent to the backend so far, what `runTx` returned,
the error a finished closure left for its caller, and the errors the calls returned
(the latest first). -/
structure System where
  c : conn
  loop : LoopState
  caller : CallerState
  calls : List SpannerStatement
  outcome : Option (Option Error)
  opDone : Option (Option Error)
  returned : List (Call × Option Error)
  deriving DecidableEq, Repr

/-- A connection from `NewConnection`, before any call. -/
def System.init : System :=
  { c := { txn := none }, loop := .none, caller := .idle, calls := [], outcome := none,
    opDone := none, returned := [] }

/-- The atomic steps.  Those of the caller: a call up to its first channel operation
(`BeginTx`, `exec`, `query`, `Commit`, `Rollback`), then `send` (`c.txn.txnOpCh <- op`),
`wait` (`<-doneCh`, `<-riCh`), `finishClose` (`close(t.txnOpCh)` in the `finish` of
`Rollback`) and `recv` (`t.err = <-t.resultCh` and the rest of `finish` and of the
call).  Those of the goroutine: the three communications of the `select` in `runTx`,
and `report`, the rest of `run` once `runTx` has returned. -/
inductive Action
  | BeginTx (readonly : Bool)
  | exec (stmt : SpannerStatement)
  | query (stmt : SpannerStatement)
  | send
  | wait
  | Commit
  | Rollback
  | finishClose
  | recv
  | selectOp
  | selectClosed
  | selectRollback
  | report
  deriving DecidableEq, Repr

/-- The caller returns `e` from `call`. -/
def System.ret (s : System) (call : Call) (e : Option Error) : System :=
  { s with caller := .idle, returned := (call, e) :: s.returned }

/-- The method `conn.BeginTx`, run under the lock of the connection. -/
def conn.BeginTx (s : System) (readonly : Bool) : System :=
  if transaction.running s.c.txn then s.ret .BeginTx (some .ErrTxnStarted)
  else
    { s with c := { txn := some (newTransaction readonly) }, loop := .running,
             outcome := none, opDone := none }.ret .BeginTx none

/-- The start of `conn.exec` and of `conn.query`: inside a running transaction the
call returns `ErrTxnFailed` when the transaction has failed and goes on to send its
closure otherwise; with no running transaction the statement goes to the backend at
once (`direct`). -/
def conn.route (s : System) (call : Call) (op : transactionOp)
    (direct : System → System) : System :=
  if transaction.running s.c.txn then
    match s.c.txn with
    | none => s
    | some t =>
      if t.failed then s.ret call (some .ErrTxnFailed)
      else { s with caller := .execSend op }
  else direct s

/-- The method `conn.exec` up to its send on `txnOpCh`. -/
def conn.exec (B : Backend) (s : System) (stmt : SpannerStatement) : System :=
  conn.route s .exec (.exec stmt) fun s =>
    let err := B.update s.calls stmt
    let terr := B.readWriteTransaction err
    { s with calls := s.calls ++ [stmt] }.ret .exec (if terr.isSome then terr else err)

/-- The method `conn.query` up to its send on `txnOpCh`. -/
def conn.query (B : Backend) (s : System) (stmt : SpannerStatement) : System :=
  conn.route s .query (.query stmt) fun s =>
    { s with calls := s.calls ++ [stmt] }.ret .query (B.query s.calls stmt)

/-- The call kind of a closure. -/
def transactionOp.call : transactionOp → Call
  | .exec _ => .exec
  | .query _ => .query

/-- The send `c.txn.txnOpCh <- op`: a send on the nil channel blocks for ever. -/
def conn.send (s : System) (op : transactionOp) : Step System :=
  match s.c.txn with
  | none => .panic
  | some t =>
    match t.txnOpCh with
    | none => .blocked
    | some ch =>
      match ch.send op with
      | .ok ch' => .ok { s with c := { txn := some { t with txnOpCh := some ch' } },
                                caller := .execWait op }
      | .blocked => .blocked
      | .panic => .panic

/-- The first statement of `transaction.finish`: `close(t.txnOpCh)`. -/
def transaction.finishClose (s : System) (next : CallerState) : Step System :=
  match s.c.txn with
  | none => .blocked
  | some t =>
    match closeChan t.txnOpCh with
    | .ok ch' => .ok { s with c := { txn := some { t with txnOpCh := some ch' } },
                              caller := next }
    | .blocked => .blocked
    | .panic => .panic

/-- The rest of `transaction.finish`: `t.err = <-t.resultCh`, then both channel fields
are set to nil.  A receive from the nil channel blocks for ever. -/
def transaction.finishRecv (t : transaction) : Step transaction :=
  match t.resultCh with
  | none => .blocked
  | some ch =>
    match ch.recv with
    | .ok (v, _) => .ok { t with err := v.join, txnOpCh := none, resultCh := none }
    | .blocked => .blocked
    | .panic => .panic

/-- What `transaction.Commit` returns after `finish`. -/
def transaction.Commit (t : transaction) : Option Error :=
  if t.failed then some .ErrTxnFailed else none

/-- What `transaction.Rollback` returns after `finish`. -/
def transaction.Rollback (t : transaction) : Option Error :=
  if t.err ≠ some .ErrRollback then t.err else none

/-- The first statement of `transaction.Rollback`: `close(t.rollbackCh)`. -/
def transaction.rollbackClose (s : System) : Step System :=
  match s.c.txn with
  | none => .blocked
  | some t =>
    match t.rollbackCh.close with
    | .ok ch' => .ok { s with c := { txn := some { t with rollbackCh := ch' } },
                              caller := .rollbackFinish }
    | .blocked => .blocked
    | .panic => .panic

/-- A closure run by `runTx`: the statements sent to the backend after it, the error
it returns to the loop, and the error it leaves for its caller.  The closure of
`conn.exec` refuses a read-only transaction, with `ErrTxnReadOnly` for the caller and
nil for the loop; the closure of `conn.query` returns nil to the loop. -/
def transactionOp.run (B : Backend) (readonly : Bool) (calls : List SpannerStatement) :
    transactionOp → List SpannerStatement × Option Error × Option Error
  | .exec stmt =>
    if readonly then (calls, none, some .ErrTxnReadOnly)
    else (calls ++ [stmt], B.update calls stmt, B.update calls stmt)
  | .query stmt => (calls ++ [stmt], none, B.query calls stmt)

/-- One round of the loop of `transaction.runTx`: the communication `sel` of the
`select` is taken when it can proceed.  A received closure is run, and the loop goes
on when it returns nil; the closed and empty command channel ends the loop with
`result`, which is nil there; the closed rollback channel ends it with `ErrRollback`. -/
def transaction.runTx (B : Backend) (sel : Action) (s : System) : Step System :=
  match s.c.txn with
  | none => .blocked
  | some t =>
    match sel with
    | .selectOp =>
      match t.txnOpCh with
      | none => .blocked
      | some ch =>
        match ch.buf with
        | [] => .blocked
        | op :: rest =>
          match op.run B t.readonly s.calls with
          | (calls, result, err) =>
            .ok { s with c := { txn := some { t with txnOpCh := some { ch with buf := rest } } },
                         calls := calls, opDone := some err,
                         loop := if result.isSome then .returned result else .running,
                         outcome := if result.isSome then some result else s.outcome }
    | .selectClosed =>
      match t.txnOpCh with
      | none => .blocked
      | some ch =>
        if ch.buf = [] ∧ ch.closed = true then
          .ok { s with loop := .returned none, outcome := some none }
        else .blocked
    | .selectRollback =>
      if t.rollbackCh.closed then
        .ok { s with loop := .returned (some .ErrRollback), outcome := some (some .ErrRollback) }
      else .blocked
    | _ => .blocked

/-- The method `transaction.run` once `runTx` has returned `outcome`: a read-only
transaction sends the outcome on `resultCh`; a read-write transaction sends the error
of `client.ReadWriteTransaction` when it is not nil; then `resultCh` is closed (the
deferred call). -/
def transaction.run (B : Backend) (outcome : Option Error) (s : System) : Step System :=
  match s.c.txn with
  | none => .blocked
  | some t =>
    match t.resultCh with
    | none => .blocked
    | some ch =>
      let sent : Step (Chan (Option Error)) :=
        if t.readonly then ch.send outcome
        else
          match B.readWriteTransaction outcome with
          | none => .ok ch
          | some e => ch.send (some e)
      match sent with
      | .ok ch' =>
        match ch'.close with
        | .ok ch'' => .ok { s with c := { txn := some { t with resultCh := some ch'' } },
                                   loop := .exited }
        | .blocked => .blocked
        | .panic => .panic
      | .blocked => .blocked
      | .panic => .panic

/-- One atomic step of the system. -/
def step (B : Backend) (a : Action) (s : System) : Step System :=
  match a, s.caller, s.loop with
  | .BeginTx readonly, .idle, _ => .ok (conn.BeginTx s readonly)
  | .exec stmt, .idle, _ => .ok (conn.exec B s stmt)
  | .query stmt, .idle, _ => .ok (conn.query B s stmt)
  | .send, .execSend op, _ => conn.send s op
  | .wait, .execWait op, _ =>
    match s.opDone with
    | none => .blocked
    | some err => .ok ({ s with opDone := none }.ret op.call err)
  | .Commit, .idle, _ => transaction.finishClose s .commitRecv
  | .Rollback, .idle, _ => transaction.rollbackClose s
  | .finishClose, .rollbackFinish, _ => transaction.finishClose s .rollbackRecv
  | .recv, .commitRecv, _ =>
    match s.c.txn with
    | none => .blocked
    | some t =>
      match t.finishRecv with
      | .ok t' => .ok ({ s with c := { txn := some t' } }.ret .Commit t'.Commit)
      | .blocked => .blocked
      | .panic => .panic
  | .recv, .rollbackRecv, _ =>
    match s.c.txn with
    | none => .blocked
    | some t =>
      match t.finishRecv with
      | .ok t' => .ok ({ s with c := { txn := some t' } }.ret .Rollback t'.Rollback)
      | .blocked => .blocked
      | .panic => .panic
  | .selectOp, _, .running => transaction.runTx B .selectOp s
  | .selectClosed, _, .running => transaction.runTx B .selectClosed s
  | .selectRollback, _, .running => transaction.runTx B .selectRollback s
  | .report, _, .returned outcome => transaction.run B outcome s
  | _, _, _ => .blocked

/-- The steps of `as` one after the other. -/
def runTrace (B : Backend) : List Action → System → Step System
  | [], s => .ok s
  | a :: as, s =>
    match step B a s with
    | .ok s' => runTrace B as s'
    | .blocked => .blocked
    | .panic => .panic

/-- A backend that refuses every update with the error `other 3`, and whose
`ReadWriteTransaction` returns the error of its callback. -/
def Backend.refusing : Backend :=
  { update := fun _ _ => some (.other 3), query := fun _ _ => none,
    readWriteTransaction := fun e => e }

/-- A backend on which every statement and every commit succeeds, and whose
`ReadWriteTransaction` returns the error of its callback. -/
def Backend.healthy : Backend :=
  { update := fun _ _ => none, query := fun _ _ => none, readWriteTransaction := fun e => e }

/-- The statement `INSERT INTO foo (f1) VALUES (0)` of the driver tests. -/
def insertFoo : SpannerStatement :=
  { SQL := bytes "INSERT INTO foo (f1) VALUES (0)", Params := [] }

/-- The invariant of the bridge: while the command channel field is not nil, no
failure is recorded in `err`, and the channel is open unless the caller is inside
`finish`, past its `close`. -/
def Inv (s : System) : Prop :=
  ∀ t, s.c.txn = some t → ∀ ch, t.txnOpCh = some ch →
    t.err = none ∧ (s.caller = .commitRecv ∨ s.caller = .rollbackRecv ∨ ch.closed = false)

/-! ## statement.go: execution -/

/-- The struct `driver.NamedValue`: its fields `Ordinal` and `Value`. -/
structure NamedValue where
  Ordinal : Int
  Value : Value
  deriving DecidableEq, Repr

/-- The statement `m[k] = v` on a Go map: the binding of `k`, if any, is replaced. -/
def mapSet (m : List (List Byte × Value)) (k : List Byte) (v : Value) :
    List (List Byte × Value) :=
  (k, v) :: m.filter (fun kv => kv.1 != k)

/-- The error made by `fmt.Errorf` in `spannerStatement`:
`spanner/statement: number of arguments in statement do not match`. -/
def errArgumentCount : Error := .other 0

/-- The loop `for _, argv := range args` of `spannerStatement`: the index
`argv.Ordinal-1` outside `s.args` is a panic, `none`. -/
def Statement.spannerStatement.loop (names : List (List Byte)) :
    List NamedValue → List (List Byte × Value) → Option (List (List Byte × Value))
  | [], params => some params
  | argv :: rest, params =>
    if argv.Ordinal < 1 then none
    else
      match names[(argv.Ordinal - 1).toNat]? with
      | none => none
      | some pn => Statement.spannerStatement.loop names rest (mapSet params pn argv.Value)

/-- The method `Statement.spannerStatement`: `none` is a panic. -/
def Statement.spannerStatement (s : Statement) (args : List NamedValue) :
    Option (Except Error SpannerStatement) :=
  if s.args.length ≠ args.length then some (.error errArgumentCount)
  else
    match Statement.spannerStatement.loop s.args args [] with
    | none => none
    | some params => some (.ok { SQL := s.sql, Params := params })

/-- How `ExecContext` and `QueryContext` end: they return an error themselves, or
they end in the call `s.conn.exec(ctx, *stmt)` or `s.conn.query(ctx, *stmt)`. -/
inductive Dispatched
  | returned (e : Error)
  | exec (stmt : SpannerStatement)
  | query (stmt : SpannerStatement)
  deriving DecidableEq, Repr

/-- The method `Statement.ExecContext`: `none` is a panic. -/
def Statement.ExecContext (s : Statement) (args : List NamedValue) : Option Dispatched :=
  match s.spannerStatement args with
  | none => none
  | some (.error e) => some (.returned e)
  | some (.ok stmt) => some (.exec stmt)

/-- The method `Statement.QueryContext`: `none` is a panic. -/
def Statement.QueryContext (s : Statement) (args : List NamedValue) : Option Dispatched :=
  match s.spannerStatement args with
  | none => none
  | some (.error e) => some (.returned e)
  | some (.ok stmt) => some (.query stmt)

/-- The state a step has led to, or `d`. -/
def Step.getD {σ : Type} (d : σ) : Step σ → σ
  | .ok s => s
  | .blocked => d
  | .panic => d

/-- The state after `BeginTx` and an `exec` whose closure the backend refused: the
loop has exited and reported, the call has returned. -/
def afterFailedExec : System :=
  Step.getD System.init (runTrace Backend.refusing
    [.BeginTx false, .exec insertFoo, .send, .selectOp, .report, .wait] System.init)

/-- The state `afterFailedExec` once `Commit` has closed the command channel. -/
def afterFailedExecCommit : System :=
  Step.getD System.init (step Backend.refusing .Commit afterFailedExec)

/-- The state after `BeginTx` and a `Rollback` that has closed both channels, the loop
having taken the rollback signal and reported. -/
def atRollbackRecv : System :=
  Step.getD System.init (runTrace Backend.healthy
    [.BeginTx false, .Rollback, .finishClose, .selectRollback, .report] System.init)

/-- A parameter-name list whose entries are aligned with their position or empty:
entry `i+1` is `param_(i+1)` or the empty string. -/
def alignedOrEmpty (args : List (List Byte)) : Prop :=
  ∀ (i : Nat) (name : List Byte), args[i]? = some name → name = paramName (i + 1) ∨ name = []

/-! ## rows.go -/

/-- The error `iterator.Done` of `google.golang.org/api/iterator`. -/
def iteratorDone : Error := .other 1

/-- The error `io.EOF`. -/
def ioEOF : Error := .other 2

/-- The error of a `Decode` that does not fit the type or the value of the column. -/
def errDecode : Error := .other 4

/-- The error the Spanner client returns from `Next` after `Stop`. -/
def errNextAfterStop : Error := .other 5

/-- The enumeration `sppb.TypeCode`. -/
inductive TypeCode
  | TYPE_CODE_UNSPECIFIED
  | BOOL
  | INT64
  | FLOAT64
  | TIMESTAMP
  | DATE
  | STRING
  | BYTES
  | ARRAY
  | STRUCT
  deriving DecidableEq, Repr

/-- A `float64`, known by its bits. -/
structure Float64 where
  bits : Nat
  deriving DecidableEq, Repr

/-- A `civil.Date`. -/
structure Date where
  Year : Int
  Month : Int
  Day : Int
  deriving DecidableEq, Repr

/-- A `time.Time`: an instant known by its nanoseconds, or the start of a day in a
location (`Date.In`). -/
inductive Time
  | instant (unixNano : Int)
  | dateIn (d : Date) (utc : Bool)
  deriving DecidableEq, Repr

/-- The struct `spanner.NullRow` over rows of type `ρ` (`spanner.Row`). -/
structure NullRow (ρ : Type) where
  Row : ρ
  Valid : Bool
  deriving DecidableEq, Repr

/-- What the field `Value` of a `spanner.GenericColumnValue` holds: NULL, or a value
of one of the types the driver decodes.  An `INT64` travels as a decimal string:
`int64 i` is the string of the integer `i`, of any size. -/
inductive ColumnValue (ρ : Type)
  | null
  | bool (b : Bool)
  | int64 (i : Int)
  | float64 (f : Float64)
  | timestamp (t : Time)
  | date (d : Date)
  | string (s : List Byte)
  | bytes (b : List Byte)
  | rows (rs : List (NullRow ρ))
  deriving DecidableEq, Repr

/-- The struct `spanner.GenericColumnValue`: the code of its type and its value. -/
structure GenericColumnValue (ρ : Type) where
  Code : TypeCode
  Value : ColumnValue ρ
  deriving DecidableEq, Repr

/-- The struct `SubRows`. -/
structure SubRows (ρ : Type) where
  cols : List (List Byte)
  index : Nat
  rows : List (NullRow ρ)
  deriving DecidableEq, Repr

/-- What a non-nil `interface{}` returned by `convert` holds.  A `[]byte` is `none`
when it is the nil slice; `subRows` is a `*SubRows`. -/
inductive GoValue (ρ : Type)
  | bool (b : Bool)
  | int64 (i : Int)
  | float64 (f : Float64)
  | time (t : Time)
  | string (s : List Byte)
  | bytes (b : Option (List Byte))
  | subRows (r : SubRows ρ)
  deriving DecidableEq, Repr

/-- The methods of `spanner.Row` the driver calls: `Column(i, &gcv)` with a
`GenericColumnValue` as target, and `ColumnNames()`. -/
structure RowClient (ρ : Type) where
  Column : ρ → Nat → Except Error (GenericColumnValue ρ)
  ColumnNames : ρ → List (List Byte)

/-- The call `g.Decode(&val)` of the Spanner client, for a target `val` of the `Null`
type (or slice type) that belongs to the type code `want`: an error when the column
has another type code; a NULL value leaves `val` null (`none`: `Valid` false, or the
nil slice); a value of the type is stored; any other value is an error.  The target
`[]NullRow` belongs to the code `ARRAY` (of `STRUCT` elements), not to `STRUCT`. -/
def GenericColumnValue.Decode {ρ α : Type} (g : GenericColumnValue ρ) (want : TypeCode)
    (pick : ColumnValue ρ → Option α) : Except Error (Option α) :=
  if g.Code ≠ want then .error errDecode
  else
    match g.Value with
    | .null => .ok none
    | v =>
      match pick v with
      | some a => .ok (some a)
      | none => .error errDecode

/-- The scalar cases of `convert` but `BYTES`: `Decode`, then `nil, nil` when
`val.IsNull()`, the value otherwise. -/
def convert.scalar {ρ α : Type} (g : GenericColumnValue ρ) (want : TypeCode)
    (pick : ColumnValue ρ → Option α) (wrap : α → GoValue ρ) :
    Option (GoValue ρ) × Option Error :=
  match g.Decode want pick with
  | .error e => (none, some e)
  | .ok none => (none, none)
  | .ok (some a) => (some (wrap a), none)

/-- The Go function `convert`: the `interface{}` and the error it returns.  In the
case `BYTES` the variable `val` of type `[]byte` is returned as it is, with the error
of `Decode`.  In the case `INT64` the client parses the decimal string with
`strconv.ParseInt(x, 10, 64)`: a value outside `int64` is an error.  In the case
`STRUCT` the target of `Decode` is a `[]NullRow`, which the client fills from a column
of code `ARRAY` only. -/
def convert {ρ : Type} (C : RowClient ρ) (g : GenericColumnValue ρ) :
    Option (GoValue ρ) × Option Error :=
  match g.Code with
  | .BOOL => convert.scalar g .BOOL (fun v => match v with | .bool b => some b | _ => none) .bool
  | .INT64 =>
    convert.scalar g .INT64
      (fun v => match v with
        | .int64 i => if -(2 : Int) ^ 63 ≤ i ∧ i < 2 ^ 63 then some i else none
        | _ => none)
      .int64
  | .FLOAT64 =>
    convert.scalar g .FLOAT64 (fun v => match v with | .float64 f => some f | _ => none)
      .float64
  | .TIMESTAMP =>
    convert.scalar g .TIMESTAMP (fun v => match v with | .timestamp t => some t | _ => none)
      .time
  | .DATE =>
    convert.scalar g .DATE (fun v => match v with | .date d => some d | _ => none)
      (fun d => .time (.dateIn d true))
  | .STRING =>
    convert.scalar g .STRING (fun v => match v with | .string s => some s | _ => none)
      .string
  | .BYTES =>
    match g.Decode .BYTES (fun v => match v with | .bytes b => some b | _ => none) with
    | .error e => (some (.bytes none), some e)
    | .ok val => (some (.bytes val), none)
  | .STRUCT =>
    match g.Decode .ARRAY (fun v => match v with | .rows rs => some rs | _ => none) with
    | .error e => (none, some e)
    | .ok val =>
      match val.getD [] with
      | [] => (none, none)
      | first :: rest =>
        (some (.subRows { cols := C.ColumnNames first.Row, index := 0, rows := first :: rest }),
          none)
  | _ => (none, some .ErrUnsupported)

/-- The loop of `decodeValues` from index `i`, with `n` entries of `dest` to go. -/
def decodeValues.loop {ρ : Type} (C : RowClient ρ) (row : ρ) :
    Nat → Nat → List (Option (GoValue ρ)) → List (Option (GoValue ρ)) × Option Error
  | 0, _, dest => (dest, none)
  | n + 1, i, dest =>
    match C.Column row i with
    | .error e => (dest, some e)
    | .ok gcv =>
      match convert C gcv with
      | (_, some e) => (dest, some e)
      | (val, none) => decodeValues.loop C row n (i + 1) (dest.set i val)

/-- The Go function `decodeValues`: the buffer `dest` after the call and the error. -/
def decodeValues {ρ : Type} (C : RowClient ρ) (dest : List (Option (GoValue ρ))) (row : ρ) :
    List (Option (GoValue ρ)) × Option Error :=
  decodeValues.loop C row dest.length 0 dest

/-- A `spanner.RowIterator`: the rows still to come, the error that ends the stream
(`iterator.Done` at the end of the data), and its field `err`. -/
structure RowIterator (ρ : Type) where
  rows : List ρ
  last : Error
  err : Option Error
  deriving DecidableEq, Repr

/-- The method `RowIterator.Next`: a recorded error is returned again; otherwise the
next row, or the error that ends the stream, which is recorded. -/
def RowIterator.Next {ρ : Type} (ri : RowIterator ρ) : Except Error ρ × RowIterator ρ :=
  match ri.err with
  | some e => (.error e, ri)
  | none =>
    match ri.rows with
    | row :: rest => (.ok row, { ri with rows := rest })
    | [] => (.error ri.last, { ri with err := some ri.last })

/-- The method `RowIterator.Stop`: after it `Next` returns an error. -/
def RowIterator.Stop {ρ : Type} (ri : RowIterator ρ) : RowIterator ρ :=
  match ri.err with
  | some _ => ri
  | none => { ri with err := some errNextAfterStop }

/-- The struct `Rows`: `r1` and `ri` are `none` when they are nil. -/
structure Rows (ρ : Type) where
  cols : List (List Byte)
  r1 : Option ρ
  ri : Option (RowIterator ρ)
  deriving DecidableEq, Repr

/-- The method `Rows.Close`: the cursor after the call and the error returned. -/
def Rows.Close {ρ : Type} (r : Rows ρ) : Rows ρ × Option Error :=
  match r.ri with
  | some ri => ({ r with ri := some ri.Stop }, none)
  | none => (r, none)

/-- The method `Rows.Next`: the cursor and the buffer `dest` after the call, and the
error returned. -/
def Rows.Next {ρ : Type} (C : RowClient ρ) (r : Rows ρ) (dest : List (Option (GoValue ρ))) :
    Rows ρ × List (Option (GoValue ρ)) × Option Error :=
  match r.r1, r.ri with
  | none, none => (r, dest, some ioEOF)
  | some row, _ => ({ r with r1 := none }, decodeValues C dest row)
  | none, some ri =>
    match ri.Next with
    | (.ok row, ri') => ({ r with ri := some ri' }, decodeValues C dest row)
    | (.error e, ri') =>
      ({ r with ri := some ri' }, dest, if e = iteratorDone then some ioEOF else some e)

/-- The end of `conn.query`, from `row, err := ri.Next()`: the cursor or the error
returned. -/
def conn.query.open {ρ : Type} (C : RowClient ρ) (ri : RowIterator ρ) :
    Except Error (Rows ρ) :=
  match ri.Next with
  | (.error e, _) =>
    if e = iteratorDone then .ok { cols := [], r1 := none, ri := none } else .error e
  | (.ok row, ri') => .ok { cols := C.ColumnNames row, r1 := some row, ri := some ri' }

/-- The outcome of `n` successive calls of `Rows.Next`, each with the buffer `dest`:
the buffer after each call and the error it returned. -/
def Rows.NextN {ρ : Type} (C : RowClient ρ) (dest : List (Option (GoValue ρ))) :
    Nat → Rows ρ → List (List (Option (GoValue ρ)) × Option Error)
  | 0, _ => []
  | n + 1, r =>
    match r.Next C dest with
    | (r', out) => out :: Rows.NextN C dest n r'

/-- The loop `for !r.rows[r.index].Valid { r.index++ }` of `SubRows.Next` on the rows
from `index` on, and the load of `r.rows[r.index].Row`: the index reached and the row,
or `none` for the panic of an index out of range. -/
def SubRows.Next.skip {ρ : Type} : List (NullRow ρ) → Nat → Option (Nat × ρ)
  | [], _ => none
  | nr :: rest, index =>
    if nr.Valid then some (index, nr.Row) else SubRows.Next.skip rest (index + 1)

/-- The method `SubRows.Next`: the cursor and the buffer after the call and the error
returned, or `none` for a panic. -/
def SubRows.Next {ρ : Type} (C : RowClient ρ) (r : SubRows ρ)
    (dest : List (Option (GoValue ρ))) :
    Option (SubRows ρ × List (Option (GoValue ρ)) × Option Error) :=
  match SubRows.Next.skip (r.rows.drop r.index) r.index with
  | none => none
  | some (index, row) => some ({ r with index := index + 1 }, decodeValues C dest row)

/-- A client whose rows are known by a number `n`: a row has the one column `f1`, an
`INT64` of value `n`. -/
def RowClient.numbered : RowClient Nat :=
  { Column := fun n i =>
      if i = 0 then .ok { Code := .INT64, Value := .int64 n } else .error (.other 6)
    ColumnNames := fun _ => [bytes "f1"] }

/-! ## transaction.go: the loop of `runTx` as a function -/

/-- What the `select` of `runTx` receives in one round: a closure from `txnOpCh`, the
end of the closed `txnOpCh` (`ok == false`), or the rollback signal. -/
inductive Selected
  | op (o : transactionOp)
  | closed
  | rollback
  deriving DecidableEq, Repr

/-- A run of `runTx`: the closures it ran, each with the error it returned, in the
order they were run; the statements sent to the backend after it; and the error
`runTx` returned (`none` while the loop waits at its `select`). -/
structure RunTx where
  executed : List (transactionOp × Option Error)
  calls : List SpannerStatement
  returned : Option (Option Error)
  deriving DecidableEq, Repr

/-- The method `transaction.runTx` on the sequence of what its `select` receives, from
the value `result` of its local variable and the statements `calls` sent so far. -/
def transaction.runTx.loop (B : Backend) (readonly : Bool) :
    List Selected → Option Error → List SpannerStatement → RunTx
  | [], _, calls => { executed := [], calls := calls, returned := none }
  | .op o :: evs, _, calls =>
    match o.run B readonly calls with
    | (calls', result, _) =>
      if result.isSome then { executed := [(o, result)], calls := calls', returned := some result }
      else
        let out := transaction.runTx.loop B readonly evs result calls'
        { out with executed := (o, result) :: out.executed }
  | .closed :: _, result, calls => { executed := [], calls := calls, returned := some result }
  | .rollback :: _, _, calls =>
    { executed := [], calls := calls, returned := some (some .ErrRollback) }

/-- The commands `ops` run one after the other in the order of the list, every one of
them whatever it returns: the statements sent to the backend after the last, and the
errors the commands returned, in their order. -/
def transactionOp.runEach (B : Backend) (readonly : Bool) :
    List transactionOp → List SpannerStatement → List SpannerStatement × List (Option Error)
  | [], calls => (calls, [])
  | o :: ops, calls =>
    match transactionOp.runEach B readonly ops (o.run B readonly calls).1 with
    | (calls', results) => (calls', (o.run B readonly calls).2.1 :: results)

/-- The rows of `rs` marked valid, in their order. -/
def validRows {ρ : Type} (rs : List (NullRow ρ)) : List ρ :=
  (rs.filter (fun nr => nr.Valid)).map (fun nr => nr.Row)

/-- The state after `BeginTx` and a `Rollback` that has returned nil. -/
def atRollbackDone : System :=
  Step.getD System.init (runTrace Backend.healthy
    [.BeginTx false, .Rollback, .finishClose, .selectRollback, .report, .recv] System.init)

/-! ## dsn.go -/

/-- The struct `DSN`. -/
structure DSN where
  ProjectName : List Byte
  InstanceName : List Byte
  DatabaseName : List Byte
  deriving DecidableEq, Repr

/-- The elements of a path: the parts between its slashes (`strings.Split(path, "/")`). -/
def splitSlash : List Byte → List (List Byte)
  | [] => [[]]
  | b :: rest =>
    if b = 47 then [] :: splitSlash rest
    else
      match splitSlash rest with
      | cur :: more => (b :: cur) :: more
      | [] => [[b]]

/-- The elements joined by slashes. -/
def joinSlash : List (List Byte) → List Byte
  | [] => []
  | [e] => e
  | e :: es => e ++ 47 :: joinSlash es

/-- One round of the loop of `path.Clean`, on the path element `elem`: `out` holds the
elements written so far, of which the first `dotdot` are `..` elements that cannot be
removed.  An empty element and `.` are dropped; `..` removes the last element, or is
kept at the start of a path that is not rooted; any other element is added. -/
def pathClean.step (rooted : Bool) (st : List (List Byte) × Nat) (elem : List Byte) :
    List (List Byte) × Nat :=
  if elem = [] ∨ elem = [46] then st
  else if elem = [46, 46] then
    if st.1.length > st.2 then (st.1.dropLast, st.2)
    else if rooted then st
    else (st.1 ++ [elem], st.1.length + 1)
  else (st.1 ++ [elem], st.2)

/-- The function `path.Clean` of the Go library. -/
def pathClean (path : List Byte) : List Byte :=
  if path = [] then [46]
  else
    let rooted := path.head? = some 47
    let out := ((splitSlash path).foldl (pathClean.step rooted) ([], 0)).1
    if rooted then 47 :: joinSlash out
    else if out = [] then [46]
    else joinSlash out

/-- The function `path.Join` of the Go library: the empty string when every element is
empty, otherwise the elements that are not empty, joined by slashes and cleaned. -/
def pathJoin (elem : List (List Byte)) : List Byte :=
  if elem.all (fun e => e.isEmpty) then []
  else pathClean (joinSlash (elem.filter (fun e => !e.isEmpty)))

/-- The method `DSN.String`. -/
def DSN.String (d : DSN) : List Byte :=
  pathJoin [bytes "projects", d.ProjectName, bytes "instances", d.InstanceName,
    bytes "databases", d.DatabaseName]

/-- The function `ishex` of `net/url`. -/
def ishex (c : Byte) : Bool :=
  (decide (48 ≤ c) && decide (c ≤ 57)) || (decide (97 ≤ c) && decide (c ≤ 102))
    || (decide (65 ≤ c) && decide (c ≤ 70))

/-- The function `unhex` of `net/url`. -/
def unhex (c : Byte) : Byte :=
  if decide (48 ≤ c) && decide (c ≤ 57) then c - 48
  else if decide (97 ≤ c) && decide (c ≤ 102) then c - 97 + 10
  else if decide (65 ≤ c) && decide (c ≤ 70) then c - 65 + 10
  else 0

/-- The function `unescape` of `net/url` in the modes of a path, of a path segment and
of a fragment: a `%` that two hexadecimal digits do not follow is an error (`none`),
`%XX` becomes the byte `XX`, every other byte stays. -/
def unescape : List Byte → Option (List Byte)
  | [] => some []
  | b :: rest =>
    if b = 37 then
      match rest with
      | h1 :: h2 :: rest' =>
        if ishex h1 && ishex h2 then
          match unescape rest' with
          | some s => some ((unhex h1 <<< 4 ||| unhex h2) :: s)
          | none => none
        else none
      | _ => none
    else
      match unescape rest with
      | some s => some (b :: s)
      | none => none

/-- The call `strings.Cut(s, sep)` for a separator of one byte: the part before the
first `sep` and the part after it, if there is one. -/
def cutByte (sep : Byte) : List Byte → List Byte × Option (List Byte)
  | [] => ([], none)
  | b :: rest =>
    if b = sep then ([], some rest)
    else
      match cutByte sep rest with
      | (before, after) => (b :: before, after)

/-- The function `stringContainsCTLByte` of `net/url`. -/
def stringContainsCTLByte (s : List Byte) : Bool :=
  s.any (fun b => decide (b < 32) || b == 127)

/-- The loop of `getScheme` of `net/url`: `seen` is the part of the URL read, `rest`
the part to read.  The result is the scheme and what follows it, or `none` for the
error of a URL that starts with a colon. -/
def getScheme.loop (rawURL : List Byte) :
    List Byte → List Byte → Option (List Byte × List Byte)
  | _, [] => some ([], rawURL)
  | seen, c :: rest =>
    if (decide (97 ≤ c) && decide (c ≤ 122)) || (decide (65 ≤ c) && decide (c ≤ 90)) then
      getScheme.loop rawURL (seen ++ [c]) rest
    else if (decide (48 ≤ c) && decide (c ≤ 57)) || c == 43 || c == 45 || c == 46 then
      if seen = [] then some ([], rawURL) else getScheme.loop rawURL (seen ++ [c]) rest
    else if c = 58 then
      if seen = [] then none else some (seen, rest)
    else some ([], rawURL)

/-- The function `getScheme` of `net/url`. -/
def getScheme (rawURL : List Byte) : Option (List Byte × List Byte) :=
  getScheme.loop rawURL [] rawURL

/-- The function `strings.ToLower` on ASCII letters. -/
def toLower (s : List Byte) : List Byte :=
  s.map (fun c => if decide (65 ≤ c) && decide (c ≤ 90) then c + 32 else c)

/-- The fields of `url.URL` that `url.Parse` fills, but the user and the host. -/
structure URL where
  Scheme : List Byte
  Opaque : List Byte
  Path : List Byte
  RawQuery : List Byte
  Fragment : List Byte
  deriving DecidableEq, Repr

/-- The function `parse` of `net/url` with `viaRequest` false.  `authorityOk` tells
which authorities `parseAuthority` accepts other than the empty one, which it
accepts; `none` is an error. -/
def urlParse.parse (authorityOk : List Byte → Bool) (rawURL : List Byte) : Option URL :=
  if stringContainsCTLByte rawURL then none
  else if rawURL = [42] then
    some { Scheme := [], Opaque := [], Path := [42], RawQuery := [], Fragment := [] }
  else
    match getScheme rawURL with
    | none => none
    | some (scheme, rest0) =>
      let scheme := toLower scheme
      match cutByte 63 rest0 with
      | (rest, query) =>
        if rest.head? ≠ some 47 ∧ scheme ≠ [] then
          some { Scheme := scheme, Opaque := rest, Path := [], RawQuery := query.getD [],
                 Fragment := [] }
        else if rest.head? ≠ some 47 ∧ (cutByte 47 rest).1.contains 58 then none
        else
          let authority : Option (List Byte × List Byte) :=
            if (scheme ≠ [] ∨ rest.take 3 ≠ [47, 47, 47]) ∧ rest.take 2 = [47, 47] then
              match cutByte 47 (rest.drop 2) with
              | (a, none) => some (a, [])
              | (a, some after) => some (a, 47 :: after)
            else some ([], rest)
          match authority with
          | none => none
          | some (a, rest') =>
            if a ≠ [] ∧ authorityOk a = false then none
            else
              match unescape rest' with
              | none => none
              | some path =>
                some { Scheme := scheme, Opaque := [], Path := path, RawQuery := query.getD [],
                       Fragment := [] }

/-- The function `url.Parse`: the fragment is cut off at the first `#`, the rest is
parsed, and the fragment is unescaped. -/
def urlParse (authorityOk : List Byte → Bool) (rawURL : List Byte) : Option URL :=
  match cutByte 35 rawURL with
  | (u, frag) =>
    match urlParse.parse authorityOk u with
    | none => none
    | some url =>
      match frag with
      | none => some url
      | some f =>
        if f = [] then some url
        else
          match unescape f with
          | none => none
          | some f' => some { url with Fragment := f' }

/-- The text `s` after the literal `lit`, when `s` starts with it. -/
def dropLiteral : List Byte → List Byte → Option (List Byte)
  | [], s => some s
  | _ :: _, [] => none
  | l :: lit, b :: s => if l = b then dropLiteral lit s else none

/-- The longest run of bytes other than `/` at the start of `s`, and what follows it. -/
def nameRun : List Byte → List Byte × List Byte
  | [] => ([], [])
  | b :: rest =>
    if b = 47 then ([], b :: rest)
    else
      match nameRun rest with
      | (name, after) => (b :: name, after)

/-- A group `([^/]+)`: the longest run of bytes other than `/` at the start of `s`, which
must not be empty, and what follows it. -/
def nameGroup (s : List Byte) : Option (List Byte × List Byte) :=
  match nameRun s with
  | ([], _) => none
  | (name, rest) => some (name, rest)

/-- The call `dnsPathRegexp.FindStringSubmatch(dsn)` for the expression
`^/?projects/([^/]+)/instances/([^/]+)/databases/([^/]+)/?$`: the three groups of
the match, or `none` when the path does not match. -/
def dnsPathRegexp (path : List Byte) : Option (List Byte × List Byte × List Byte) :=
  let s := if path.head? = some 47 then path.tail else path
  match dropLiteral (bytes "projects/") s with
  | none => none
  | some s1 =>
    match nameGroup s1 with
    | none => none
    | some (p, s2) =>
      match dropLiteral (bytes "/instances/") s2 with
      | none => none
      | some s3 =>
        match nameGroup s3 with
        | none => none
        | some (i, s4) =>
          match dropLiteral (bytes "/databases/") s4 with
          | none => none
          | some s5 =>
            match nameGroup s5 with
            | none => none
            | some (d, s6) => if s6 = [] ∨ s6 = [47] then some (p, i, d) else none

/-- The errors made by `fmt.Errorf` in `ParseConnectionURI`: not a valid URI, an
invalid scheme, an invalid path. -/
def errInvalidURI : Error := .other 7

/-- The error `spanner/driver: invalid uri scheme`. -/
def errInvalidScheme : Error := .other 8

/-- The error `spanner/driver: invalid uri ...; expected projects/P/instances/I/databases/D`. -/
def errInvalidPath : Error := .other 9

/-- The Go function `ParseConnectionURI`: the `DSN` or the error it returns.  The
error of `url.PathUnescape` is dropped, and the name is then empty. -/
def ParseConnectionURI (authorityOk : List Byte → Bool) (uri : List Byte) : Except Error DSN :=
  match urlParse authorityOk uri with
  | none => .error errInvalidURI
  | some u =>
    if u.Scheme = [] ∨ u.Scheme = bytes "spanner" then
      match dnsPathRegexp u.Path with
      | none => .error errInvalidPath
      | some (m1, m2, m3) =>
        .ok { ProjectName := (unescape m1).getD [], InstanceName := (unescape m2).getD [],
              DatabaseName := (unescape m3).getD [] }
    else .error errInvalidScheme

/-- The canonical form `projects/P/instances/I/databases/D`. -/
def canonical (P I D : List Byte) : List Byte :=
  bytes "projects/" ++ P ++ bytes "/instances/" ++ I ++ bytes "/databases/" ++ D

/-- A path of the shape `projects/<P>/instances/<I>/databases/<D>` with three names
that are not empty and hold no slash, after at most one slash and before at most one
slash. -/
def pathShape (path : List Byte) : Prop :=
  ∃ (P I D lead trail : List Byte), P ≠ [] ∧ I ≠ [] ∧ D ≠ [] ∧ (47 : Byte) ∉ P ∧ (47 : Byte) ∉ I
    ∧ (47 : Byte) ∉ D ∧ (lead = [] ∨ lead = [47]) ∧ (trail = [] ∨ trail = [47])
    ∧ path = lead ++ canonical P I D ++ trail

/-- A name the URL syntax leaves as it is: not empty, without `/`, `%`, `?`, `#` and
control bytes, and neither `.` nor `..`. -/
def plainName (n : List Byte) : Prop :=
  n ≠ [] ∧ n ≠ [46] ∧ n ≠ [46, 46]
    ∧ ∀ b ∈ n, b ≠ 47 ∧ b ≠ 37 ∧ b ≠ 63 ∧ b ≠ 35 ∧ ¬ b < 32 ∧ b ≠ 127

/-- The connection strings of the names `P`, `I`, `D`: the canonical form after
`spanner:///`, alone, or after one slash, each with or without one slash at the end. -/
def uriForms (P I D : List Byte) : List (List Byte) :=
  [bytes "spanner:///" ++ canonical P I D, bytes "spanner:///" ++ canonical P I D ++ [47],
   canonical P I D, canonical P I D ++ [47],
   [47] ++ canonical P I D, [47] ++ canonical P I D ++ [47]]

/-- A byte that `url.Parse` leaves in a path as it is. -/
def safeByte (b : Byte) : Prop := b ≠ 37 ∧ b ≠ 63 ∧ b ≠ 35 ∧ ¬ b < 32 ∧ b ≠ 127

/-- A path element that `path.Clean` keeps: not empty, not `.`, not `..`. -/
def realElem (e : List Byte) : Prop := e ≠ [] ∧ e ≠ [46] ∧ e ≠ [46, 46]

/-- A letter of ASCII, as `getScheme` tests it. -/
def isLetter (c : Byte) : Bool :=
  (decide (97 ≤ c) && decide (c ≤ 122)) || (decide (65 ≤ c) && decide (c ≤ 90))

/-- A byte that may follow the first letter of a scheme: a letter, a digit, `+`, `-`
or `.`. -/
def isSchemeByte (c : Byte) : Bool :=
  isLetter c || ((decide (48 ≤ c) && decide (c ≤ 57)) || c == 43 || c == 45 || c == 46)

/-- A scheme as a connection string is written with: a letter, then letters, digits,
`+`, `-` and `.`. -/
def schemeName : List Byte → Bool
  | [] => false
  | c :: rest => isLetter c && rest.all isSchemeByte

/-- A byte that stays in the path of a URL: not `?`, not `#`, no control byte. -/
def pathByte (b : Byte) : Prop := b ≠ 63 ∧ b ≠ 35 ∧ ¬ b < 32 ∧ b ≠ 127

/-- No `$` of `q` is directly followed by the digit `0`. -/
def noDollarZero : List Byte → Bool
  | [] => true
  | b :: rest => !(b == 36 && rest.head? == some 48) && noDollarZero rest

/-! ## statement.go with the allocation of the parameter names -/

/-- The call `make([]string, n)` in a run of the program in which the runtime gives a
slice of strings of length up to `maxLen` and no longer one: the `n` empty strings, or
`none` when the call does not return (the panic `makeslice: len out of range`, or the
end of the program for lack of memory). -/
def makeStrings (maxLen n : Nat) : Option (List (List Byte)) :=
  if maxLen < n then none else some (List.replicate n [])

/-- The method `statmentBuilder.WriteParam` with its allocation: `make([]string, p)`
when `p > len(s.args)`, then `copy(newArgs, s.args)`, then the store `s.args[p-1] = pn`,
out of range for `p = 0`.  The result is `none` when the call does not return. -/
def statmentBuilder.WriteParamWithin (maxLen : Nat) (s : statmentBuilder) (p : Nat) :
    Option statmentBuilder :=
  let grown : Option (List (List Byte)) :=
    if p > s.args.length then
      match makeStrings maxLen p with
      | none => none
      | some newArgs => some (s.args ++ newArgs.drop s.args.length)
    else some s.args
  match grown with
  | none => none
  | some args =>
    if p = 0 then none
    else some { s with args := args.set (p - 1) (paramName p), sb := s.sb ++ (64 :: paramName p) }

/-- The method `statmentBuilder.AutoParam` with the allocation of `WriteParam`. -/
def statmentBuilder.AutoParamWithin (maxLen : Nat) (s : statmentBuilder) :
    Option statmentBuilder :=
  statmentBuilder.WriteParamWithin maxLen { s with pi := s.pi + 1 } (s.pi + 1)

/-- The Go function `parseArg` with the allocation of `WriteParam`. -/
def parseArgWithin (maxLen : Nat) (r : List Byte) (stmt : statmentBuilder) :
    Option (Byte × Bool × List Byte × statmentBuilder) :=
  match parseArg.scan r [] with
  | (b, rest, arg) =>
    match ParseInt arg with
    | .error _ => some (b, true, rest, stmt)
    | .ok pn =>
      match stmt.WriteParamWithin maxLen pn with
      | none => none
      | some stmt' => some (b, false, rest, stmt')

/-- The `for` loop of `parseStatement` with the allocation of `WriteParam`, one
iteration per unit of fuel. -/
def parseStatementWithin.loop (maxLen : Nat) :
    Nat → Bool → Byte → Bool → List Byte → statmentBuilder → Run statmentBuilder
  | 0, _, _, _, _, _ => .outOfFuel
  | fuel + 1, escaped, b, err, r, sb =>
    if escaped then
      match ReadByte r with
      | (b', err', r') => parseStatementWithin.loop maxLen fuel false b' err' r' (sb.WriteByte b)
    else if b = 36 then
      match parseArgWithin maxLen r sb with
      | none => .panicked
      | some (b', err', r', sb') => parseStatementWithin.loop maxLen fuel false b' err' r' sb'
    else
      let after : Bool × Option statmentBuilder :=
        if b = 0 then (false, some sb)
        else if b = 92 then (true, some sb)
        else if b = 63 then (false, sb.AutoParamWithin maxLen)
        else (false, some (sb.WriteByte b))
      match after with
      | (_, none) => .panicked
      | (escaped', some sb') =>
        if err then .done sb'
        else
          match ReadByte r with
          | (b', err', r') => parseStatementWithin.loop maxLen fuel escaped' b' err' r' sb'

/-- The Go function `parseStatement` with the allocation of `WriteParam`, in a run in
which `make([]string, n)` returns for `n ≤ maxLen` only. -/
def parseStatementWithin (maxLen : Nat) (q : List Byte) : Run Statement :=
  match ReadByte q with
  | (b, err, r) =>
    match parseStatementWithin.loop maxLen (q.length + 2) false b err r
        { pi := 0, sb := [], args := [] } with
    | .done sb => .done sb.Statement
    | .panicked => .panicked
    | .outOfFuel => .outOfFuel

/-- The method `conn.Prepare`: the statement of `parseStatement` with the nil error; when
`parseStatement` does not return, `Prepare` does not.  The store `stmt.conn = c` has no
counterpart, `Statement` being modelled without its back pointer. -/
def conn.Prepare (maxLen : Nat) (_c : conn) (query : List Byte) :
    Run (Statement × Option Error) :=
  match parseStatementWithin maxLen query with
  | .done stmt => .done (stmt, none)
  | .panicked => .panicked
  | .outOfFuel => .outOfFuel

/-- What a run with the allocation makes of the outcome of a run without it: a
statement whose parameter names fit is returned, a longer one is not. -/
def Run.fit (maxLen : Nat) : Run statmentBuilder → Run statmentBuilder
  | .done sb => if sb.args.length ≤ maxLen then .done sb else .panicked
  | .panicked => .panicked
  | .outOfFuel => .outOfFuel

/-! # Properties -/

/-! ## Lemmas on the statement compiler -/

theorem isPlain_iff (b : Byte) : isPlain b = true ↔ b ≠ 0 ∧ b ≠ 92 ∧ b ≠ 36 ∧ b ≠ 63 := by
  simp [isPlain, and_assoc]

theorem start_nil (k : Nat) (sb : statmentBuilder) :
    parseStatement.start (k + 1) [] sb = .done sb := by
  simp [parseStatement.start, ReadByte, parseStatement.loop]

theorem start_cons (k : Nat) (b : Byte) (r : List Byte) (sb : statmentBuilder) :
    parseStatement.start k (b :: r) sb = parseStatement.loop k false b false r sb := by
  simp [parseStatement.start, ReadByte]

theorem start_plain (k : Nat) (b : Byte) (r : List Byte) (sb : statmentBuilder)
    (hb : isPlain b = true) :
    parseStatement.start (k + 1) (b :: r) sb = parseStatement.start k r (sb.WriteByte b) := by
  obtain ⟨h0, h92, h36, h63⟩ := (isPlain_iff b).1 hb
  simp [parseStatement.start, ReadByte, parseStatement.loop, h0, h92, h36, h63]

theorem start_text (t : List Byte) (ht : ∀ b ∈ t, isPlain b = true) :
    ∀ (k : Nat) (r : List Byte) (sb : statmentBuilder),
      parseStatement.start (k + t.length) (t ++ r) sb
        = parseStatement.start k r { sb with sb := sb.sb ++ t } := by
  induction t with
  | nil => intro k r sb; simp
  | cons b t ih =>
    intro k r sb
    have hb : isPlain b = true := ht b (by simp)
    have ht' : ∀ x ∈ t, isPlain x = true := fun x hx => ht x (by simp [hx])
    have : k + (b :: t).length = (k + t.length) + 1 := by simp; omega
    rw [this, List.cons_append, start_plain _ _ _ _ hb, ih ht']
    simp [statmentBuilder.WriteByte]

theorem autoParam_aligned (sb : statmentBuilder) (h : sb.args = paramNames sb.pi) :
    sb.AutoParam = some { pi := sb.pi + 1, sb := sb.sb ++ (64 :: paramName (sb.pi + 1)),
                          args := paramNames (sb.pi + 1) } := by
  have hl : sb.args.length = sb.pi := by rw [h]; simp [paramNames]
  simp only [statmentBuilder.AutoParam, statmentBuilder.WriteParam, hl]
  simp only [gt_iff_lt, Nat.lt_add_one, if_true, Nat.add_sub_cancel_left, Nat.add_one_ne_zero,
    if_false, Nat.add_sub_cancel]
  congr 2
  rw [h]
  simp [paramNames, List.range_succ]

theorem start_question (k : Nat) (r : List Byte) (sb sb' : statmentBuilder)
    (h : sb.AutoParam = some sb') :
    parseStatement.start (k + 1) (63 :: r) sb = parseStatement.start k r sb' := by
  simp [parseStatement.start, ReadByte, parseStatement.loop, h]

theorem start_autoQuery (ts : List (List Byte)) (hts : ∀ t ∈ ts, ∀ b ∈ t, isPlain b = true) :
    ∀ (k : Nat) (sb : statmentBuilder), sb.args = paramNames sb.pi →
      parseStatement.start (k + (autoQuery ts).length + 1) (autoQuery ts) sb
        = .done { pi := sb.pi + ts.length, sb := sb.sb ++ autoSql (sb.pi + 1) ts,
                  args := paramNames (sb.pi + ts.length) } := by
  induction ts with
  | nil =>
    intro k sb h
    simp only [autoQuery, autoSql, List.length_nil, Nat.add_zero, List.append_nil]
    rw [start_nil, ← h]
  | cons t ts ih =>
    intro k sb h
    have ht : ∀ b ∈ t, isPlain b = true := hts t (by simp)
    have hts' : ∀ t' ∈ ts, ∀ b ∈ t', isPlain b = true := fun t' h' => hts t' (by simp [h'])
    have hlen : k + (autoQuery (t :: ts)).length + 1
        = ((k + (autoQuery ts).length + 1) + t.length) + 1 := by
      simp [autoQuery]; omega
    rw [hlen]
    simp only [autoQuery]
    rw [start_question _ _ _ _ (autoParam_aligned sb h), start_text t ht, ih hts' _ _ rfl]
    simp [autoSql, Nat.add_assoc, Nat.add_comm 1]

theorem digitByte_isDigit (d : Nat) (hd : d < 10) : isDigit (digitByte d) = true := by
  interval_cases d <;> decide

theorem digitByte_toNat (d : Nat) (hd : d < 10) : (digitByte d).toNat - 48 = d := by
  interval_cases d <;> decide

theorem digitsValue_append (xs : List Byte) (b : Byte) :
    digitsValue (xs ++ [b]) = 10 * digitsValue xs + (b.toNat - 48) := by
  simp [digitsValue, List.foldl_append]

theorem formatDigits_all (fuel n : Nat) : (formatDigits fuel n).all isDigit = true := by
  induction fuel generalizing n with
  | zero => simp [formatDigits]
  | succ fuel ih =>
    unfold formatDigits
    split
    · simp [digitByte_isDigit _ ‹n < 10›]
    · have h10 : n % 10 < 10 := Nat.mod_lt _ (by decide)
      rw [List.all_append, ih]
      simp [digitByte_isDigit _ h10]

theorem formatDigits_ne_nil (fuel n : Nat) : formatDigits (fuel + 1) n ≠ [] := by
  unfold formatDigits
  split <;> simp

theorem formatDigits_value (fuel n : Nat) (h : n < fuel) :
    digitsValue (formatDigits fuel n) = n := by
  induction fuel generalizing n with
  | zero => omega
  | succ fuel ih =>
    unfold formatDigits
    split
    · rename_i hn
      have := digitsValue_append [] (digitByte n)
      simp only [List.nil_append] at this
      rw [this, digitByte_toNat _ hn]
      simp [digitsValue]
    · have h10 : n % 10 < 10 := Nat.mod_lt _ (by decide)
      rw [digitsValue_append, ih (n / 10) (by omega), digitByte_toNat _ h10]
      omega

theorem ParseInt_FormatInt (n : Nat) (h : n < 2 ^ 63) : ParseInt (FormatInt n) = .ok n := by
  have hv : digitsValue (FormatInt n) = n := formatDigits_value _ _ (Nat.lt_succ_self n)
  simp only [ParseInt, FormatInt, formatDigits_ne_nil, formatDigits_all, if_true, if_false]
  simp only [FormatInt] at hv
  rw [hv]
  simp only [h, if_true]

theorem ParseInt_FormatInt_range (n : Nat) (h : 2 ^ 63 ≤ n) :
    ParseInt (FormatInt n) = .error .ErrRange := by
  have hv : digitsValue (FormatInt n) = n := formatDigits_value _ _ (Nat.lt_succ_self n)
  simp only [ParseInt, FormatInt, formatDigits_ne_nil, formatDigits_all, if_true, if_false]
  simp only [FormatInt] at hv
  rw [hv]
  simp only [Nat.not_lt.2 h, if_false]

theorem scan_digits (ds : List Byte) (hds : ds.all isDigit = true) (c : Byte)
    (hc : isDigit c = false) (r : List Byte) :
    ∀ acc, parseArg.scan (ds ++ c :: r) acc = (c, r, acc ++ ds) := by
  induction ds with
  | nil => intro acc; simp [parseArg.scan, hc]
  | cons d ds ih =>
    intro acc
    simp only [List.all_cons, Bool.and_eq_true] at hds
    simp [parseArg.scan, hds.1, ih hds.2]

theorem scan_digits_end (ds : List Byte) (hds : ds.all isDigit = true) :
    ∀ acc, parseArg.scan ds acc = (0, [], acc ++ ds) := by
  induction ds with
  | nil => intro acc; simp [parseArg.scan]
  | cons d ds ih =>
    intro acc
    simp only [List.all_cons, Bool.and_eq_true] at hds
    simp [parseArg.scan, hds.1, ih hds.2]

theorem start_dollar (k n : Nat) (hn : n < 2 ^ 63) (c : Byte) (hc : isDigit c = false)
    (r : List Byte) (sb sb' : statmentBuilder) (h : sb.WriteParam n = some sb') :
    parseStatement.start (k + 1) (36 :: (FormatInt n ++ c :: r)) sb
      = parseStatement.start k (c :: r) sb' := by
  have hs := scan_digits (FormatInt n) (formatDigits_all _ _) c hc r []
  simp only [List.nil_append] at hs
  simp [parseStatement.start, ReadByte, parseStatement.loop, parseArg, hs,
    ParseInt_FormatInt n hn, h]

theorem start_dollar_bare (k : Nat) (c : Byte) (hc : isDigit c = false) (hp : isPlain c = true)
    (r : List Byte) (sb : statmentBuilder) :
    parseStatement.start (k + 2) (36 :: c :: r) sb = .done (sb.WriteByte c) := by
  obtain ⟨h0, h92, h36, h63⟩ := (isPlain_iff c).1 hp
  simp [parseStatement.start, ReadByte, parseStatement.loop, parseArg, parseArg.scan, hc,
    ParseInt, h0, h92, h36, h63]

theorem writeParam_pos (sb : statmentBuilder) (n : Nat) (hn : 1 ≤ n) :
    sb.WriteParam n = some
      { sb with
        args := (if n > sb.args.length then sb.args ++ List.replicate (n - sb.args.length) []
                 else sb.args).set (n - 1) (paramName n),
        sb := sb.sb ++ (64 :: paramName n) } := by
  have : n ≠ 0 := by omega
  simp [statmentBuilder.WriteParam, this]

theorem start_mixed (a b c : List Byte) (n : Nat)
    (ha : ∀ x ∈ a, isPlain x = true) (hb : ∀ x ∈ b, isPlain x = true)
    (hc : ∀ x ∈ c, isPlain x = true) (hb0 : ∀ x ∈ b.head?, isDigit x = false)
    (hn1 : 1 ≤ n) (hn : n < 2 ^ 63) (k : Nat) :
    parseStatement.start (((((k + 1) + c.length) + 1) + b.length) + 1 + a.length)
        (a ++ 36 :: (FormatInt n ++ (b ++ 63 :: c))) { pi := 0, sb := [], args := [] }
      = .done { pi := 1,
                sb := a ++ (64 :: paramName n) ++ b ++ (64 :: paramName 1) ++ c,
                args := ((List.replicate n []).set (n - 1) (paramName n)).set 0 (paramName 1) } := by
  obtain ⟨x, rest, hrest, hx⟩ : ∃ x rest, b ++ 63 :: c = x :: rest ∧ isDigit x = false := by
    cases b with
    | nil => exact ⟨63, c, rfl, by decide⟩
    | cons x b' => exact ⟨x, b' ++ 63 :: c, rfl, hb0 x (by simp)⟩
  rw [start_text a ha, hrest, start_dollar _ n hn x hx rest _ _ (writeParam_pos _ n hn1),
    ← hrest, start_text b hb]
  have hlen : ¬ (1 > ((List.replicate n ([] : List Byte)).set (n - 1) (paramName n)).length) := by
    simp; omega
  have hq : statmentBuilder.AutoParam
      { pi := 0, sb := [] ++ a ++ (64 :: paramName n) ++ b,
        args := (List.replicate n ([] : List Byte)).set (n - 1) (paramName n) }
      = some { pi := 1, sb := [] ++ a ++ (64 :: paramName n) ++ b ++ (64 :: paramName 1),
               args := ((List.replicate n ([] : List Byte)).set (n - 1) (paramName n)).set 0
                 (paramName 1) } := by
    simp only [statmentBuilder.AutoParam]
    rw [writeParam_pos _ 1 (le_refl 1)]
    simp only [Nat.zero_add, hlen, if_false, Nat.sub_self]
  have hn0 : n > 0 := hn1
  simp only [List.length_nil, hn0, if_true, Nat.sub_zero, List.nil_append] at hq ⊢
  rw [start_question _ _ _ _ hq]
  have := start_text c hc (k + 1) []
  simp only [List.append_nil] at this
  rw [this, start_nil]

theorem scan_length (r : List Byte) : ∀ acc, (parseArg.scan r acc).2.1.length ≤ r.length - 1 := by
  induction r with
  | nil => intro acc; simp [parseArg.scan]
  | cons b r ih =>
    intro acc
    simp only [parseArg.scan]
    split
    · have := ih (acc ++ [b])
      simp only [List.length_cons, Nat.add_sub_cancel]
      omega
    · simp

theorem parseArg_length (r : List Byte) (sb sb' : statmentBuilder) (b : Byte) (err : Bool)
    (r' : List Byte) (h : parseArg r sb = some (b, err, r', sb')) : r'.length ≤ r.length - 1 := by
  have hs := scan_length r []
  unfold parseArg at h
  split at h
  rename_i b0 rest arg hscan
  rw [hscan] at hs
  split at h
  · simp only [Option.some.injEq, Prod.mk.injEq] at h
    obtain ⟨_, _, h3, _⟩ := h
    rw [← h3]; exact hs
  · split at h
    · simp at h
    · simp only [Option.some.injEq, Prod.mk.injEq] at h
      obtain ⟨_, _, h3, _⟩ := h
      rw [← h3]; exact hs

theorem loop_eof (k : Nat) (sb : statmentBuilder) :
    parseStatement.loop (k + 1) false 0 true [] sb = .done sb := by
  simp [parseStatement.loop]

theorem loop_fuel : ∀ (n k : Nat) (escaped : Bool) (b : Byte) (err : Bool) (r : List Byte)
    (sb : statmentBuilder), r.length ≤ n → r.length + 3 ≤ k →
    parseStatement.loop k escaped b err r sb ≠ .outOfFuel := by
  intro n
  induction n with
  | zero =>
    intro k escaped b err r sb hn hk
    have hr : r = [] := List.length_eq_zero.mp (Nat.le_zero.mp hn)
    subst hr
    obtain ⟨k, rfl⟩ : ∃ k', k = k' + 3 := ⟨k - 3, by simp at hk; omega⟩
    rw [parseStatement.loop]
    split
    · simp only [ReadByte]
      rw [loop_eof]; simp
    · split
      · simp only [parseArg, parseArg.scan, ParseInt, if_true]
        rw [loop_eof]; simp
      · simp only []
        split
        · simp
        · split
          · simp
          · simp only [ReadByte]
            rename_i escaped' sb' _ _
            cases escaped'
            · rw [loop_eof]; simp
            · rw [parseStatement.loop]
              simp only [if_true, ReadByte]
              rw [loop_eof]; simp
  | succ n ih =>
    intro k escaped b err r sb hn hk
    cases r with
    | nil => exact ih k escaped b err [] sb (by simp) hk
    | cons c r =>
      obtain ⟨k, rfl⟩ : ∃ k', k = k' + 1 := ⟨k - 1, by omega⟩
      simp only [List.length_cons] at hn hk
      rw [parseStatement.loop]
      split
      · simp only [ReadByte]
        exact ih k false c false r _ (by omega) (by omega)
      · split
        · split
          · simp
          · rename_i b' err' r' sb' hp
            have := parseArg_length _ _ _ _ _ _ hp
            simp only [List.length_cons, Nat.add_sub_cancel] at this
            exact ih k false b' err' r' sb' (by omega) (by omega)
        · simp only []
          split
          · simp
          · split
            · simp
            · simp only [ReadByte]
              exact ih k _ c false r _ (by omega) (by omega)

/-- The fuel of `parseStatement` is enough for every query: it returns a statement or
panics. -/
theorem parseStatement_fuel (q : List Byte) : parseStatement q ≠ .outOfFuel := by
  have h : parseStatement.start (q.length + 2) q { pi := 0, sb := [], args := [] }
      ≠ .outOfFuel := by
    cases q with
    | nil => simp [parseStatement.start, ReadByte, parseStatement.loop]
    | cons b r =>
      simp only [parseStatement.start, ReadByte]
      exact loop_fuel r.length _ false b false r _ (le_refl _) (by simp)
  unfold parseStatement
  split
  · simp
  · simp
  · rename_i h'
    exact absurd h' h

set_option maxRecDepth 8000 in
/-- The case of `TestStatementParser` in `statement_test.go`. -/
theorem TestStatementParser :
    parseStatement (bytes "UPDATE balances SET balance = balance + $2 WHERE user_id = ?")
      = .done { sql := bytes
                  "UPDATE balances SET balance = balance + @param_2 WHERE user_id = @param_1",
                args := [bytes "param_1", bytes "param_2"] } := by
  decide


/-! ## Claims on the statement compiler -/

/-- C1 (counterexample): with `N = 2^63`, written `9223372036854775808`, and `a`, `b`,
`c` empty, the query `$9223372036854775808?` compiles to `@param_1` with the single
parameter `param_1`: `ParseInt` reports a range error, no `@param_N` is written, and
the loop stops after the `?`. -/
theorem dollar_index_overflow :
    FormatInt (2 ^ 63) = bytes "9223372036854775808"
      ∧ parseStatement ([] ++ [36] ++ FormatInt (2 ^ 63) ++ [] ++ [63] ++ [])
          = .done { sql := bytes "@param_1", args := [bytes "param_1"] }
      ∧ bytes "@param_1"
          ≠ [] ++ (64 :: paramName (2 ^ 63)) ++ [] ++ (64 :: paramName 1) ++ [] := by
  decide

/-- Where every allocation succeeds: for `a`, `b`, `c` without backslash, `$`, `?` and
NUL, `b` not starting with a digit, and `1 ≤ N < 2^63` written in decimal, the text
`a + "$" + N + b + "?" + c` becomes `a + "@param_N" + b + "@param_1" + c` with a
parameter list of length `max(N, 1)` whose entry 1 is `param_1` and whose entry `N`
is `param_N`. -/
theorem parseStatement_mixed (a b c : List Byte) (N : Nat)
    (ha : ∀ x ∈ a, isPlain x = true) (hb : ∀ x ∈ b, isPlain x = true)
    (hc : ∀ x ∈ c, isPlain x = true) (hb0 : ∀ x ∈ b.head?, isDigit x = false)
    (hN1 : 1 ≤ N) (hN : N < 2 ^ 63) :
    ∃ st, parseStatement (a ++ [36] ++ FormatInt N ++ b ++ [63] ++ c) = .done st
      ∧ st.sql = a ++ (64 :: paramName N) ++ b ++ (64 :: paramName 1) ++ c
      ∧ st.args.length = max N 1
      ∧ st.args[0]? = some (paramName 1)
      ∧ st.args[N - 1]? = some (paramName N) := by
  have hq : a ++ [36] ++ FormatInt N ++ b ++ [63] ++ c
      = a ++ 36 :: (FormatInt N ++ (b ++ 63 :: c)) := by simp
  have hf : (a ++ 36 :: (FormatInt N ++ (b ++ 63 :: c))).length + 2
      = ((((((FormatInt N).length + 1) + 1) + c.length) + 1) + b.length) + 1 + a.length := by
    simp only [List.length_append, List.length_cons]; omega
  refine ⟨{ sql := a ++ (64 :: paramName N) ++ b ++ (64 :: paramName 1) ++ c,
            args := ((List.replicate N []).set (N - 1) (paramName N)).set 0 (paramName 1) },
    ?_, rfl, ?_, ?_, ?_⟩
  · rw [hq, parseStatement, hf, start_mixed a b c N ha hb hc hb0 hN1 hN]
    rfl
  · simp only [List.length_set, List.length_replicate]; omega
  · show (((List.replicate N []).set (N - 1) (paramName N)).set 0 (paramName 1))[0]? = _
    simp [List.getElem?_set]
    omega
  · show (((List.replicate N []).set (N - 1) (paramName N)).set 0 (paramName 1))[N - 1]? = _
    by_cases h1 : N = 1
    · subst h1; simp
    · have : 0 ≠ N - 1 := by omega
      simp [List.getElem?_set, this]
      omega

/-- The case of `TestStatementParser`, `N = 2`. -/
theorem parseStatement_mixed_witness :
    ∃ st, parseStatement (bytes "UPDATE balances SET balance = balance + " ++ [36]
              ++ FormatInt 2 ++ bytes " WHERE user_id = " ++ [63] ++ []) = .done st
      ∧ st.sql = bytes "UPDATE balances SET balance = balance + " ++ (64 :: paramName 2)
              ++ bytes " WHERE user_id = " ++ (64 :: paramName 1) ++ []
      ∧ st.args.length = max 2 1
      ∧ st.args[0]? = some (paramName 1)
      ∧ st.args[2 - 1]? = some (paramName 2) :=
  parseStatement_mixed (bytes "UPDATE balances SET balance = balance + ")
    (bytes " WHERE user_id = ") [] 2 (by decide) (by decide) (by decide) (by decide)
    (by decide) (by decide)

/-- C8: a query of `n` placeholders `?` separated by texts without backslash, `$`,
`?` and NUL compiles to the same texts with the `i`-th `?` replaced by `@param_i`, and
to the parameter list `[param_1, ..., param_n]`, so that `NumInput()` is `n`. -/
theorem parseStatement_auto (t0 : List Byte) (ts : List (List Byte))
    (h0 : ∀ b ∈ t0, isPlain b = true) (hts : ∀ t ∈ ts, ∀ b ∈ t, isPlain b = true) :
    ∃ st, parseStatement (t0 ++ autoQuery ts) = .done st
      ∧ st.sql = t0 ++ autoSql 1 ts
      ∧ st.args = paramNames ts.length
      ∧ st.NumInput = ts.length := by
  have hf : (t0 ++ autoQuery ts).length + 2 = (0 + (autoQuery ts).length + 1) + 1 + t0.length := by
    simp only [List.length_append]; omega
  refine ⟨{ sql := t0 ++ autoSql 1 ts, args := paramNames ts.length }, ?_, rfl, rfl, ?_⟩
  · have h1 := start_text t0 h0 ((0 + (autoQuery ts).length + 1) + 1) (autoQuery ts)
      { pi := 0, sb := [], args := [] }
    have h2 := start_autoQuery ts hts 1 { pi := 0, sb := [] ++ t0, args := [] } rfl
    have h3 : (0 + (autoQuery ts).length + 1) + 1 = 1 + (autoQuery ts).length + 1 := by omega
    rw [parseStatement, hf, h1, h3, h2]
    simp [statmentBuilder.Statement]
  · simp [Statement.NumInput, paramNames]

/-- C8 (witness): the query `a?b?c` with two placeholders. -/
theorem parseStatement_auto_witness :
    ∃ st, parseStatement (bytes "a" ++ autoQuery [bytes "b", bytes "c"]) = .done st
      ∧ st.sql = bytes "a" ++ autoSql 1 [bytes "b", bytes "c"]
      ∧ st.args = paramNames [bytes "b", bytes "c"].length
      ∧ st.NumInput = [bytes "b", bytes "c"].length :=
  parseStatement_auto (bytes "a") [bytes "b", bytes "c"] (by decide) (by decide)

/-- C9 (counterexample): the query `a`, NUL, `b` holds no backslash, `$` or `?`, and
compiles to `ab`: the NUL byte is dropped by `case 0`. -/
theorem nul_byte_dropped :
    (∀ b ∈ ([97, 0, 98] : List Byte), b ≠ 92 ∧ b ≠ 36 ∧ b ≠ 63)
      ∧ parseStatement [97, 0, 98] = .done { sql := [97, 98], args := [] }
      ∧ parseStatement [97, 0, 98] ≠ .done { sql := [97, 0, 98], args := [] } := by
  decide

/-- C9 (amended): every byte other than backslash, `$`, `?` and NUL is copied: a query
that holds none of these four bytes compiles to itself, with no parameter. -/
theorem parseStatement_verbatim (q : List Byte) (h : ∀ b ∈ q, isPlain b = true) :
    parseStatement q = .done { sql := q, args := [] } := by
  have h1 := start_text q h 2 [] { pi := 0, sb := [], args := [] }
  simp only [List.append_nil, List.nil_append] at h1
  have h2 : q.length + 2 = 2 + q.length := by omega
  rw [parseStatement, h2, h1, start_nil]
  rfl

/-- C9 (witness): the query `SELECT 1`. -/
theorem parseStatement_verbatim_witness :
    parseStatement (bytes "SELECT 1") = .done { sql := bytes "SELECT 1", args := [] } :=
  parseStatement_verbatim (bytes "SELECT 1") (by decide)

/-- A `$` that no digit follows is not copied, and the loop stops after the byte that
follows it: the rest of the query is lost. -/
theorem parseStatement_dollar_nondigit (a b : List Byte) (c : Byte)
    (ha : ∀ x ∈ a, isPlain x = true) (hc : isPlain c = true) (hd : isDigit c = false) :
    parseStatement (a ++ [36] ++ c :: b) = .done { sql := a ++ [c], args := [] } := by
  have hq : a ++ [36] ++ c :: b = a ++ 36 :: c :: b := by simp
  have hf : (a ++ 36 :: c :: b).length + 2 = (b.length + 2 + 2) + a.length := by
    simp only [List.length_append, List.length_cons]; omega
  rw [hq, parseStatement, hf, start_text a ha, start_dollar_bare _ c hd hc]
  simp [statmentBuilder.Statement, statmentBuilder.WriteByte]

/-- C10 (failing input): `SELECT $x FROM t` compiles to `SELECT x`: the `$` is
dropped and everything after the `x` is lost, where the claim has the query
unchanged. -/
theorem bare_dollar_truncates :
    parseStatement (bytes "SELECT " ++ [36] ++ bytes "x FROM t")
        = .done { sql := bytes "SELECT x", args := [] }
      ∧ bytes "SELECT x" ≠ bytes "SELECT " ++ [36] ++ bytes "x FROM t" := by
  decide

/-! ## Lemmas on the transaction bridge -/

theorem inv_init : Inv System.init := by
  intro t ht
  simp [System.init] at ht

theorem inv_of_same (s s' : System) (hinv : Inv s) (hc : s'.c = s.c)
    (hcaller : s'.caller = s.caller ∨ (s.caller ≠ .commitRecv ∧ s.caller ≠ .rollbackRecv)) :
    Inv s' := by
  intro t ht ch hch
  rw [hc] at ht
  obtain ⟨h1, h2⟩ := hinv t ht ch hch
  refine ⟨h1, ?_⟩
  rcases hcaller with hcaller | ⟨hn1, hn2⟩
  · rw [hcaller]; exact h2
  · rcases h2 with h2 | h2 | h2
    · exact absurd h2 hn1
    · exact absurd h2 hn2
    · exact Or.inr (Or.inr h2)

theorem Chan.send_closed {α : Type} (ch ch' : Chan α) (v : α) (h : ch.send v = .ok ch') :
    ch'.closed = ch.closed := by
  unfold Chan.send at h
  split at h
  · simp at h
  · split at h
    · simp only [Step.ok.injEq] at h; subst h; rfl
    · simp at h

theorem inv_txnOpCh (s : System) (t : transaction) (ch ch' : Chan transactionOp)
    (caller : CallerState) (hinv : Inv s) (ht : s.c.txn = some t) (hch : t.txnOpCh = some ch)
    (hclosed : ch'.closed = ch.closed ∨ caller = .commitRecv ∨ caller = .rollbackRecv)
    (hcaller : caller = s.caller ∨ (s.caller ≠ .commitRecv ∧ s.caller ≠ .rollbackRecv))
    (s' : System) (hs' : s'.c = { txn := some { t with txnOpCh := some ch' } })
    (hc' : s'.caller = caller) : Inv s' := by
  intro t2 ht2 ch2 hch2
  rw [hs'] at ht2
  simp only [Option.some.injEq] at ht2
  subst ht2
  simp only [Option.some.injEq] at hch2
  subst hch2
  obtain ⟨h1, h2⟩ := hinv t ht ch hch
  refine ⟨h1, ?_⟩
  rw [hc']
  rcases hclosed with hclosed | hclosed | hclosed
  · rw [hclosed]
    rcases hcaller with hcaller | ⟨hn1, hn2⟩
    · rw [hcaller]; exact h2
    · rcases h2 with h2 | h2 | h2
      · exact absurd h2 hn1
      · exact absurd h2 hn2
      · exact Or.inr (Or.inr h2)
  · exact Or.inl hclosed
  · exact Or.inr (Or.inl hclosed)

theorem step_inv (B : Backend) (a : Action) (s s' : System) (hinv : Inv s)
    (h : step B a s = .ok s') : Inv s' := by
  unfold step at h
  split at h
  · -- BeginTx
    simp only [Step.ok.injEq] at h
    subst h
    unfold conn.BeginTx
    split
    · intro t ht ch hch
      have := hinv t ht ch hch
      simp_all [System.ret]
    · intro t ht ch hch
      simp [System.ret, newTransaction, Chan.make] at ht hch ⊢
      subst ht
      simp at hch ⊢
      simp [← hch]
  · -- exec
    rename_i hidle
    simp only [Step.ok.injEq] at h
    subst h
    apply inv_of_same _ _ hinv
    · simp only [conn.exec, conn.route, System.ret]
      split <;> [split <;> [rfl; split <;> rfl]; rfl]
    · right; simp [hidle]
  · -- query
    rename_i hidle
    simp only [Step.ok.injEq] at h
    subst h
    apply inv_of_same _ _ hinv
    · simp only [conn.query, conn.route, System.ret]
      split <;> [split <;> [rfl; split <;> rfl]; rfl]
    · right; simp [hidle]
  · -- send
    rename_i op hcaller
    unfold conn.send at h
    split at h
    · simp at h
    · rename_i t ht
      split at h
      · simp at h
      · rename_i ch hch
        split at h
        · rename_i ch' hsend
          simp only [Step.ok.injEq] at h
          subst h
          exact inv_txnOpCh s t ch ch' (.execWait op) hinv ht hch
            (Or.inl (Chan.send_closed _ _ _ hsend)) (Or.inr (by simp [hcaller])) _ rfl rfl
        · simp at h
        · simp at h
  · -- wait
    rename_i op hcaller
    split at h
    · simp at h
    · simp only [Step.ok.injEq] at h
      subst h
      exact inv_of_same _ _ hinv rfl (Or.inr (by simp [hcaller]))
  · -- Commit
    rename_i hcaller
    unfold transaction.finishClose at h
    split at h
    · simp at h
    · rename_i t ht
      split at h
      · rename_i ch' hclose
        simp only [Step.ok.injEq] at h
        subst h
        cases hch : t.txnOpCh with
        | none => simp [hch, closeChan] at hclose
        | some ch =>
          exact inv_txnOpCh s t ch ch' .commitRecv hinv ht hch (Or.inr (Or.inl rfl))
            (Or.inr (by simp [hcaller])) _ rfl rfl
      · simp at h
      · simp at h
  · -- Rollback
    rename_i hcaller
    unfold transaction.rollbackClose at h
    split at h
    · simp at h
    · rename_i t ht
      split at h
      · rename_i ch' hclose
        simp only [Step.ok.injEq] at h
        subst h
        intro t2 ht2 ch2 hch2
        simp only [Option.some.injEq] at ht2
        subst ht2
        obtain ⟨h1, h2⟩ := hinv t ht ch2 hch2
        refine ⟨h1, ?_⟩
        simp [hcaller] at h2
        simp [h2]
      · simp at h
      · simp at h
  · -- finishClose
    rename_i hcaller
    unfold transaction.finishClose at h
    split at h
    · simp at h
    · rename_i t ht
      split at h
      · rename_i ch' hclose
        simp only [Step.ok.injEq] at h
        subst h
        cases hch : t.txnOpCh with
        | none => simp [hch, closeChan] at hclose
        | some ch =>
          exact inv_txnOpCh s t ch ch' .rollbackRecv hinv ht hch (Or.inr (Or.inr rfl))
            (Or.inr (by simp [hcaller])) _ rfl rfl
      · simp at h
      · simp at h
  · -- recv (Commit)
    split at h
    · simp at h
    · rename_i t ht
      split at h
      · rename_i t' hrecv
        simp only [Step.ok.injEq] at h
        subst h
        unfold transaction.finishRecv at hrecv
        split at hrecv
        · simp at hrecv
        · split at hrecv
          · simp only [Step.ok.injEq] at hrecv
            subst hrecv
            intro t2 ht2 ch2 hch2
            simp [System.ret] at ht2
            subst ht2
            simp at hch2
          · simp at hrecv
          · simp at hrecv
      · simp at h
      · simp at h
  · -- recv (Rollback)
    split at h
    · simp at h
    · rename_i t ht
      split at h
      · rename_i t' hrecv
        simp only [Step.ok.injEq] at h
        subst h
        unfold transaction.finishRecv at hrecv
        split at hrecv
        · simp at hrecv
        · split at hrecv
          · simp only [Step.ok.injEq] at hrecv
            subst hrecv
            intro t2 ht2 ch2 hch2
            simp [System.ret] at ht2
            subst ht2
            simp at hch2
          · simp at hrecv
          · simp at hrecv
      · simp at h
      · simp at h
  · -- selectOp
    simp only [transaction.runTx] at h
    split at h
    · simp at h
    · rename_i t ht
      split at h
      · simp at h
      · rename_i ch hch
        split at h
        · simp at h
        · rename_i op rest hbuf
          simp only [Step.ok.injEq] at h
          subst h
          exact inv_txnOpCh s t ch { ch with buf := rest } s.caller hinv ht hch
            (Or.inl rfl) (Or.inl rfl) _ rfl rfl
  · -- selectClosed
    simp only [transaction.runTx] at h
    split at h
    · simp at h
    · split at h
      · simp at h
      · split at h
        · simp only [Step.ok.injEq] at h
          subst h
          exact inv_of_same _ _ hinv rfl (Or.inl rfl)
        · simp at h
  · -- selectRollback
    simp only [transaction.runTx] at h
    split at h
    · simp at h
    · split at h
      · simp only [Step.ok.injEq] at h
        subst h
        exact inv_of_same _ _ hinv rfl (Or.inl rfl)
      · simp at h
  · -- report
    unfold transaction.run at h
    split at h
    · simp at h
    · rename_i t ht
      split at h
      · simp at h
      · rename_i rch hrch
        simp only at h
        split at h
        · split at h
          · simp only [Step.ok.injEq] at h
            subst h
            intro t2 ht2 ch2 hch2
            simp only [Option.some.injEq] at ht2
            subst ht2
            exact hinv t ht ch2 hch2
          · simp at h
          · simp at h
        · simp at h
        · simp at h
  · simp at h

theorem runTrace_inv (B : Backend) (as : List Action) :
    ∀ (s s' : System), Inv s → runTrace B as s = .ok s' → Inv s' := by
  induction as with
  | nil => intro s s' hinv h; simp [runTrace] at h; exact h ▸ hinv
  | cons a as ih =>
    intro s s' hinv h
    simp only [runTrace] at h
    split at h
    · rename_i s1 h1
      exact ih s1 s' (step_inv B a s s1 hinv h1) h
    · simp at h
    · simp at h

theorem reachable_inv (B : Backend) (as : List Action) (s : System)
    (h : runTrace B as System.init = .ok s) : Inv s :=
  runTrace_inv B as _ _ inv_init h

/-- In every state the program reaches, a running transaction has not failed: the
test `c.txn.failed()` of `conn.exec` and `conn.query` is never true, and a call made
inside a running transaction goes on to send its closure. -/
theorem running_not_failed (B : Backend) (as : List Action) (s : System)
    (h : runTrace B as System.init = .ok s) (hrun : transaction.running s.c.txn = true)
    (call : Call) (op : transactionOp) (direct : System → System) :
    (∃ t, s.c.txn = some t ∧ t.failed = false)
      ∧ conn.route s call op direct = { s with caller := .execSend op } := by
  have hinv := reachable_inv B as s h
  cases ht : s.c.txn with
  | none => simp [ht, transaction.running] at hrun
  | some t =>
    cases hch : t.txnOpCh with
    | none => simp [ht, hch, transaction.running] at hrun
    | some ch =>
      obtain ⟨herr, _⟩ := hinv t ht ch hch
      refine ⟨⟨t, rfl, by simp [transaction.failed, herr]⟩, ?_⟩
      have hrun' : transaction.running (some t) = true := ht ▸ hrun
      simp [conn.route, ht, hrun', transaction.failed, herr]

theorem finishRecv_ok (t : transaction) (rch rch' : Chan (Option Error))
    (o : Option (Option Error)) (hr : t.resultCh = some rch) (hrecv : rch.recv = .ok (o, rch')) :
    t.finishRecv = .ok { t with err := o.join, txnOpCh := none, resultCh := none } := by
  simp [transaction.finishRecv, hr, hrecv]

theorem step_running (B : Backend) (a : Action) (x x' : System) (h : step B a x = .ok x')
    (hrun : transaction.running x.c.txn = true) (ha : a ≠ .recv) :
    transaction.running x'.c.txn = true := by
  unfold step at h
  split at h
  · simp only [Step.ok.injEq] at h
    subst h
    simp [conn.BeginTx, hrun, System.ret]
  · simp only [Step.ok.injEq] at h
    subst h
    simp only [conn.exec, conn.route, System.ret, hrun, if_true]
    split <;> [exact hrun; split <;> exact hrun]
  · simp only [Step.ok.injEq] at h
    subst h
    simp only [conn.query, conn.route, System.ret, hrun, if_true]
    split <;> [exact hrun; split <;> exact hrun]
  · unfold conn.send at h
    split at h
    · simp at h
    · split at h
      · simp at h
      · split at h
        · simp only [Step.ok.injEq] at h
          subst h
          simp [transaction.running]
        · simp at h
        · simp at h
  · split at h
    · simp at h
    · simp only [Step.ok.injEq] at h
      subst h
      exact hrun
  · unfold transaction.finishClose at h
    split at h
    · simp at h
    · split at h
      · simp only [Step.ok.injEq] at h
        subst h
        simp [transaction.running]
      · simp at h
      · simp at h
  · unfold transaction.rollbackClose at h
    split at h
    · simp at h
    · rename_i t ht
      split at h
      · simp only [Step.ok.injEq] at h
        subst h
        simpa [transaction.running, ht] using hrun
      · simp at h
      · simp at h
  · unfold transaction.finishClose at h
    split at h
    · simp at h
    · split at h
      · simp only [Step.ok.injEq] at h
        subst h
        simp [transaction.running]
      · simp at h
      · simp at h
  · exact absurd rfl ha
  · exact absurd rfl ha
  · simp only [transaction.runTx] at h
    split at h
    · simp at h
    · split at h
      · simp at h
      · split at h
        · simp at h
        · simp only [Step.ok.injEq] at h
          subst h
          simp [transaction.running]
  · simp only [transaction.runTx] at h
    split at h
    · simp at h
    · split at h
      · simp at h
      · split at h
        · simp only [Step.ok.injEq] at h
          subst h
          exact hrun
        · simp at h
  · simp only [transaction.runTx] at h
    split at h
    · simp at h
    · split at h
      · simp only [Step.ok.injEq] at h
        subst h
        exact hrun
      · simp at h
  · unfold transaction.run at h
    split at h
    · simp at h
    · rename_i t ht
      split at h
      · simp at h
      · simp only at h
        split at h
        · split at h
          · simp only [Step.ok.injEq] at h
            subst h
            simpa [transaction.running, ht] using hrun
          · simp at h
          · simp at h
        · simp at h
        · simp at h
  · simp at h

theorem finishRecv_running (t t' : transaction) (h : t.finishRecv = .ok t') :
    t'.txnOpCh = none := by
  unfold transaction.finishRecv at h
  split at h
  · simp at h
  · split at h
    · simp only [Step.ok.injEq] at h
      subst h
      rfl
    · simp at h
    · simp at h

theorem step_recv_running (B : Backend) (x x' : System) (h : step B .recv x = .ok x') :
    transaction.running x'.c.txn = false ∧ x'.caller = .idle := by
  cases hc : x.caller <;> simp only [step, hc] at h <;> try (simp at h)
  all_goals
    split at h
    · simp at h
    · split at h
      · rename_i t' hrecv
        simp only [Step.ok.injEq] at h
        subst h
        simp [System.ret, transaction.running, finishRecv_running _ _ hrecv]
      · simp at h
      · simp at h

/-! ## Claims on the transaction bridge -/

/-- C2 (failing input): on a backend that refuses the update, `BeginTx`, then an
`exec` whose closure fails: the call returns the error of the backend and the loop
has exited with it, yet `failed()` is false and `running()` is true.  The next `exec`
does not return `ErrTxnFailed`: it sends its closure on the command channel and waits
for it, in a state where no step can be taken. -/
theorem exec_after_failure :
    ∃ s s' t t' ch,
      runTrace Backend.refusing
          [.BeginTx false, .exec insertFoo, .send, .selectOp, .report, .wait] System.init = .ok s
      ∧ s.returned.head? = some (.exec, some (.other 3))
      ∧ s.outcome = some (some (.other 3)) ∧ s.loop = .exited ∧ s.caller = .idle
      ∧ s.c.txn = some t ∧ transaction.running s.c.txn = true ∧ t.failed = false
      ∧ runTrace Backend.refusing [.exec insertFoo, .send] s = .ok s'
      ∧ s'.returned = s.returned
      ∧ s'.caller = .execWait (.exec insertFoo)
      ∧ s'.c.txn = some t' ∧ t'.txnOpCh = some ch ∧ ch.buf = [.exec insertFoo]
      ∧ s'.calls = s.calls
      ∧ ∀ a, step Backend.refusing a s' = .blocked := by
  refine ⟨_, _, _, _, _, rfl, ?_, ?_, ?_, ?_, rfl, ?_, ?_, rfl, ?_, ?_, rfl, rfl, ?_, ?_, ?_⟩
  all_goals first | rfl | skip
  intro a
  cases a <;> rfl

/-- C3: in every state the program reaches with the caller between two calls and a
running transaction, `Commit` closes the command channel and goes on to its receive
from the result channel; and whenever `Commit` is at that receive and the result
channel delivers the outcome `o`, `Commit` returns `ErrTxnFailed` if and only if `o`
is not nil, nil if and only if `o` is nil, and `running()` is false afterwards. -/
theorem Commit_spec (B : Backend) (as : List Action) (s : System)
    (hreach : runTrace B as System.init = .ok s) (hidle : s.caller = .idle)
    (hrun : transaction.running s.c.txn = true) :
    (∃ s1 t1 ch1, step B .Commit s = .ok s1 ∧ s1.caller = .commitRecv
        ∧ s1.c.txn = some t1 ∧ t1.txnOpCh = some ch1 ∧ ch1.closed = true)
      ∧ ∀ (s2 : System) (t2 : transaction) (rch rch' : Chan (Option Error))
          (o : Option (Option Error)),
          s2.caller = .commitRecv → s2.c.txn = some t2 → t2.resultCh = some rch →
          rch.recv = .ok (o, rch') →
          ∃ s3 e, step B .recv s2 = .ok s3 ∧ s3.caller = .idle
            ∧ s3.returned = (.Commit, e) :: s2.returned
            ∧ (e = some .ErrTxnFailed ↔ o.join ≠ none) ∧ (e = none ↔ o.join = none)
            ∧ transaction.running s3.c.txn = false := by
  have hinv := reachable_inv B as s hreach
  constructor
  · cases ht : s.c.txn with
    | none => simp [ht, transaction.running] at hrun
    | some t =>
      cases hch : t.txnOpCh with
      | none => simp [ht, hch, transaction.running] at hrun
      | some ch =>
        obtain ⟨_, hopen⟩ := hinv t ht ch hch
        simp [hidle] at hopen
        refine ⟨{ s with c := { txn := some { t with txnOpCh := some { ch with closed := true } } },
                         caller := .commitRecv },
          { t with txnOpCh := some { ch with closed := true } },
          { ch with closed := true }, ?_, rfl, rfl, rfl, rfl⟩
        simp [step, hidle, transaction.finishClose, ht, hch, closeChan, Chan.close, hopen]
  · intro s2 t2 rch rch' o hc ht hr hrecv
    have hstep : ∃ s3, step B .recv s2 = .ok s3 ∧ s3.caller = .idle
        ∧ s3.returned = (.Commit, if o.join.isSome then some .ErrTxnFailed else none) :: s2.returned
        ∧ transaction.running s3.c.txn = false := by
      simp only [step, hc, ht, finishRecv_ok t2 rch rch' o hr hrecv]
      exact ⟨_, rfl, rfl, rfl, rfl⟩
    obtain ⟨s3, h1, h2, h3, h4⟩ := hstep
    refine ⟨s3, _, h1, h2, h3, ?_, ?_, h4⟩
    · cases h : o.join <;> simp
    · cases h : o.join <;> simp

/-- C4: with the caller between two calls, `BeginTx` returns `ErrTxnStarted` and
leaves the connection as it is if and only if the transaction of the connection is
running; otherwise it returns nil and installs a new transaction, which is running.
A running transaction stays running through every step of the caller and of the loop
(a failing closure included) other than the receive that ends `finish`, and after
that receive it is not running, so that the next `BeginTx` succeeds. -/
theorem BeginTx_spec (B : Backend) (s : System) (readonly : Bool) (hidle : s.caller = .idle) :
    ∃ s', step B (.BeginTx readonly) s = .ok s'
      ∧ ((s'.returned.head? = some (.BeginTx, some .ErrTxnStarted) ∧ s'.c = s.c)
            ↔ transaction.running s.c.txn = true)
      ∧ (transaction.running s.c.txn = false →
            s'.returned.head? = some (.BeginTx, none)
            ∧ s'.c.txn = some (newTransaction readonly)
            ∧ transaction.running s'.c.txn = true)
      ∧ (∀ (a : Action) (x x' : System), step B a x = .ok x' →
            transaction.running x.c.txn = true → a ≠ .recv →
            transaction.running x'.c.txn = true)
      ∧ (∀ (x x' : System), step B .recv x = .ok x' →
            transaction.running x'.c.txn = false ∧ x'.caller = .idle
            ∧ ∃ x'', step B (.BeginTx readonly) x' = .ok x''
                ∧ x''.returned.head? = some (.BeginTx, none)
                ∧ transaction.running x''.c.txn = true) := by
  refine ⟨conn.BeginTx s readonly, ?_, ?_, ?_, ?_, ?_⟩
  · simp [step, hidle]
  · by_cases hrun : transaction.running s.c.txn = true
    · simp [conn.BeginTx, hrun, System.ret]
    · simp [conn.BeginTx, hrun, System.ret]
  · intro hrun
    simp only [conn.BeginTx, hrun, Bool.false_eq_true, if_false]
    simp [System.ret, transaction.running, newTransaction]
  · intro a x x' h hrun ha
    exact step_running B a x x' h hrun ha
  · intro x x' h
    obtain ⟨h1, h2⟩ := step_recv_running B x x' h
    refine ⟨h1, h2, conn.BeginTx x' readonly, ?_, ?_, ?_⟩
    · simp [step, h2]
    · simp only [conn.BeginTx, h1, Bool.false_eq_true, if_false]
      simp [System.ret]
    · simp only [conn.BeginTx, h1, Bool.false_eq_true, if_false]
      simp [System.ret, transaction.running, newTransaction]

/-- C5 (failing input): on a healthy backend, `BeginTx`, a successful `exec`, then
`Rollback`: when the loop comes to its `select` after `Rollback` has closed both the
rollback channel and the command channel, it may take the closed command channel.
`runTx` then returns nil, so the callback of `ReadWriteTransaction` returns nil and
the client commits, and `Rollback` returns nil. -/
theorem rollback_may_commit :
    ∃ s t,
      runTrace Backend.healthy
          [.BeginTx false, .exec insertFoo, .send, .selectOp, .wait,
           .Rollback, .finishClose, .selectClosed, .report, .recv] System.init = .ok s
      ∧ s.c.txn = some t ∧ t.rollbackCh.closed = true
      ∧ s.outcome = some none
      ∧ s.calls = [insertFoo]
      ∧ s.returned = [(.Rollback, none), (.exec, none), (.BeginTx, none)] := by
  exact ⟨_, _, rfl, rfl, rfl, rfl, rfl, rfl⟩

/-- C6: whenever `Rollback` is at its receive from the result channel and the channel
delivers the outcome `o`, `Rollback` returns nil when `o` is `ErrRollback` and returns
`o` itself otherwise. -/
theorem Rollback_spec (B : Backend) (s2 : System) (t2 : transaction)
    (rch rch' : Chan (Option Error)) (o : Option (Option Error))
    (hc : s2.caller = .rollbackRecv) (ht : s2.c.txn = some t2) (hr : t2.resultCh = some rch)
    (hrecv : rch.recv = .ok (o, rch')) :
    ∃ s3, step B .recv s2 = .ok s3 ∧ s3.caller = .idle
      ∧ s3.returned
          = (.Rollback, if o.join = some .ErrRollback then none else o.join) :: s2.returned := by
  simp only [step, hc, ht, finishRecv_ok t2 rch rch' o hr hrecv]
  refine ⟨_, rfl, rfl, ?_⟩
  simp only [System.ret, transaction.Rollback]
  by_cases h : o.join = some .ErrRollback <;> simp [h]

/-! ## Witnesses on the transaction bridge -/

/-- C3 (witness): a transaction whose `exec` has failed; `Commit` closes the command
channel, receives the error of the backend and returns `ErrTxnFailed`. -/
theorem Commit_spec_witness :
    runTrace Backend.refusing
        [.BeginTx false, .exec insertFoo, .send, .selectOp, .report, .wait] System.init
        = .ok afterFailedExec
      ∧ afterFailedExec.caller = .idle
      ∧ transaction.running afterFailedExec.c.txn = true
      ∧ (∃ s1 t1 ch1, step Backend.refusing .Commit afterFailedExec = .ok s1
          ∧ s1.caller = .commitRecv ∧ s1.c.txn = some t1 ∧ t1.txnOpCh = some ch1
          ∧ ch1.closed = true)
      ∧ (∃ s3 e, step Backend.refusing .recv afterFailedExecCommit = .ok s3
          ∧ s3.caller = .idle
          ∧ s3.returned = (.Commit, e) :: afterFailedExecCommit.returned
          ∧ (e = some .ErrTxnFailed ↔ (some (some (Error.other 3))).join ≠ none)
          ∧ (e = none ↔ (some (some (Error.other 3))).join = none)
          ∧ transaction.running s3.c.txn = false) :=
  ⟨rfl, rfl, rfl,
    (Commit_spec Backend.refusing
      [.BeginTx false, .exec insertFoo, .send, .selectOp, .report, .wait]
      afterFailedExec rfl rfl rfl).1,
    (Commit_spec Backend.refusing
      [.BeginTx false, .exec insertFoo, .send, .selectOp, .report, .wait]
      afterFailedExec rfl rfl rfl).2 afterFailedExecCommit _ _ _ (some (some (.other 3)))
      rfl rfl rfl rfl⟩

/-- C4 (witness): a second `BeginTx` on a connection whose transaction is running. -/
theorem BeginTx_spec_witness :
    (conn.BeginTx System.init false).caller = .idle
      ∧ ∃ s', step Backend.healthy (.BeginTx true) (conn.BeginTx System.init false) = .ok s'
          ∧ s'.returned.head? = some (.BeginTx, some .ErrTxnStarted)
          ∧ s'.c = (conn.BeginTx System.init false).c :=
  ⟨rfl,
    let ⟨s', h1, h2, _⟩ :=
      BeginTx_spec Backend.healthy (conn.BeginTx System.init false) true rfl
    ⟨s', h1, h2.2 rfl⟩⟩

/-- C6 (witness): a `Rollback` whose loop took the rollback signal returns nil. -/
theorem Rollback_spec_witness :
    atRollbackRecv.caller = .rollbackRecv
      ∧ ∃ s3, step Backend.healthy .recv atRollbackRecv = .ok s3 ∧ s3.caller = .idle
          ∧ s3.returned
              = (.Rollback, if (some (some Error.ErrRollback)).join = some .ErrRollback then none
                            else (some (some Error.ErrRollback)).join)
                :: atRollbackRecv.returned :=
  ⟨rfl, Rollback_spec Backend.healthy atRollbackRecv _ _ _ (some (some .ErrRollback))
    rfl rfl rfl rfl⟩

/-! ## Lemmas on the execution of a statement -/

theorem lookup_filter_ne (m : List (List Byte × Value)) (k key : List Byte) (h : key ≠ k) :
    List.lookup key (m.filter (fun kv => kv.1 != k)) = List.lookup key m := by
  induction m with
  | nil => rfl
  | cons kv m ih =>
    obtain ⟨k', v'⟩ := kv
    by_cases hk : k' = k
    · subst hk
      have : (key == k') = false := by simpa using h
      simp [List.filter, List.lookup, this, ih]
    · have hk' : (k' != k) = true := by simpa using hk
      simp only [List.filter, hk', List.lookup]
      rw [ih]

theorem lookup_mapSet (m : List (List Byte × Value)) (k key : List Byte) (v : Value) :
    List.lookup key (mapSet m k v) = if key = k then some v else List.lookup key m := by
  by_cases h : key = k
  · subst h; simp [mapSet, List.lookup]
  · have : (key == k) = false := by simpa using h
    simp [mapSet, List.lookup, this, h, lookup_filter_ne m k key h]

theorem loop_spec (names : List (List Byte)) :
    ∀ (rest : List NamedValue) (i : Nat) (params : List (List Byte × Value)),
      (∀ (j : Nat) (a : NamedValue), rest[j]? = some a → a.Ordinal = (i : Int) + (j : Int) + 1) →
      i + rest.length ≤ names.length →
      ∃ params', Statement.spannerStatement.loop names rest params = some params'
        ∧ (∀ key : List Byte, (∀ j : Nat, j < rest.length → names[i + j]? ≠ some key) →
              List.lookup key params' = List.lookup key params)
        ∧ (∀ (j : Nat) (a : NamedValue) (key : List Byte), rest[j]? = some a → names[i + j]? = some key →
              (∀ j' : Nat, j < j' → j' < rest.length → names[i + j']? ≠ some key) →
              List.lookup key params' = some a.Value) := by
  intro rest
  induction rest with
  | nil =>
    intro i params _ _
    exact ⟨params, rfl, fun _ _ => rfl, fun j a key h => by simp at h⟩
  | cons argv rest ih =>
    intro i params hord hlen
    have h0 : argv.Ordinal = (i : Int) + 1 := by simpa using hord 0 argv (by simp)
    have hi : i < names.length := by simp at hlen; omega
    have hidx : (argv.Ordinal - 1).toNat = i := by rw [h0]; simp
    have hnot : ¬ argv.Ordinal < 1 := by rw [h0]; omega
    obtain ⟨pn, hpn⟩ : ∃ pn, names[i]? = some pn := ⟨names[i], by simp [hi]⟩
    have hord' : ∀ (j : Nat) (a : NamedValue), rest[j]? = some a → a.Ordinal = ((i + 1 : Nat) : Int) + (j : Int) + 1 := by
      intro j a hj
      have := hord (j + 1) a (by simpa using hj)
      rw [this]; push_cast; ring
    obtain ⟨params', hloop, hkeep, hbind⟩ :=
      ih (i + 1) (mapSet params pn argv.Value) hord' (by simp at hlen; omega)
    refine ⟨params', ?_, ?_, ?_⟩
    · simp only [Statement.spannerStatement.loop, hnot, if_false, hidx, hpn]
      exact hloop
    · intro key hkey
      have h1 : ∀ j, j < rest.length → names[i + 1 + j]? ≠ some key := by
        intro j hj
        have := hkey (j + 1) (by simp; omega)
        rwa [show i + (j + 1) = i + 1 + j by omega] at this
      rw [hkeep key h1, lookup_mapSet]
      have h2 : key ≠ pn := by
        intro hh
        have := hkey 0 (by simp)
        simp [hpn, hh] at this
      simp [h2]
    · intro j a key hj hname hlater
      cases j with
      | zero =>
        simp at hj
        subst hj
        have hk : key = pn := by
          simp [hpn] at hname
          exact hname.symm
        have h1 : ∀ j, j < rest.length → names[i + 1 + j]? ≠ some key := by
          intro j hj
          have := hlater (j + 1) (by omega) (by simp; omega)
          rwa [show i + (j + 1) = i + 1 + j by omega] at this
        rw [hkeep key h1, lookup_mapSet]
        simp [hk]
      | succ j =>
        have hj' : rest[j]? = some a := by simpa using hj
        have hname' : names[i + 1 + j]? = some key := by
          rwa [show i + (j + 1) = i + 1 + j by omega] at hname
        refine hbind j a key hj' hname' ?_
        intro j' hjj hj'len
        have := hlater (j' + 1) (by omega) (by simp; omega)
        rwa [show i + (j' + 1) = i + 1 + j' by omega] at this

/-! ## Claims on the execution of a statement -/

/-- C7 (counterexample): the statement compiled from `$3` has the parameter names
`["", "", "param_3"]`.  With three arguments of ordinals 1, 2, 3 the map binds the
empty name, stored at position 1, to the value of ordinal 2 and not to that of
ordinal 1. -/
theorem gapped_names_rebind :
    parseStatement (bytes "$3")
        = .done { sql := bytes "@param_3", args := [[], [], bytes "param_3"] }
      ∧ Statement.spannerStatement { sql := bytes "@param_3", args := [[], [], bytes "param_3"] }
            [⟨1, ⟨10⟩⟩, ⟨2, ⟨20⟩⟩, ⟨3, ⟨30⟩⟩]
          = some (.ok { SQL := bytes "@param_3",
                        Params := [(bytes "param_3", ⟨30⟩), ([], ⟨20⟩)] })
      ∧ List.lookup [] [(bytes "param_3", (⟨30⟩ : Value)), ([], ⟨20⟩)] = some ⟨20⟩
      ∧ List.lookup [] [(bytes "param_3", (⟨30⟩ : Value)), ([], ⟨20⟩)] ≠ some ⟨10⟩ :=
  ⟨by decide, rfl, by decide, by decide⟩

/-- C7 (amended): `spannerStatement`, and with it `ExecContext` and `QueryContext`
before any call of `conn.exec` or `conn.query`, returns an error if and only if the
number of arguments differs from the number of parameter names.  When the numbers
are equal and the arguments carry the ordinals `1..n`, it returns a statement with the
compiled SQL, handed to `conn.exec` or `conn.query`, whose map binds the value of
ordinal `k` under the name stored at position `k`, for every `k` whose name is not
stored at a later position as well. -/
theorem spannerStatement_spec (s : Statement) (args : List NamedValue) :
    ((∃ e, s.spannerStatement args = some (.error e)) ↔ s.args.length ≠ args.length)
      ∧ ((∃ e, s.ExecContext args = some (.returned e)) ↔ s.args.length ≠ args.length)
      ∧ ((∃ e, s.QueryContext args = some (.returned e)) ↔ s.args.length ≠ args.length)
      ∧ (s.args.length = args.length → (∀ (i : Nat) (a : NamedValue), args[i]? = some a → a.Ordinal = (i : Int) + 1) →
          ∃ stmt, s.spannerStatement args = some (.ok stmt)
            ∧ s.ExecContext args = some (.exec stmt)
            ∧ s.QueryContext args = some (.query stmt)
            ∧ stmt.SQL = s.sql
            ∧ ∀ (k : Nat) (a : NamedValue) (pn : List Byte), args[k]? = some a → s.args[k]? = some pn →
                (∀ j : Nat, k < j → s.args[j]? ≠ some pn) →
                List.lookup pn stmt.Params = some a.Value) := by
  have h1 : (∃ e, s.spannerStatement args = some (.error e)) ↔ s.args.length ≠ args.length := by
    constructor
    · rintro ⟨e, he⟩
      intro hlen
      simp only [Statement.spannerStatement, hlen, ne_eq, not_true_eq_false, if_false] at he
      split at he <;> simp at he
    · intro hlen
      exact ⟨errArgumentCount, by simp [Statement.spannerStatement, hlen]⟩
  refine ⟨h1, ?_, ?_, ?_⟩
  · rw [← h1]
    constructor
    · rintro ⟨e, he⟩
      simp only [Statement.ExecContext] at he
      split at he
      · simp at he
      · rename_i e' he'
        exact ⟨e', he'⟩
      · simp at he
    · rintro ⟨e, he⟩
      exact ⟨e, by simp [Statement.ExecContext, he]⟩
  · rw [← h1]
    constructor
    · rintro ⟨e, he⟩
      simp only [Statement.QueryContext] at he
      split at he
      · simp at he
      · rename_i e' he'
        exact ⟨e', he'⟩
      · simp at he
    · rintro ⟨e, he⟩
      exact ⟨e, by simp [Statement.QueryContext, he]⟩
  · intro hlen hord
    obtain ⟨params, hloop, _, hbind⟩ := loop_spec s.args args 0 []
      (by intro j a hj; simpa using hord j a hj) (by simp [hlen])
    have hs : s.spannerStatement args = some (.ok { SQL := s.sql, Params := params }) := by
      simp [Statement.spannerStatement, hlen, hloop]
    refine ⟨{ SQL := s.sql, Params := params }, hs, ?_, ?_, rfl, ?_⟩
    · simp [Statement.ExecContext, hs]
    · simp [Statement.QueryContext, hs]
    · intro k a pn hk hpn hlater
      refine hbind k a pn hk (by simpa using hpn) ?_
      intro j' hkj _
      simpa using hlater j' hkj

/-- C7 (witness): the statement of `TestStatementParser` with its two arguments. -/
theorem spannerStatement_spec_witness :
    ∃ stmt, Statement.spannerStatement
          { sql := bytes "a @param_2 b @param_1", args := [bytes "param_1", bytes "param_2"] }
          [⟨1, ⟨10⟩⟩, ⟨2, ⟨20⟩⟩] = some (.ok stmt)
      ∧ stmt.SQL = bytes "a @param_2 b @param_1"
      ∧ List.lookup (bytes "param_1") stmt.Params = some ⟨10⟩
      ∧ List.lookup (bytes "param_2") stmt.Params = some ⟨20⟩ :=
  let ⟨stmt, h1, _, _, h4, h5⟩ :=
    (spannerStatement_spec
      { sql := bytes "a @param_2 b @param_1", args := [bytes "param_1", bytes "param_2"] }
      [⟨1, ⟨10⟩⟩, ⟨2, ⟨20⟩⟩]).2.2.2 rfl
      (by
        intro i a h
        match i, h with
        | 0, h => simp at h; subst h; rfl
        | 1, h => simp at h; subst h; rfl
        | i + 2, h => simp at h)
  ⟨stmt, h1, h4,
    h5 0 ⟨1, ⟨10⟩⟩ (bytes "param_1") rfl rfl (by
      intro j hj
      match j, hj with
      | 1, _ => decide
      | j + 2, _ => simp),
    h5 1 ⟨2, ⟨20⟩⟩ (bytes "param_2") rfl rfl (by
      intro j hj
      match j, hj with
      | j + 2, _ => simp)⟩

/-! ## More on the statement compiler -/

theorem start_escape (k : Nat) (c : Byte) (r : List Byte) (sb : statmentBuilder) :
    parseStatement.start (k + 2) (92 :: c :: r) sb = parseStatement.start k r (sb.WriteByte c) := by
  simp [parseStatement.start, ReadByte, parseStatement.loop]

/-- C11: for `a`, `b` without backslash, `$`, `?` and NUL and every byte `c`,
`parseStatement` maps `a`, backslash, `c`, `b` to the text `a`, `c`, `b`, the
backslash dropped and `c` copied, with no parameter. -/
theorem parseStatement_escape (a b : List Byte) (c : Byte)
    (ha : ∀ x ∈ a, isPlain x = true) (hb : ∀ x ∈ b, isPlain x = true) :
    parseStatement (a ++ [92] ++ [c] ++ b) = .done { sql := a ++ [c] ++ b, args := [] } := by
  have hq : a ++ [92] ++ [c] ++ b = a ++ 92 :: c :: b := by simp
  have hf : (a ++ 92 :: c :: b).length + 2 = ((1 + 1 + b.length) + 2) + a.length := by
    simp only [List.length_append, List.length_cons]; omega
  have h3 := start_text b hb (1 + 1) [] { pi := 0, sb := [] ++ a ++ [c], args := [] }
  simp only [List.append_nil] at h3
  rw [hq, parseStatement, hf, start_text a ha, start_escape, statmentBuilder.WriteByte, h3,
    start_nil]
  simp [statmentBuilder.Statement]

/-- C11 (witness): the escaped placeholder in `SELECT '\?'`. -/
theorem parseStatement_escape_witness :
    parseStatement (bytes "SELECT '" ++ [92] ++ [63] ++ bytes "'")
      = .done { sql := bytes "SELECT '" ++ [63] ++ bytes "'", args := [] } :=
  parseStatement_escape (bytes "SELECT '") (bytes "'") 63 (by decide) (by decide)

theorem aligned_set (l : List (List Byte)) (p : Nat) (h : alignedOrEmpty l) (hp : p ≠ 0) :
    alignedOrEmpty (l.set (p - 1) (paramName p)) := by
  intro i name hi
  by_cases hip : p - 1 = i
  · subst hip
    rw [List.getElem?_set] at hi
    simp only [if_true] at hi
    split at hi
    · simp only [Option.some.injEq] at hi
      left
      rw [← hi, Nat.sub_add_cancel (Nat.pos_of_ne_zero hp)]
    · simp at hi
  · rw [List.getElem?_set_ne hip] at hi
    exact h i name hi

theorem aligned_grow (l : List (List Byte)) (n : Nat) (h : alignedOrEmpty l) :
    alignedOrEmpty (l ++ List.replicate n []) := by
  intro i name hi
  rw [List.getElem?_append] at hi
  split at hi
  · exact h i name hi
  · rw [List.getElem?_replicate] at hi
    split at hi
    · simp only [Option.some.injEq] at hi
      right; exact hi.symm
    · simp at hi

theorem writeParam_aligned (sb sb' : statmentBuilder) (p : Nat)
    (h : alignedOrEmpty sb.args) (hw : sb.WriteParam p = some sb') : alignedOrEmpty sb'.args := by
  unfold statmentBuilder.WriteParam at hw
  simp only at hw
  split at hw
  · simp at hw
  · rename_i hp
    simp only [Option.some.injEq] at hw
    subst hw
    simp only
    split
    · exact aligned_set _ p (aligned_grow _ _ h) hp
    · exact aligned_set _ p h hp

theorem parseArg_aligned (r r' : List Byte) (sb sb' : statmentBuilder) (b : Byte) (err : Bool)
    (h : alignedOrEmpty sb.args) (hp : parseArg r sb = some (b, err, r', sb')) :
    alignedOrEmpty sb'.args := by
  unfold parseArg at hp
  split at hp
  split at hp
  · simp only [Option.some.injEq, Prod.mk.injEq] at hp
    obtain ⟨_, _, _, h4⟩ := hp
    rw [← h4]; exact h
  · split at hp
    · simp at hp
    · rename_i stmt' hw
      simp only [Option.some.injEq, Prod.mk.injEq] at hp
      obtain ⟨_, _, _, h4⟩ := hp
      rw [← h4]
      exact writeParam_aligned _ _ _ h hw

theorem loop_aligned : ∀ (k : Nat) (escaped : Bool) (b : Byte) (err : Bool) (r : List Byte)
    (sb sb' : statmentBuilder), alignedOrEmpty sb.args →
    parseStatement.loop k escaped b err r sb = .done sb' → alignedOrEmpty sb'.args := by
  intro k
  induction k with
  | zero => intro escaped b err r sb sb' _ h; simp [parseStatement.loop] at h
  | succ k ih =>
    intro escaped b err r sb sb' hal h
    rw [parseStatement.loop] at h
    split at h
    · rcases hr : ReadByte r with ⟨b1, err1, r1⟩
      rw [hr] at h
      simp only at h
      exact ih _ _ _ _ (sb.WriteByte b) _ hal h
    · split at h
      · split at h
        · simp at h
        · rename_i hp
          exact ih _ _ _ _ _ _ (parseArg_aligned _ _ _ _ _ _ hal hp) h
      · simp only at h
        split at h
        · simp at h
        · rename_i escaped' sb1 hafter
          have hal1 : alignedOrEmpty sb1.args := by
            split at hafter
            · simp only [Prod.mk.injEq, Option.some.injEq] at hafter
              rw [← hafter.2]; exact hal
            · split at hafter
              · simp only [Prod.mk.injEq, Option.some.injEq] at hafter
                rw [← hafter.2]; exact hal
              · split at hafter
                · simp only [Prod.mk.injEq] at hafter
                  exact writeParam_aligned { sb with pi := sb.pi + 1 } _ _ hal hafter.2
                · simp only [Prod.mk.injEq, Option.some.injEq] at hafter
                  rw [← hafter.2]; exact hal
          split at h
          · simp only [Run.done.injEq] at h
            rw [← h]; exact hal1
          · rcases hr : ReadByte r with ⟨b1, err1, r1⟩
            rw [hr] at h
            simp only at h
            exact ih _ _ _ _ _ _ hal1 h

/-- C12 (counterexample): the query `$3` compiles to the parameter names
`["", "", "param_3"]`: entry 1 is the empty string, not `param_1`. -/
theorem gapped_names_unaligned :
    parseStatement (bytes "$3")
        = .done { sql := bytes "@param_3", args := [[], [], bytes "param_3"] }
      ∧ ([[], [], bytes "param_3"] : List (List Byte))[0]? = some []
      ∧ ([] : List Byte) ≠ paramName 1 := by
  decide

/-- C12 (amended): `parseStatement` returns a statement or panics, and in the parameter
names of every statement it returns, entry `i` is `param_i` or the empty string. -/
theorem parseStatement_aligned (q : List Byte) :
    parseStatement q = .panicked
      ∨ ∃ st, parseStatement q = .done st
          ∧ ∀ (i : Nat) (name : List Byte), 1 ≤ i → st.args[i - 1]? = some name →
              name = paramName i ∨ name = [] := by
  have hfuel := parseStatement_fuel q
  have hinit : alignedOrEmpty ({ pi := 0, sb := [], args := [] } : statmentBuilder).args := by
    intro i name hi; simp at hi
  unfold parseStatement at hfuel ⊢
  rcases hs : parseStatement.start (q.length + 2) q { pi := 0, sb := [], args := [] } with
    sb | _ | _
  · right
    refine ⟨sb.Statement, rfl, ?_⟩
    intro i name hi hname
    have hal : alignedOrEmpty sb.args := by
      unfold parseStatement.start at hs
      rcases hr : ReadByte q with ⟨b1, err1, r1⟩
      rw [hr] at hs
      simp only at hs
      exact loop_aligned _ _ _ _ _ _ _ hinit hs
    have := hal (i - 1) name hname
    rwa [Nat.sub_add_cancel hi] at this
  · left; rfl
  · rw [hs] at hfuel
    exact absurd rfl hfuel

/-! ## Rows and values -/

/-- The six scalar types with a `Null` type: a NULL column converts to the nil value
with a nil error. -/
theorem convert_null_scalar {ρ : Type} (C : RowClient ρ) :
    convert C { Code := .BOOL, Value := .null } = (none, none)
      ∧ convert C { Code := .INT64, Value := .null } = (none, none)
      ∧ convert C { Code := .FLOAT64, Value := .null } = (none, none)
      ∧ convert C { Code := .TIMESTAMP, Value := .null } = (none, none)
      ∧ convert C { Code := .DATE, Value := .null } = (none, none)
      ∧ convert C { Code := .STRING, Value := .null } = (none, none) :=
  ⟨rfl, rfl, rfl, rfl, rfl, rfl⟩

/-- Whatever a `BYTES` column holds, `convert` returns a `[]byte` and never the nil
value. -/
theorem convert_bytes_typed {ρ : Type} (C : RowClient ρ) (v : ColumnValue ρ) :
    ∃ b, (convert C { Code := .BYTES, Value := v }).1 = some (.bytes b) := by
  simp only [convert]
  split
  · exact ⟨none, rfl⟩
  · rename_i val _
    exact ⟨val, rfl⟩

/-- C13 (failing input): a NULL column of type `BYTES` converts to the nil slice as a
`[]byte` value, with a nil error, and not to the nil value, as a NULL column of type
`STRING` does. -/
theorem convert_null_bytes :
    convert RowClient.numbered { Code := .BYTES, Value := .null } = (some (.bytes none), none)
      ∧ convert RowClient.numbered { Code := .BYTES, Value := .null } ≠ (none, none)
      ∧ convert RowClient.numbered { Code := .STRING, Value := .null } = (none, none) := by
  decide

/-- The first `Next` after `Close` on a cursor that holds its lookahead row decodes
that row into the buffer, as it does without the `Close`. -/
theorem next_after_close_lookahead {ρ : Type} (C : RowClient ρ) (r : Rows ρ) (row : ρ)
    (dest : List (Option (GoValue ρ))) (h : r.r1 = some row) :
    r.Close.2 = none
      ∧ r.Close.1.Next C dest = ({ r.Close.1 with r1 := none }, decodeValues C dest row) := by
  unfold Rows.Close
  split <;> simp [Rows.Next, h]

/-- C14 (failing input): a query that finds the row `7`; `Close` returns nil, and the
`Next` after it writes the row into the buffer and returns nil, not `io.EOF`. -/
theorem close_then_next_delivers :
    ∃ r r' r'',
      conn.query.open RowClient.numbered { rows := [7, 8], last := iteratorDone, err := none }
          = .ok r
      ∧ r.Close = (r', none)
      ∧ r'.Next RowClient.numbered [none] = (r'', [some (.int64 7)], none)
      ∧ (r'.Next RowClient.numbered [none]).2 ≠ ([none], some ioEOF) := by
  exact ⟨_, _, _, rfl, rfl, rfl, by decide⟩

/-- The case `STRUCT` of `convert` ends with the error of `Decode`, whatever the column
holds: the client does not fill a `[]NullRow` from a column of code `STRUCT`. -/
theorem convert_struct_error {ρ : Type} (C : RowClient ρ) (v : ColumnValue ρ) :
    convert C { Code := .STRUCT, Value := v } = (none, some errDecode) := by
  simp [convert, GenericColumnValue.Decode]

/-- A column of code `ARRAY` is not among the cases of `convert`. -/
theorem convert_array_unsupported {ρ : Type} (C : RowClient ρ) (v : ColumnValue ρ) :
    convert C { Code := .ARRAY, Value := v } = (none, some .ErrUnsupported) := by
  simp [convert]

theorem scalar_not_subRows {ρ α : Type} (g : GenericColumnValue ρ) (want : TypeCode)
    (pick : ColumnValue ρ → Option α) (wrap : α → GoValue ρ)
    (hw : ∀ a r, wrap a ≠ .subRows r) (r : SubRows ρ) :
    (convert.scalar g want pick wrap).1 ≠ some (.subRows r) := by
  unfold convert.scalar
  split
  · simp
  · simp
  · rename_i a _
    simpa using hw a r

/-- No column value makes `convert` return a `SubRows`. -/
theorem convert_not_subRows {ρ : Type} (C : RowClient ρ) (g : GenericColumnValue ρ)
    (r : SubRows ρ) : (convert C g).1 ≠ some (.subRows r) := by
  obtain ⟨code, v⟩ := g
  cases code
  case STRUCT => rw [convert_struct_error]; simp
  case BYTES =>
    obtain ⟨b, hb⟩ := convert_bytes_typed C v
    rw [hb]; simp
  all_goals first
    | (simp only [convert]; exact scalar_not_subRows _ _ _ _ (by intro a r; simp) r)
    | simp [convert]

/-- C16 (failing input): the nested sequence of the one valid row `7`, a column of code
`ARRAY` with `STRUCT` elements.  The function `convert` has no case for `ARRAY` and
returns `ErrUnsupported`; under the code `STRUCT`, the case that builds the `SubRows`,
`Decode` refuses the target `[]NullRow`: no column value makes `convert` return a
`SubRows` cursor, and the rows are not delivered.  The method `SubRows.Next` itself, on
a cursor over that sequence, delivers the row and then does not report the end of the
data: `r.rows[r.index]` is out of range and it panics, as it does at once on the cursor
`SubRows{}`. -/
theorem convert_nested_rows_fails :
    convert RowClient.numbered { Code := .ARRAY, Value := .rows [{ Row := 7, Valid := true }] }
        = (none, some .ErrUnsupported)
      ∧ convert RowClient.numbered
          { Code := .STRUCT, Value := .rows [{ Row := 7, Valid := true }] }
        = (none, some errDecode)
      ∧ (∀ (ρ : Type) (C : RowClient ρ) (g : GenericColumnValue ρ) (r : SubRows ρ),
          (convert C g).1 ≠ some (.subRows r))
      ∧ SubRows.Next RowClient.numbered
          { cols := [bytes "f1"], index := 0, rows := [{ Row := 7, Valid := true }] } [none]
        = some ({ cols := [bytes "f1"], index := 1, rows := [{ Row := 7, Valid := true }] },
            [some (.int64 7)], none)
      ∧ SubRows.Next RowClient.numbered
          { cols := [bytes "f1"], index := 1, rows := [{ Row := 7, Valid := true }] } [none]
        = none
      ∧ SubRows.Next RowClient.numbered { cols := [], index := 0, rows := [] } [none] = none :=
  ⟨rfl, rfl, fun _ C g r => convert_not_subRows C g r, rfl, rfl, rfl⟩

theorem take_append_replicate {α : Type} (x : α) :
    ∀ (l : List α) (m k1 k2 : Nat), m ≤ k1 → m ≤ k2 →
      (l ++ List.replicate k1 x).take m = (l ++ List.replicate k2 x).take m := by
  intro l
  induction l with
  | nil =>
    intro m k1 k2 h1 h2
    simp [List.take_replicate, Nat.min_eq_left h1, Nat.min_eq_left h2]
  | cons a l ih =>
    intro m k1 k2 h1 h2
    cases m with
    | zero => simp
    | succ m =>
      simp only [List.cons_append, List.take_succ_cons]
      rw [ih m k1 k2 (by omega) (by omega)]

theorem nextN_exhausted {ρ : Type} (C : RowClient ρ) (dest : List (Option (GoValue ρ)))
    (cols : List (List Byte)) (ri : RowIterator ρ) (hrows : ri.rows = [])
    (hlast : ri.last = iteratorDone) (herr : ri.err = none ∨ ri.err = some iteratorDone) :
    ∀ m, Rows.NextN C dest m { cols := cols, r1 := none, ri := some ri }
      = List.replicate m (dest, some ioEOF) := by
  intro m
  induction m generalizing ri with
  | zero => rfl
  | succ m ih =>
    rcases herr with herr | herr
    · have hn : ri.Next = (.error iteratorDone, { ri with err := some iteratorDone }) := by
        simp [RowIterator.Next, herr, hrows, hlast]
      simp only [Rows.NextN, Rows.Next, hn, if_true, List.replicate_succ]
      rw [ih { ri with err := some iteratorDone } hrows hlast (Or.inr rfl)]
    · have hn : ri.Next = (.error iteratorDone, ri) := by
        simp [RowIterator.Next, herr]
      simp only [Rows.NextN, Rows.Next, hn, if_true, List.replicate_succ]
      rw [ih ri hrows hlast (Or.inr herr)]

theorem nextN_iterator {ρ : Type} (C : RowClient ρ) (dest : List (Option (GoValue ρ)))
    (cols : List (List Byte)) :
    ∀ (rows : List ρ) (ri : RowIterator ρ) (m : Nat), ri.rows = rows →
      ri.last = iteratorDone → ri.err = none →
      Rows.NextN C dest m { cols := cols, r1 := none, ri := some ri }
        = (rows.map (decodeValues C dest) ++ List.replicate m (dest, some ioEOF)).take m := by
  intro rows
  induction rows with
  | nil =>
    intro ri m hrows hlast herr
    rw [nextN_exhausted C dest cols ri hrows hlast (Or.inl herr)]
    simp
  | cons row rest ih =>
    intro ri m hrows hlast herr
    cases m with
    | zero => simp [Rows.NextN]
    | succ m =>
      have hn : ri.Next = (.ok row, { ri with rows := rest }) := by
        simp [RowIterator.Next, herr, hrows]
      simp only [Rows.NextN, Rows.Next, hn, List.map_cons, List.cons_append, List.take_succ_cons]
      rw [ih { ri with rows := rest } m rfl hlast herr]
      congr 1
      exact take_append_replicate _ _ m m (m + 1) (le_refl m) (by omega)

/-- C15: for an iterator that yields the rows `r1 .. rn` and then `iterator.Done`,
`conn.query` returns a cursor without error, and `m` successive calls of `Next` on it
decode `r1 .. rn` in that order, one row a call, and return `io.EOF`, the buffer
untouched, in every call after the `n`-th. -/
theorem query_delivers_rows {ρ : Type} (C : RowClient ρ) (ri : RowIterator ρ)
    (dest : List (Option (GoValue ρ))) (m : Nat)
    (hlast : ri.last = iteratorDone) (herr : ri.err = none) :
    ∃ r, conn.query.open C ri = .ok r
      ∧ Rows.NextN C dest m r
          = (ri.rows.map (decodeValues C dest) ++ List.replicate m (dest, some ioEOF)).take m
      ∧ (ri.rows = [] → r.Next C dest = (r, dest, some ioEOF)) := by
  cases hrows : ri.rows with
  | nil =>
    have hn : ri.Next = (.error iteratorDone, { ri with err := some iteratorDone }) := by
      simp [RowIterator.Next, herr, hrows, hlast]
    refine ⟨{ cols := [], r1 := none, ri := none }, ?_, ?_, ?_⟩
    · simp [conn.query.open, hn]
    · simp only [List.map_nil, List.nil_append]
      have : ∀ k, Rows.NextN C dest k ({ cols := [], r1 := none, ri := none } : Rows ρ)
          = List.replicate k (dest, some ioEOF) := by
        intro k
        induction k with
        | zero => rfl
        | succ k ih => simp only [Rows.NextN, Rows.Next, ih, List.replicate_succ]
      rw [this]; simp
    · intro _; rfl
  | cons row rest =>
    have hn : ri.Next = (.ok row, { ri with rows := rest }) := by
      simp [RowIterator.Next, herr, hrows]
    refine ⟨{ cols := C.ColumnNames row, r1 := some row, ri := some { ri with rows := rest } },
      ?_, ?_, ?_⟩
    · simp [conn.query.open, hn]
    · cases m with
      | zero => simp [Rows.NextN]
      | succ m =>
        simp only [Rows.NextN, Rows.Next, List.map_cons, List.cons_append, List.take_succ_cons]
        rw [nextN_iterator C dest _ rest { ri with rows := rest } m rfl hlast herr]
        congr 1
        exact take_append_replicate _ _ m m (m + 1) (le_refl m) (by omega)
    · intro h; simp at h

/-- C15 (witness): a query that finds the rows `7` and `8`, read with four calls of
`Next`. -/
theorem query_delivers_rows_witness :
    ∃ r, conn.query.open RowClient.numbered
            { rows := [7, 8], last := iteratorDone, err := none } = .ok r
      ∧ Rows.NextN RowClient.numbered [none] 4 r
          = [([some (.int64 7)], none), ([some (.int64 8)], none),
             ([none], some ioEOF), ([none], some ioEOF)] :=
  let ⟨r, h1, h2, _⟩ :=
    query_delivers_rows RowClient.numbered
      { rows := [7, 8], last := iteratorDone, err := none } [none] 4 rfl rfl
  ⟨r, h1, h2⟩

theorem skip_spec {ρ : Type} :
    ∀ (l : List (NullRow ρ)) (index : Nat),
      (validRows l = [] → SubRows.Next.skip l index = none)
        ∧ ∀ v rest, validRows l = v :: rest →
            ∃ j, SubRows.Next.skip l index = some (index + j, v)
              ∧ validRows (l.drop (j + 1)) = rest := by
  intro l
  induction l with
  | nil =>
    intro index
    exact ⟨fun _ => rfl, fun v rest h => by simp [validRows] at h⟩
  | cons nr l ih =>
    intro index
    by_cases hv : nr.Valid = true
    · refine ⟨fun h => by simp [validRows, hv] at h, ?_⟩
      intro v rest h
      simp only [validRows, List.filter_cons, hv, if_true, List.map_cons, List.cons.injEq] at h
      refine ⟨0, ?_, ?_⟩
      · simp [SubRows.Next.skip, hv, h.1]
      · simpa [validRows] using h.2
    · have hv' : nr.Valid = false := by simpa using hv
      have hvr : validRows (nr :: l) = validRows l := by simp [validRows, hv']
      obtain ⟨ih1, ih2⟩ := ih (index + 1)
      refine ⟨fun h => by simp [SubRows.Next.skip, hv', ih1 (hvr ▸ h)], ?_⟩
      intro v rest h
      obtain ⟨j, hj1, hj2⟩ := ih2 v rest (hvr ▸ h)
      refine ⟨j + 1, ?_, ?_⟩
      · simp only [SubRows.Next.skip, hv', Bool.false_eq_true, if_false, hj1]
        congr 2; omega
      · simpa using hj2

/-- The method `SubRows.Next` delivers the next row marked valid; with no valid row
left it panics. -/
theorem subRows_next_spec {ρ : Type} (C : RowClient ρ) (r : SubRows ρ)
    (dest : List (Option (GoValue ρ))) :
    (validRows (r.rows.drop r.index) = [] → r.Next C dest = none)
      ∧ ∀ v rest, validRows (r.rows.drop r.index) = v :: rest →
          ∃ r', r.Next C dest = some (r', decodeValues C dest v)
            ∧ r'.rows = r.rows ∧ validRows (r'.rows.drop r'.index) = rest := by
  obtain ⟨h1, h2⟩ := skip_spec (r.rows.drop r.index) r.index
  refine ⟨fun h => by simp [SubRows.Next, h1 h], ?_⟩
  intro v rest h
  obtain ⟨j, hj1, hj2⟩ := h2 v rest h
  refine ⟨{ r with index := r.index + j + 1 }, by simp [SubRows.Next, hj1], rfl, ?_⟩
  rw [List.drop_drop] at hj2
  simp only
  rw [← hj2, Nat.add_assoc]

/-! ## The loop of the transaction and the rollback signal -/

theorem runTx_loop_spec (B : Backend) (readonly : Bool) (later : List Selected) :
    ∀ (ops : List transactionOp) (calls : List SpannerStatement),
      (transaction.runTx.loop B readonly (ops.map .op ++ .closed :: later) none calls).executed.map
          Prod.fst
        = ops.take
            (transaction.runTx.loop B readonly (ops.map .op ++ .closed :: later) none
              calls).executed.length
      ∧ (((transaction.runTx.loop B readonly (ops.map .op ++ .closed :: later) none
              calls).returned = some none
            ∧ (transaction.runTx.loop B readonly (ops.map .op ++ .closed :: later) none
                calls).executed.length = ops.length
            ∧ ∀ x ∈ (transaction.runTx.loop B readonly (ops.map .op ++ .closed :: later) none
                calls).executed, x.2 = none)
          ∨ ∃ e l o,
              (transaction.runTx.loop B readonly (ops.map .op ++ .closed :: later) none
                calls).returned = some (some e)
              ∧ (transaction.runTx.loop B readonly (ops.map .op ++ .closed :: later) none
                  calls).executed = l ++ [(o, some e)]
              ∧ ∀ x ∈ l, x.2 = none) := by
  intro ops
  induction ops with
  | nil =>
    intro calls
    simp [transaction.runTx.loop]
  | cons o ops ih =>
    intro calls
    simp only [List.map_cons, List.cons_append, transaction.runTx.loop]
    rcases hrun : o.run B readonly calls with ⟨calls', result, err⟩
    simp only
    cases result with
    | some e =>
      simp only [Option.isSome_some, if_true, List.map_cons, List.map_nil, List.length_cons,
        List.length_nil, List.take_succ_cons, List.take_zero, true_and]
      right
      exact ⟨e, [], o, rfl, rfl, by simp⟩
    | none =>
      obtain ⟨h1, h2⟩ := ih calls'
      simp only [Option.isSome_none, Bool.false_eq_true, if_false, List.map_cons,
        List.length_cons, List.take_succ_cons, List.cons.injEq, true_and]
      refine ⟨h1, ?_⟩
      rcases h2 with ⟨h2a, h2b, h2c⟩ | ⟨e, l, o', h2a, h2b, h2c⟩
      · left
        refine ⟨h2a, by simpa using h2b, ?_⟩
        intro x hx
        rcases List.mem_cons.1 hx with rfl | hx
        · rfl
        · exact h2c x hx
      · right
        refine ⟨e, (o, none) :: l, o', h2a, by simp [h2b], ?_⟩
        intro x hx
        rcases List.mem_cons.1 hx with rfl | hx
        · rfl
        · exact h2c x hx

theorem runTx_loop_all (B : Backend) (readonly : Bool) (later : List Selected) :
    ∀ (ops : List transactionOp) (calls : List SpannerStatement) (result : Option Error),
      (∀ r ∈ (transactionOp.runEach B readonly ops calls).2, r = none) →
      (ops = [] → result = none) →
      transaction.runTx.loop B readonly (ops.map .op ++ .closed :: later) result calls
        = { executed := ops.map (fun o => (o, none)),
            calls := (transactionOp.runEach B readonly ops calls).1,
            returned := some none } := by
  intro ops
  induction ops with
  | nil =>
    intro calls result _ hres
    simp [transaction.runTx.loop, transactionOp.runEach, hres rfl]
  | cons o ops ih =>
    intro calls result hall _
    simp only [transactionOp.runEach, List.mem_cons, forall_eq_or_imp] at hall
    obtain ⟨h1, h2⟩ := hall
    simp only [List.map_cons, List.cons_append, transaction.runTx.loop, transactionOp.runEach]
    rcases hrun : o.run B readonly calls with ⟨calls', r, err⟩
    rw [hrun] at h1 h2
    simp only at h1 h2
    subst h1
    simp only [Option.isSome_none, Bool.false_eq_true, if_false, List.append_eq]
    rw [ih calls' none h2 (fun _ => rfl)]

theorem runTx_loop_first (B : Backend) (readonly : Bool) (o : transactionOp)
    (rest : List Selected) (e : Error) :
    ∀ (pre : List transactionOp) (calls : List SpannerStatement) (result : Option Error),
      (∀ r ∈ (transactionOp.runEach B readonly pre calls).2, r = none) →
      (o.run B readonly (transactionOp.runEach B readonly pre calls).1).2.1 = some e →
      transaction.runTx.loop B readonly (pre.map .op ++ .op o :: rest) result calls
        = { executed := pre.map (fun o => (o, none)) ++ [(o, some e)],
            calls := (o.run B readonly (transactionOp.runEach B readonly pre calls).1).1,
            returned := some (some e) } := by
  intro pre
  induction pre with
  | nil =>
    intro calls result _ he
    simp only [transactionOp.runEach] at he
    simp only [List.map_nil, List.nil_append, transaction.runTx.loop, transactionOp.runEach]
    rcases hrun : o.run B readonly calls with ⟨calls', r, err⟩
    rw [hrun] at he
    simp only at he
    subst he
    simp
  | cons p pre ih =>
    intro calls result hall he
    simp only [transactionOp.runEach, List.mem_cons, forall_eq_or_imp] at hall
    obtain ⟨h1, h2⟩ := hall
    simp only [transactionOp.runEach] at he
    simp only [List.map_cons, List.cons_append, transaction.runTx.loop, transactionOp.runEach]
    rcases hrun : p.run B readonly calls with ⟨calls', r, err⟩
    rw [hrun] at h1 h2 he
    simp only at h1 h2 he
    subst h1
    simp only [Option.isSome_none, Bool.false_eq_true, if_false, List.append_eq]
    rw [ih calls' none h2 he]

/-- C17: with the commands `ops` delivered on the command channel and no rollback
signal, `runTx` runs them one at a time in the order they were sent, each against the
backend as the commands before it left it.  If every command returns nil and the
channel is then closed, all were run and `runTx` returns nil.  If the command `o`,
after the commands `pre`, is the first to return an error `e`, then `runTx` has run
`pre` and `o`, returns `e`, and the backend has received nothing from a later command,
whatever follows on the channel.  On the backend that refuses every update the first of
two updates is run and its error returned; on the one that accepts them both are run
and nil is returned. -/
theorem runTx_in_order (B : Backend) (readonly : Bool) (calls : List SpannerStatement) :
    (∀ (ops : List transactionOp) (later : List Selected),
        (∀ r ∈ (transactionOp.runEach B readonly ops calls).2, r = none) →
        transaction.runTx.loop B readonly (ops.map .op ++ .closed :: later) none calls
          = { executed := ops.map (fun o => (o, none)),
              calls := (transactionOp.runEach B readonly ops calls).1,
              returned := some none })
      ∧ (∀ (pre : List transactionOp) (o : transactionOp) (rest : List Selected) (e : Error),
          (∀ r ∈ (transactionOp.runEach B readonly pre calls).2, r = none) →
          (o.run B readonly (transactionOp.runEach B readonly pre calls).1).2.1 = some e →
          transaction.runTx.loop B readonly (pre.map .op ++ .op o :: rest) none calls
            = { executed := pre.map (fun o => (o, none)) ++ [(o, some e)],
                calls := (o.run B readonly (transactionOp.runEach B readonly pre calls).1).1,
                returned := some (some e) })
      ∧ transaction.runTx.loop Backend.refusing false
            [.op (.exec insertFoo), .op (.exec insertFoo), .closed] none []
          = { executed := [(.exec insertFoo, some (.other 3))], calls := [insertFoo],
              returned := some (some (.other 3)) }
      ∧ transaction.runTx.loop Backend.healthy false
            [.op (.exec insertFoo), .op (.query insertFoo), .closed] none []
          = { executed := [(.exec insertFoo, none), (.query insertFoo, none)],
              calls := [insertFoo, insertFoo], returned := some none } :=
  ⟨fun ops later h => runTx_loop_all B readonly later ops calls none h (fun _ => rfl),
   fun pre o rest e h he => runTx_loop_first B readonly o rest e pre calls none h he,
   rfl, rfl⟩

/-- A closure returns to the loop what `runTx` records for it. -/
theorem runTx_executed_first (B : Backend) (readonly : Bool) (o : transactionOp)
    (evs : List Selected) (result : Option Error) (calls : List SpannerStatement) :
    (transaction.runTx.loop B readonly (.op o :: evs) result calls).executed.head?
      = some (o, (o.run B readonly calls).2.1) := by
  simp only [transaction.runTx.loop]
  rcases hrun : o.run B readonly calls with ⟨calls', r, err⟩
  cases r <;> simp

/-- C18 (counterexample): a second `Rollback` on a transaction that a first `Rollback`
has rolled back panics. -/
theorem second_rollback_panics :
    runTrace Backend.healthy
        [.BeginTx false, .Rollback, .finishClose, .selectRollback, .report, .recv]
        System.init = .ok atRollbackDone
      ∧ atRollbackDone.returned.head? = some (.Rollback, none)
      ∧ step Backend.healthy .Rollback atRollbackDone = .panic := by
  decide

/-- A fired rollback signal stays fired: no step but a `BeginTx` reopens the rollback
channel of the transaction of the connection. -/
theorem step_rollback_fired (B : Backend) (a : Action) (x x' : System) (tx : transaction)
    (h : step B a x = .ok x') (htx : x.c.txn = some tx) (hfired : tx.rollbackCh.closed = true)
    (ha : ∀ readonly, a ≠ .BeginTx readonly) :
    ∃ tx', x'.c.txn = some tx' ∧ tx'.rollbackCh.closed = true := by
  unfold step at h
  split at h
  · rename_i readonly _
    exact absurd rfl (ha readonly)
  · simp only [Step.ok.injEq] at h
    subst h
    refine ⟨tx, ?_, hfired⟩
    simp only [conn.exec, conn.route, System.ret]
    split <;> [split <;> [exact htx; split <;> exact htx]; exact htx]
  · simp only [Step.ok.injEq] at h
    subst h
    refine ⟨tx, ?_, hfired⟩
    simp only [conn.query, conn.route, System.ret]
    split <;> [split <;> [exact htx; split <;> exact htx]; exact htx]
  · unfold conn.send at h
    rw [htx] at h
    simp only at h
    split at h
    · simp at h
    · split at h
      · simp only [Step.ok.injEq] at h
        subst h
        exact ⟨_, rfl, hfired⟩
      · simp at h
      · simp at h
  · split at h
    · simp at h
    · simp only [Step.ok.injEq] at h
      subst h
      exact ⟨tx, htx, hfired⟩
  · unfold transaction.finishClose at h
    rw [htx] at h
    simp only at h
    split at h
    · simp only [Step.ok.injEq] at h
      subst h
      exact ⟨_, rfl, hfired⟩
    · simp at h
    · simp at h
  · unfold transaction.rollbackClose at h
    rw [htx] at h
    simp [Chan.close, hfired] at h
  · unfold transaction.finishClose at h
    rw [htx] at h
    simp only at h
    split at h
    · simp only [Step.ok.injEq] at h
      subst h
      exact ⟨_, rfl, hfired⟩
    · simp at h
    · simp at h
  · rw [htx] at h
    simp only at h
    split at h
    · rename_i t' hrecv
      simp only [Step.ok.injEq] at h
      subst h
      unfold transaction.finishRecv at hrecv
      split at hrecv
      · simp at hrecv
      · split at hrecv
        · simp only [Step.ok.injEq] at hrecv
          subst hrecv
          exact ⟨_, rfl, hfired⟩
        · simp at hrecv
        · simp at hrecv
    · simp at h
    · simp at h
  · rw [htx] at h
    simp only at h
    split at h
    · rename_i t' hrecv
      simp only [Step.ok.injEq] at h
      subst h
      unfold transaction.finishRecv at hrecv
      split at hrecv
      · simp at hrecv
      · split at hrecv
        · simp only [Step.ok.injEq] at hrecv
          subst hrecv
          exact ⟨_, rfl, hfired⟩
        · simp at hrecv
        · simp at hrecv
    · simp at h
    · simp at h
  · simp only [transaction.runTx] at h
    rw [htx] at h
    simp only at h
    split at h
    · simp at h
    · split at h
      · simp at h
      · simp only [Step.ok.injEq] at h
        subst h
        exact ⟨_, rfl, hfired⟩
  · simp only [transaction.runTx] at h
    rw [htx] at h
    simp only at h
    split at h
    · simp at h
    · split at h
      · simp only [Step.ok.injEq] at h
        subst h
        exact ⟨tx, htx, hfired⟩
      · simp at h
  · simp only [transaction.runTx] at h
    rw [htx] at h
    simp only [hfired, if_true, Step.ok.injEq] at h
    subst h
    exact ⟨tx, htx, hfired⟩
  · unfold transaction.run at h
    rw [htx] at h
    simp only at h
    split at h
    · simp at h
    · split at h
      · split at h
        · simp only [Step.ok.injEq] at h
          subst h
          exact ⟨_, rfl, hfired⟩
        · simp at h
        · simp at h
      · simp at h
      · simp at h
  · simp at h

/-- C18 (amended): `Rollback` closes the rollback channel without a guard.  On a
transaction whose signal has not been fired it fires it; the signal then stays fired
through every step but a `BeginTx`; and on a transaction whose signal has been fired
`Rollback` panics at that close: the signal is fired at most once, and a second
`Rollback` does not complete. -/
theorem Rollback_once (B : Backend) (s : System) (t : transaction) (hidle : s.caller = .idle)
    (ht : s.c.txn = some t) :
    (t.rollbackCh.closed = false →
        ∃ s' t', step B .Rollback s = .ok s' ∧ s'.caller = .rollbackFinish
          ∧ s'.c.txn = some t' ∧ t'.rollbackCh.closed = true)
      ∧ (t.rollbackCh.closed = true → step B .Rollback s = .panic)
      ∧ ∀ (a : Action) (x x' : System) (tx : transaction), step B a x = .ok x' →
          x.c.txn = some tx → tx.rollbackCh.closed = true → (∀ readonly, a ≠ .BeginTx readonly) →
          ∃ tx', x'.c.txn = some tx' ∧ tx'.rollbackCh.closed = true := by
  refine ⟨?_, ?_, ?_⟩
  · intro hopen
    refine ⟨{ s with c := { txn := some { t with rollbackCh := { t.rollbackCh with closed := true } } },
                     caller := .rollbackFinish },
      { t with rollbackCh := { t.rollbackCh with closed := true } }, ?_, rfl, rfl, rfl⟩
    simp [step, hidle, transaction.rollbackClose, ht, Chan.close, hopen]
  · intro hfired
    simp [step, hidle, transaction.rollbackClose, ht, Chan.close, hfired]
  · intro a x x' tx h htx hfired ha
    exact step_rollback_fired B a x x' tx h htx hfired ha

/-- C18 (witness): the first `Rollback` on a new transaction, and the second after
the first has returned. -/
theorem Rollback_once_witness :
    (conn.BeginTx System.init false).caller = .idle
      ∧ (∃ s' t', step Backend.healthy .Rollback (conn.BeginTx System.init false) = .ok s'
          ∧ s'.caller = .rollbackFinish ∧ s'.c.txn = some t' ∧ t'.rollbackCh.closed = true)
      ∧ atRollbackDone.caller = .idle
      ∧ step Backend.healthy .Rollback atRollbackDone = .panic :=
  ⟨rfl,
    (Rollback_once Backend.healthy (conn.BeginTx System.init false) _ rfl rfl).1 rfl,
    rfl,
    (Rollback_once Backend.healthy atRollbackDone _ rfl rfl).2.1 rfl⟩

/-! ## Connection strings -/

theorem dropLiteral_append (lit s : List Byte) : dropLiteral lit (lit ++ s) = some s := by
  induction lit with
  | nil => cases s <;> rfl
  | cons l lit ih => simp [dropLiteral, ih]

theorem dropLiteral_some : ∀ (lit s s' : List Byte), dropLiteral lit s = some s' → s = lit ++ s' := by
  intro lit
  induction lit with
  | nil =>
    intro s s' h
    cases s <;> simp [dropLiteral] at h <;> simp [h]
  | cons l lit ih =>
    intro s s' h
    cases s with
    | nil => simp [dropLiteral] at h
    | cons b s =>
      simp only [dropLiteral] at h
      split at h
      · rename_i hlb
        rw [hlb, ih s s' h]; rfl
      · simp at h

theorem nameRun_append (name rest : List Byte) (hname : (47 : Byte) ∉ name)
    (hrest : rest = [] ∨ rest.head? = some 47) :
    nameRun (name ++ rest) = (name, rest) := by
  induction name with
  | nil =>
    rcases hrest with h | h
    · subst h; rfl
    · cases rest with
      | nil => rfl
      | cons r rest =>
        simp only [List.head?_cons, Option.some.injEq] at h
        subst h
        simp [nameRun]
  | cons b name ih =>
    have hb : b ≠ 47 := fun h => hname (by simp [h])
    have hn : (47 : Byte) ∉ name := fun h => hname (by simp [h])
    have := ih hn
    simp only [List.cons_append, nameRun, hb, if_false]
    show (b :: (nameRun (name ++ rest)).1, (nameRun (name ++ rest)).2) = (b :: name, rest)
    rw [this]

theorem nameRun_spec : ∀ (s : List Byte),
    s = (nameRun s).1 ++ (nameRun s).2 ∧ (47 : Byte) ∉ (nameRun s).1 := by
  intro s
  induction s with
  | nil => simp [nameRun]
  | cons b s ih =>
    simp only [nameRun]
    split
    · simp
    · rename_i hb
      obtain ⟨ih1, ih2⟩ := ih
      refine ⟨by simp only [List.cons_append]; rw [← ih1], ?_⟩
      intro hmem
      rcases List.mem_cons.1 hmem with h | h
      · exact hb h.symm
      · exact ih2 h

theorem nameGroup_append (name rest : List Byte) (hne : name ≠ []) (hname : (47 : Byte) ∉ name)
    (hrest : rest = [] ∨ rest.head? = some 47) :
    nameGroup (name ++ rest) = some (name, rest) := by
  unfold nameGroup
  rw [nameRun_append name rest hname hrest]
  cases name with
  | nil => exact absurd rfl hne
  | cons b name => rfl

theorem nameGroup_some (s name rest : List Byte) (h : nameGroup s = some (name, rest)) :
    s = name ++ rest ∧ name ≠ [] ∧ (47 : Byte) ∉ name := by
  unfold nameGroup at h
  obtain ⟨h1, h2⟩ := nameRun_spec s
  split at h
  · simp at h
  · rename_i n r hne heq
    simp only [Option.some.injEq, Prod.mk.injEq] at h
    obtain ⟨e1, e2⟩ := h
    subst e1 e2
    rw [heq] at h1 h2
    refine ⟨h1, ?_, h2⟩
    intro hnil
    exact hne hnil

theorem canonical_head (P I D rest : List Byte) :
    (canonical P I D ++ rest).head? = some 112 := by
  simp [canonical, show bytes "projects/" = [112, 114, 111, 106, 101, 99, 116, 115, 47] by decide]

theorem dnsPathRegexp_canonical (P I D lead trail : List Byte) (hP : P ≠ []) (hI : I ≠ [])
    (hD : D ≠ []) (sP : (47 : Byte) ∉ P) (sI : (47 : Byte) ∉ I) (sD : (47 : Byte) ∉ D)
    (hlead : lead = [] ∨ lead = [47]) (htrail : trail = [] ∨ trail = [47]) :
    dnsPathRegexp (lead ++ canonical P I D ++ trail) = some (P, I, D) := by
  have hs : (if (lead ++ canonical P I D ++ trail).head? = some 47
      then (lead ++ canonical P I D ++ trail).tail else lead ++ canonical P I D ++ trail)
      = bytes "projects/" ++ (P ++ (bytes "/instances/" ++ (I ++ (bytes "/databases/"
          ++ (D ++ trail))))) := by
    rcases hlead with h | h
    · subst h
      have := canonical_head P I D trail
      simp only [List.nil_append, this]
      simp [canonical]
    · subst h
      simp [canonical]
  have i1 : (bytes "/instances/" ++ (I ++ (bytes "/databases/" ++ (D ++ trail)))).head?
      = some 47 := by
    simp [show bytes "/instances/" = [47, 105, 110, 115, 116, 97, 110, 99, 101, 115, 47] by decide]
  have i2 : (bytes "/databases/" ++ (D ++ trail)).head? = some 47 := by
    simp [show bytes "/databases/" = [47, 100, 97, 116, 97, 98, 97, 115, 101, 115, 47] by decide]
  have i3 : trail = [] ∨ trail.head? = some 47 := by
    rcases htrail with h | h <;> simp [h]
  simp only [dnsPathRegexp, hs, dropLiteral_append, nameGroup_append P _ hP sP (Or.inr i1),
    nameGroup_append I _ hI sI (Or.inr i2), nameGroup_append D _ hD sD i3]
  rcases htrail with h | h <;> simp [h]

theorem dnsPathRegexp_shape (path p i d : List Byte)
    (h : dnsPathRegexp path = some (p, i, d)) : pathShape path := by
  unfold dnsPathRegexp at h
  simp only at h
  split at h
  · simp at h
  · rename_i s1 h1
    split at h
    · simp at h
    · rename_i p' s2 h2
      split at h
      · simp at h
      · rename_i s3 h3
        split at h
        · simp at h
        · rename_i i' s4 h4
          split at h
          · simp at h
          · rename_i s5 h5
            split at h
            · simp at h
            · rename_i d' s6 h6
              split at h
              · rename_i htrail
                obtain ⟨e2, n2, m2⟩ := nameGroup_some _ _ _ h2
                obtain ⟨e4, n4, m4⟩ := nameGroup_some _ _ _ h4
                obtain ⟨e6, n6, m6⟩ := nameGroup_some _ _ _ h6
                have e1 := dropLiteral_some _ _ _ h1
                have e3 := dropLiteral_some _ _ _ h3
                have e5 := dropLiteral_some _ _ _ h5
                refine ⟨p', i', d', if path.head? = some 47 then [47] else [], s6, n2, n4, n6,
                  m2, m4, m6, ?_, htrail, ?_⟩
                · split <;> simp
                · have hbody : (if path.head? = some 47 then path.tail else path)
                      = canonical p' i' d' ++ s6 := by
                    rw [e1, e2, e3, e4, e5, e6]
                    simp [canonical]
                  split
                  · rename_i hh
                    rw [if_pos hh] at hbody
                    cases path with
                    | nil => simp at hh
                    | cons b path =>
                      simp only [List.head?_cons, Option.some.injEq] at hh
                      simp only [List.tail_cons] at hbody
                      rw [hh, hbody]
                      simp
                  · rename_i hh
                    rw [if_neg hh] at hbody
                    rw [hbody]; simp
              · simp at h

theorem cutByte_none (sep : Byte) (s : List Byte) (h : sep ∉ s) : cutByte sep s = (s, none) := by
  induction s with
  | nil => rfl
  | cons b s ih =>
    have hb : b ≠ sep := fun e => h (by simp [e])
    have hs : sep ∉ s := fun e => h (by simp [e])
    simp [cutByte, hb, ih hs]

theorem unescape_plain (s : List Byte) (h : (37 : Byte) ∉ s) : unescape s = some s := by
  induction s with
  | nil => rfl
  | cons b s ih =>
    have hb : b ≠ 37 := fun e => h (by simp [e])
    have hs : (37 : Byte) ∉ s := fun e => h (by simp [e])
    unfold unescape
    simp only [hb, if_false, ih hs]

theorem ctl_false (s : List Byte) (h : ∀ b ∈ s, safeByte b) : stringContainsCTLByte s = false := by
  simp only [stringContainsCTLByte, List.any_eq_false]
  intro b hb
  obtain ⟨_, _, _, h4, h5⟩ := h b hb
  simp [h4, h5]

theorem safe_canonical (P I D : List Byte) (hP : plainName P) (hI : plainName I)
    (hD : plainName D) : ∀ b ∈ canonical P I D, safeByte b := by
  have l1 : ∀ b ∈ bytes "projects/", safeByte b := by unfold safeByte; decide
  have l2 : ∀ b ∈ bytes "/instances/", safeByte b := by unfold safeByte; decide
  have l3 : ∀ b ∈ bytes "/databases/", safeByte b := by unfold safeByte; decide
  have n : ∀ N, plainName N → ∀ b ∈ N, safeByte b := by
    intro N hN b hb
    obtain ⟨_, h2, h3, h4, h5, h6⟩ := hN.2.2.2 b hb
    exact ⟨h2, h3, h4, h5, h6⟩
  intro b hb
  simp only [canonical, List.mem_append] at hb
  rcases hb with ((((hb | hb) | hb) | hb) | hb) | hb
  · exact l1 b hb
  · exact n P hP b hb
  · exact l2 b hb
  · exact n I hI b hb
  · exact l3 b hb
  · exact n D hD b hb

theorem plainName_noslash (N : List Byte) (h : plainName N) : (47 : Byte) ∉ N :=
  fun hm => (h.2.2.2 47 hm).1 rfl

theorem canonical_cons (P I D : List Byte) :
    ∃ tl, canonical P I D = 112 :: 114 :: 111 :: 106 :: 101 :: 99 :: 116 :: 115 :: 47 :: tl := by
  refine ⟨P ++ bytes "/instances/" ++ I ++ bytes "/databases/" ++ D, ?_⟩
  simp [canonical, show bytes "projects/" = [112, 114, 111, 106, 101, 99, 116, 115, 47] by decide]

theorem parse_path (authorityOk : List Byte → Bool) (P I D lead trail : List Byte)
    (hP : plainName P) (hI : plainName I) (hD : plainName D)
    (hlead : lead = [] ∨ lead = [47]) (htrail : trail = [] ∨ trail = [47]) :
    urlParse authorityOk (lead ++ canonical P I D ++ trail)
      = some { Scheme := [], Opaque := [], Path := lead ++ canonical P I D ++ trail,
               RawQuery := [], Fragment := [] } := by
  have hsafe : ∀ b ∈ lead ++ canonical P I D ++ trail, safeByte b := by
    intro b hb
    simp only [List.mem_append] at hb
    rcases hb with (hb | hb) | hb
    · rcases hlead with h | h <;> subst h <;> simp at hb
      subst hb; unfold safeByte; decide
    · exact safe_canonical P I D hP hI hD b hb
    · rcases htrail with h | h <;> subst h <;> simp at hb
      subst hb; unfold safeByte; decide
  have h35 : (35 : Byte) ∉ lead ++ canonical P I D ++ trail := fun h => (hsafe _ h).2.2.1 rfl
  have h63 : (63 : Byte) ∉ lead ++ canonical P I D ++ trail := fun h => (hsafe _ h).2.1 rfl
  have h37 : (37 : Byte) ∉ lead ++ canonical P I D ++ trail := fun h => (hsafe _ h).1 rfl
  obtain ⟨tl, htl⟩ := canonical_cons P I D
  have hnostar : lead ++ canonical P I D ++ trail ≠ [42] := by
    rw [htl]; rcases hlead with h | h <;> subst h <;> simp
  have hscheme : getScheme (lead ++ canonical P I D ++ trail)
      = some ([], lead ++ canonical P I D ++ trail) := by
    rcases hlead with h | h <;> subst h
    · simp only [List.nil_append]
      rw [getScheme]
      conv => lhs; arg 3; rw [htl]
      simp [getScheme.loop]
    · rw [getScheme]
      conv => lhs; arg 3; rw [List.append_assoc, List.singleton_append]
      simp [getScheme.loop]
  have hrest : ¬ ((lead ++ canonical P I D ++ trail).head? ≠ some 47
      ∧ ((cutByte 47 (lead ++ canonical P I D ++ trail)).1.contains 58) = true) := by
    rcases hlead with h | h <;> subst h
    · rw [htl]
      simp [cutByte]
    · simp
  have htake : (lead ++ canonical P I D ++ trail).take 2 ≠ [47, 47] := by
    rw [htl]; rcases hlead with h | h <;> subst h <;> simp
  simp only [urlParse, cutByte_none 35 _ h35, urlParse.parse, ctl_false _ hsafe, hnostar,
    hscheme, cutByte_none 63 _ h63, toLower, List.map_nil, Bool.false_eq_true, if_false,
    ne_eq, not_true_eq_false, and_false, hrest, htake, unescape_plain _ h37, Option.getD_none,
    List.nil_eq, reduceCtorEq, false_and, not_false_eq_true]

theorem parse_spanner (authorityOk : List Byte → Bool) (P I D trail : List Byte)
    (hP : plainName P) (hI : plainName I) (hD : plainName D)
    (htrail : trail = [] ∨ trail = [47]) :
    urlParse authorityOk (bytes "spanner:///" ++ canonical P I D ++ trail)
      = some { Scheme := bytes "spanner", Opaque := [], Path := [47] ++ canonical P I D ++ trail,
               RawQuery := [], Fragment := [] } := by
  have hlit : ∀ b ∈ bytes "spanner:///", safeByte b := by unfold safeByte; decide
  have hsafe : ∀ b ∈ bytes "spanner:///" ++ canonical P I D ++ trail, safeByte b := by
    intro b hb
    simp only [List.mem_append] at hb
    rcases hb with (hb | hb) | hb
    · exact hlit b hb
    · exact safe_canonical P I D hP hI hD b hb
    · rcases htrail with h | h <;> subst h <;> simp at hb
      subst hb; unfold safeByte; decide
  have hsafe2 : ∀ b ∈ [47, 47, 47] ++ canonical P I D ++ trail, safeByte b := by
    intro b hb
    apply hsafe
    simp only [List.mem_append] at hb ⊢
    rcases hb with (hb | hb) | hb
    · left; left
      have : b = 47 := by simpa using hb
      subst this; decide
    · left; right; exact hb
    · right; exact hb
  have h35 : (35 : Byte) ∉ bytes "spanner:///" ++ canonical P I D ++ trail :=
    fun h => (hsafe _ h).2.2.1 rfl
  have h63 : (63 : Byte) ∉ [47, 47, 47] ++ canonical P I D ++ trail :=
    fun h => (hsafe2 _ h).2.1 rfl
  have h37 : (37 : Byte) ∉ 47 :: (canonical P I D ++ trail) := by
    intro h
    exact (hsafe2 37 (by simp at h ⊢; exact h)).1 rfl
  have hb : bytes "spanner:///" = [115, 112, 97, 110, 110, 101, 114, 58, 47, 47, 47] := by
    decide
  have hnostar : bytes "spanner:///" ++ canonical P I D ++ trail ≠ [42] := by
    rw [hb]; simp
  have hscheme : getScheme (bytes "spanner:///" ++ canonical P I D ++ trail)
      = some ([115, 112, 97, 110, 110, 101, 114], [47, 47, 47] ++ canonical P I D ++ trail) := by
    rw [getScheme]
    conv => lhs; arg 3; rw [hb]
    simp [getScheme.loop]
  have hlow : toLower [115, 112, 97, 110, 110, 101, 114] = bytes "spanner" := by decide
  have hcut : cutByte 47 (([47, 47, 47] ++ canonical P I D ++ trail).drop 2)
      = ([], some (canonical P I D ++ trail)) := by
    simp [cutByte]
  simp only [urlParse, cutByte_none 35 _ h35, urlParse.parse, ctl_false _ hsafe, hnostar,
    hscheme, cutByte_none 63 _ h63, hlow, hcut, Bool.false_eq_true, if_false]
  have hne : bytes "spanner" ≠ [] := by decide
  simp [hne, unescape_plain _ h37]

theorem splitSlash_name (e : List Byte) (h : (47 : Byte) ∉ e) : splitSlash e = [e] := by
  induction e with
  | nil => rfl
  | cons b e ih =>
    have hb : b ≠ 47 := fun x => h (by simp [x])
    have he : (47 : Byte) ∉ e := fun x => h (by simp [x])
    simp [splitSlash, hb, ih he]

theorem splitSlash_append (e rest : List Byte) (h : (47 : Byte) ∉ e) :
    splitSlash (e ++ 47 :: rest) = e :: splitSlash rest := by
  induction e with
  | nil => simp [splitSlash]
  | cons b e ih =>
    have hb : b ≠ 47 := fun x => h (by simp [x])
    have he : (47 : Byte) ∉ e := fun x => h (by simp [x])
    simp [splitSlash, hb, ih he]

theorem splitSlash_joinSlash : ∀ (es : List (List Byte)), es ≠ [] →
    (∀ e ∈ es, (47 : Byte) ∉ e) → splitSlash (joinSlash es) = es := by
  intro es
  induction es with
  | nil => intro h; exact absurd rfl h
  | cons e es ih =>
    intro _ hall
    cases es with
    | nil => simpa [joinSlash] using splitSlash_name e (hall e (by simp))
    | cons e2 es =>
      simp only [joinSlash]
      rw [splitSlash_append e _ (hall e (by simp)),
        ih (by simp) (fun x hx => hall x (by simp [hx]))]

theorem clean_foldl (rooted : Bool) : ∀ (es out : List (List Byte)) (d : Nat),
    (∀ e ∈ es, realElem e) →
    es.foldl (pathClean.step rooted) (out, d) = (out ++ es, d) := by
  intro es
  induction es with
  | nil => intro out d _; simp
  | cons e es ih =>
    intro out d hall
    obtain ⟨h1, h2, h3⟩ := hall e (by simp)
    simp only [List.foldl_cons, pathClean.step, h1, h2, h3, or_self, if_false]
    rw [ih _ _ (fun x hx => hall x (by simp [hx]))]
    simp

theorem DSN_String_canonical (P I D : List Byte) (hP : plainName P) (hI : plainName I)
    (hD : plainName D) :
    DSN.String { ProjectName := P, InstanceName := I, DatabaseName := D } = canonical P I D := by
  have hPe : P.isEmpty = false := by
    cases P with
    | nil => exact absurd rfl hP.1
    | cons _ _ => rfl
  have hIe : I.isEmpty = false := by
    cases I with
    | nil => exact absurd rfl hI.1
    | cons _ _ => rfl
  have hDe : D.isEmpty = false := by
    cases D with
    | nil => exact absurd rfl hD.1
    | cons _ _ => rfl
  have hl1 : (bytes "projects").isEmpty = false := by decide
  have hl2 : (bytes "instances").isEmpty = false := by decide
  have hl3 : (bytes "databases").isEmpty = false := by decide
  have hreal : ∀ e ∈ [bytes "projects", P, bytes "instances", I, bytes "databases", D],
      realElem e := by
    intro e he
    simp only [List.mem_cons, List.mem_singleton, List.not_mem_nil, or_false] at he
    rcases he with h | h | h | h | h | h <;> subst h
    · unfold realElem; decide
    · exact ⟨hP.1, hP.2.1, hP.2.2.1⟩
    · unfold realElem; decide
    · exact ⟨hI.1, hI.2.1, hI.2.2.1⟩
    · unfold realElem; decide
    · exact ⟨hD.1, hD.2.1, hD.2.2.1⟩
  have hslash : ∀ e ∈ [bytes "projects", P, bytes "instances", I, bytes "databases", D],
      (47 : Byte) ∉ e := by
    intro e he
    simp only [List.mem_cons, List.mem_singleton, List.not_mem_nil, or_false] at he
    rcases he with h | h | h | h | h | h <;> subst h
    · decide
    · exact plainName_noslash _ hP
    · decide
    · exact plainName_noslash _ hI
    · decide
    · exact plainName_noslash _ hD
  have hjoin : joinSlash [bytes "projects", P, bytes "instances", I, bytes "databases", D]
      = canonical P I D := by
    simp [joinSlash, canonical,
      show bytes "projects/" = bytes "projects" ++ [47] by decide,
      show bytes "/instances/" = [47] ++ bytes "instances" ++ [47] by decide,
      show bytes "/databases/" = [47] ++ bytes "databases" ++ [47] by decide]
  obtain ⟨tl, htl⟩ := canonical_cons P I D
  have hne : canonical P I D ≠ [] := by rw [htl]; simp
  have hhead : ¬ (canonical P I D).head? = some 47 := by rw [htl]; simp
  simp only [DSN.String, pathJoin, List.all_cons, List.all_nil, hl1, hl2, hl3, hPe, hIe, hDe,
    Bool.false_and, Bool.false_eq_true, if_false, List.filter_cons, Bool.not_false, if_true,
    List.filter_nil, hjoin, pathClean, hne, hhead]
  rw [← hjoin, splitSlash_joinSlash _ (by simp) hslash]
  simp only [decide_False, clean_foldl false _ _ _ hreal]
  simp

theorem parse_ok_dsn (authorityOk : List Byte → Bool) (uri scheme P I D lead trail : List Byte)
    (hP : plainName P) (hI : plainName I) (hD : plainName D)
    (hscheme : scheme = [] ∨ scheme = bytes "spanner")
    (hlead : lead = [] ∨ lead = [47]) (htrail : trail = [] ∨ trail = [47])
    (hparse : urlParse authorityOk uri
      = some { Scheme := scheme, Opaque := [], Path := lead ++ canonical P I D ++ trail,
               RawQuery := [], Fragment := [] }) :
    ParseConnectionURI authorityOk uri
      = .ok { ProjectName := P, InstanceName := I, DatabaseName := D } := by
  have h37 : ∀ N, plainName N → unescape N = some N := by
    intro N hN
    exact unescape_plain N (fun hm => (hN.2.2.2 37 hm).2.1 rfl)
  simp only [ParseConnectionURI, hparse, hscheme, if_true,
    dnsPathRegexp_canonical P I D lead trail hP.1 hI.1 hD.1 (plainName_noslash P hP)
      (plainName_noslash I hI) (plainName_noslash D hD) hlead htrail,
    h37 P hP, h37 I hI, h37 D hD, Option.getD_some]

/-- C19 (counterexample): the names `%24`, `I`, `D` are not empty and hold no slash,
and `spanner:///projects/%24/instances/I/databases/D` parses to the project name `$`,
not `%24`; the names `..`, `I`, `D` parse to themselves, and `String()` of the result
is `instances/I/databases/D`, not the canonical form. -/
theorem percent_name_unescaped :
    (47 : Byte) ∉ bytes "%24" ∧ bytes "%24" ≠ []
      ∧ ParseConnectionURI (fun _ => true)
            (bytes "spanner:///" ++ canonical (bytes "%24") (bytes "I") (bytes "D"))
          = .ok { ProjectName := bytes "$", InstanceName := bytes "I", DatabaseName := bytes "D" }
      ∧ bytes "$" ≠ bytes "%24"
      ∧ ParseConnectionURI (fun _ => true)
            (bytes "spanner:///" ++ canonical (bytes "..") (bytes "I") (bytes "D"))
          = .ok { ProjectName := bytes "..", InstanceName := bytes "I", DatabaseName := bytes "D" }
      ∧ DSN.String { ProjectName := bytes "..", InstanceName := bytes "I",
                     DatabaseName := bytes "D" } = bytes "instances/I/databases/D"
      ∧ bytes "instances/I/databases/D" ≠ canonical (bytes "..") (bytes "I") (bytes "D") :=
  ⟨by decide, by decide, rfl, by decide, rfl, by decide, by decide⟩

/-- C19 (amended): for names `P`, `I`, `D` that are not empty, hold none of `/`, `%`,
`?`, `#` and no control byte, and are neither `.` nor `..`, `ParseConnectionURI`
succeeds with `DSN{P, I, D}` on `spanner:///projects/P/instances/I/databases/D`, on
the path `projects/P/instances/I/databases/D` alone and on that path after one slash,
each with or without one slash at the end; and `String()` of the result is the
canonical form `projects/P/instances/I/databases/D`. -/
theorem ParseConnectionURI_roundtrip (authorityOk : List Byte → Bool) (P I D uri : List Byte)
    (hP : plainName P) (hI : plainName I) (hD : plainName D) (huri : uri ∈ uriForms P I D) :
    ParseConnectionURI authorityOk uri
        = .ok { ProjectName := P, InstanceName := I, DatabaseName := D }
      ∧ DSN.String { ProjectName := P, InstanceName := I, DatabaseName := D }
          = canonical P I D := by
  refine ⟨?_, DSN_String_canonical P I D hP hI hD⟩
  simp only [uriForms, List.mem_cons, List.mem_singleton, List.not_mem_nil, or_false] at huri
  rcases huri with h | h | h | h | h | h <;> subst h
  · have := parse_spanner authorityOk P I D [] hP hI hD (Or.inl rfl)
    rw [List.append_nil] at this
    exact parse_ok_dsn authorityOk _ _ P I D [47] [] hP hI hD (Or.inr rfl) (Or.inr rfl)
      (Or.inl rfl) (by simpa using this)
  · have := parse_spanner authorityOk P I D [47] hP hI hD (Or.inr rfl)
    exact parse_ok_dsn authorityOk _ _ P I D [47] [47] hP hI hD (Or.inr rfl) (Or.inr rfl)
      (Or.inr rfl) this
  · have := parse_path authorityOk P I D [] [] hP hI hD (Or.inl rfl) (Or.inl rfl)
    simp only [List.nil_append, List.append_nil] at this
    exact parse_ok_dsn authorityOk _ _ P I D [] [] hP hI hD (Or.inl rfl) (Or.inl rfl)
      (Or.inl rfl) (by simpa using this)
  · have := parse_path authorityOk P I D [] [47] hP hI hD (Or.inl rfl) (Or.inr rfl)
    simp only [List.nil_append] at this
    exact parse_ok_dsn authorityOk _ _ P I D [] [47] hP hI hD (Or.inl rfl) (Or.inl rfl)
      (Or.inr rfl) (by simpa using this)
  · have := parse_path authorityOk P I D [47] [] hP hI hD (Or.inr rfl) (Or.inl rfl)
    simp only [List.append_nil] at this
    exact parse_ok_dsn authorityOk _ _ P I D [47] [] hP hI hD (Or.inl rfl) (Or.inr rfl)
      (Or.inl rfl) (by simpa using this)
  · have := parse_path authorityOk P I D [47] [47] hP hI hD (Or.inr rfl) (Or.inr rfl)
    exact parse_ok_dsn authorityOk _ _ P I D [47] [47] hP hI hD (Or.inl rfl) (Or.inr rfl)
      (Or.inr rfl) this

/-- C19 (witness): the first case of `TestParseConnectionURI` and the case of
`TestDSNString`. -/
theorem ParseConnectionURI_roundtrip_witness :
    ParseConnectionURI (fun _ => true)
          (bytes "spanner:///" ++ canonical (bytes "P") (bytes "I") (bytes "D"))
        = .ok { ProjectName := bytes "P", InstanceName := bytes "I", DatabaseName := bytes "D" }
      ∧ DSN.String { ProjectName := bytes "P", InstanceName := bytes "I",
                     DatabaseName := bytes "D" }
          = canonical (bytes "P") (bytes "I") (bytes "D") :=
  ParseConnectionURI_roundtrip (fun _ => true) (bytes "P") (bytes "I") (bytes "D") _
    (by unfold plainName; decide) (by unfold plainName; decide) (by unfold plainName; decide)
    (by simp [uriForms])

theorem cutByte_append (sep : Byte) (xs ys : List Byte) (h : sep ∉ xs) :
    cutByte sep (xs ++ ys) = (xs ++ (cutByte sep ys).1, (cutByte sep ys).2) := by
  induction xs with
  | nil => simp
  | cons b xs ih =>
    have hb : b ≠ sep := fun e => h (by simp [e])
    have hs : sep ∉ xs := fun e => h (by simp [e])
    simp [cutByte, hb, ih hs]

theorem getScheme_loop_name (raw R : List Byte) :
    ∀ (S seen : List Byte), S.all isSchemeByte = true →
      (seen = [] → ∀ c ∈ S.head?, isLetter c = true) → seen ++ S ≠ [] →
      getScheme.loop raw seen (S ++ 58 :: R) = some (seen ++ S, R) := by
  intro S
  induction S with
  | nil =>
    intro seen _ _ hne
    have hs : seen ≠ [] := by simpa using hne
    simp [getScheme.loop, hs]
  | cons c S ih =>
    intro seen hall hfirst _
    simp only [List.all_cons, Bool.and_eq_true] at hall
    have hnext : getScheme.loop raw (seen ++ [c]) (S ++ 58 :: R) = some (seen ++ c :: S, R) := by
      have := ih (seen ++ [c]) hall.2 (by simp) (by simp)
      simpa using this
    simp only [List.cons_append, getScheme.loop, List.append_eq]
    by_cases hl : isLetter c = true
    · have hl' := hl
      simp only [isLetter] at hl'
      simp only [hl', if_true, hnext]
    · have hl' : ((decide (97 ≤ c) && decide (c ≤ 122)) || (decide (65 ≤ c) && decide (c ≤ 90)))
          = false := by simpa [isLetter] using hl
      have hd : ((decide (48 ≤ c) && decide (c ≤ 57)) || c == 43 || c == 45 || c == 46) = true := by
        have := hall.1
        unfold isSchemeByte at this
        rcases Bool.or_eq_true_iff.1 this with h | h
        · exact absurd h hl
        · exact h
      have hseen : seen ≠ [] := by
        intro hs
        exact hl (hfirst hs c (by simp))
      simp only [hl', hd, Bool.false_eq_true, if_false, if_true, hseen, hnext]

theorem getScheme_name (S R : List Byte) (hS : schemeName S = true) :
    getScheme (S ++ 58 :: R) = some (S, R) := by
  cases S with
  | nil => simp [schemeName] at hS
  | cons c S =>
    simp only [schemeName, Bool.and_eq_true] at hS
    have hall : (c :: S).all isSchemeByte = true := by
      simp [List.all_cons, hS.2, isSchemeByte, hS.1]
    have := getScheme_loop_name (c :: S ++ 58 :: R) R (c :: S) [] hall
      (by intro _ x hx; simp at hx; rw [← hx]; exact hS.1) (by simp)
    simpa [getScheme] using this

theorem schemeName_no_hash (S : List Byte) (hS : schemeName S = true) : (35 : Byte) ∉ S := by
  cases S with
  | nil => simp
  | cons c S =>
    simp only [schemeName, Bool.and_eq_true, List.all_eq_true] at hS
    intro h
    rcases List.mem_cons.1 h with h | h
    · rw [← h] at hS
      exact absurd hS.1 (by decide)
    · exact absurd (hS.2 _ h) (by decide)

theorem toLower_ne_nil (S : List Byte) (h : S ≠ []) : toLower S ≠ [] := by
  cases S with
  | nil => exact absurd rfl h
  | cons c S => simp [toLower]

theorem parse_scheme (authorityOk : List Byte → Bool) (S R : List Byte)
    (hS : schemeName S = true) :
    urlParse.parse authorityOk (S ++ 58 :: R) = none
      ∨ ∃ u, urlParse.parse authorityOk (S ++ 58 :: R) = some u ∧ u.Scheme = toLower S := by
  have hne : S ≠ [] := by
    intro h; subst h; simp [schemeName] at hS
  have hnostar : S ++ 58 :: R ≠ [42] := by
    cases S with
    | nil => exact absurd rfl hne
    | cons c S => cases S <;> simp
  unfold urlParse.parse
  rw [getScheme_name S R hS]
  simp only [hnostar, if_false]
  repeat' split
  all_goals first
    | (left; rfl)
    | (right; exact ⟨_, rfl, rfl⟩)

theorem urlParse_parse (authorityOk : List Byte → Bool) (uri : List Byte) (u : URL)
    (h : urlParse authorityOk uri = some u) :
    ∃ u0, urlParse.parse authorityOk (cutByte 35 uri).1 = some u0 ∧ u.Scheme = u0.Scheme
      ∧ u.Path = u0.Path := by
  unfold urlParse at h
  rcases hc : cutByte 35 uri with ⟨v, frag⟩
  rw [hc] at h
  simp only at h ⊢
  rcases hp : urlParse.parse authorityOk v with _ | u0
  · rw [hp] at h; simp at h
  · rw [hp] at h
    simp only at h
    refine ⟨u0, rfl, ?_⟩
    split at h
    · simp only [Option.some.injEq] at h
      rw [← h]; exact ⟨rfl, rfl⟩
    · split at h
      · simp only [Option.some.injEq] at h
        rw [← h]; exact ⟨rfl, rfl⟩
      · split at h
        · simp at h
        · simp only [Option.some.injEq] at h
          rw [← h]; exact ⟨rfl, rfl⟩

/-- A connection string that starts with a scheme other than `spanner`, in whatever
case of its letters, is refused. -/
theorem rejects_scheme (authorityOk : List Byte → Bool) (S R : List Byte)
    (hS : schemeName S = true) (hne : toLower S ≠ bytes "spanner") :
    ParseConnectionURI authorityOk (S ++ [58] ++ R) = .error errInvalidURI
      ∨ ParseConnectionURI authorityOk (S ++ [58] ++ R) = .error errInvalidScheme := by
  have hq : S ++ [58] ++ R = S ++ 58 :: R := by simp
  rw [hq]
  unfold ParseConnectionURI
  rcases hu : urlParse authorityOk (S ++ 58 :: R) with _ | u
  · left; rfl
  · right
    obtain ⟨u0, h0, hs, _⟩ := urlParse_parse authorityOk _ u hu
    have hcut : (cutByte 35 (S ++ 58 :: R)).1 = S ++ 58 :: (cutByte 35 (58 :: R)).1.tail := by
      rw [cutByte_append 35 S _ (schemeName_no_hash S hS)]
      simp [cutByte]
    rw [hcut] at h0
    rcases parse_scheme authorityOk S (cutByte 35 (58 :: R)).1.tail hS with h | ⟨u1, h1, h2⟩
    · rw [h] at h0; simp at h0
    · rw [h1] at h0
      simp only [Option.some.injEq] at h0
      have hsch : u.Scheme = toLower S := by rw [hs, ← h0, h2]
      have hS0 : S ≠ [] := by
        intro h; subst h; simp [schemeName] at hS
      simp only [hsch, toLower_ne_nil S hS0, hne, or_self, if_false]

theorem getScheme_loop_none (raw : List Byte) :
    ∀ (rest seen : List Byte), (58 : Byte) ∉ (cutByte 47 rest).1 →
      getScheme.loop raw seen rest = some ([], raw) := by
  intro rest
  induction rest with
  | nil => intro seen _; rfl
  | cons c rest ih =>
    intro seen h
    by_cases h47 : c = 47
    · subst h47
      simp [getScheme.loop]
    · have hcut : (cutByte 47 (c :: rest)).1 = c :: (cutByte 47 rest).1 := by
        simp [cutByte, h47]
      rw [hcut] at h
      have hc : c ≠ 58 := fun e => h (by simp [e])
      have hrest : (58 : Byte) ∉ (cutByte 47 rest).1 := fun e => h (by simp [e])
      simp only [getScheme.loop]
      split
      · exact ih _ hrest
      · split
        · split
          · rfl
          · exact ih _ hrest
        · simp [hc]

theorem pathByte_ctl (s : List Byte) (h : ∀ b ∈ s, pathByte b) :
    stringContainsCTLByte s = false := by
  simp only [stringContainsCTLByte, List.any_eq_false]
  intro b hb
  obtain ⟨_, _, h3, h4⟩ := h b hb
  simp [h3, h4]

/-- What `url.Parse` makes of `spanner://` before a path that starts with a slash and
holds no `?`, no `#` and no control byte: the scheme `spanner` and the path decoded. -/
theorem parse_spanner_path (authorityOk : List Byte → Bool) (path : List Byte)
    (hhead : path.head? = some 47) (hsafe : ∀ b ∈ path, pathByte b) :
    urlParse authorityOk (bytes "spanner://" ++ path)
      = (unescape path).map (fun p =>
          { Scheme := bytes "spanner", Opaque := [], Path := p, RawQuery := [], Fragment := [] }) := by
  obtain ⟨t, rfl⟩ : ∃ t, path = 47 :: t := by
    cases path with
    | nil => simp at hhead
    | cons c t => simp at hhead; exact ⟨t, by rw [hhead]⟩
  have hb : bytes "spanner://" = [115, 112, 97, 110, 110, 101, 114] ++ 58 :: [47, 47] := by decide
  have hlit : ∀ b ∈ bytes "spanner://", pathByte b := by unfold pathByte; decide
  have hall : ∀ b ∈ bytes "spanner://" ++ 47 :: t, pathByte b := by
    intro b hb'
    rcases List.mem_append.1 hb' with h | h
    · exact hlit b h
    · exact hsafe b h
  have hrest : ∀ b ∈ (47 :: 47 :: 47 :: t : List Byte), pathByte b := by
    intro b hb'
    have : b = 47 ∨ b ∈ t := by
      simp only [List.mem_cons] at hb'
      rcases hb' with h | h | h | h
      · exact Or.inl h
      · exact Or.inl h
      · exact Or.inl h
      · exact Or.inr h
    rcases this with h | h
    · exact hsafe b (by simp [h])
    · exact hsafe b (by simp [h])
  have h35 : (35 : Byte) ∉ bytes "spanner://" ++ 47 :: t := fun h => (hall _ h).2.1 rfl
  have h63 : (63 : Byte) ∉ (47 :: 47 :: 47 :: t : List Byte) := fun h => (hrest _ h).1 rfl
  have hnostar : bytes "spanner://" ++ 47 :: t ≠ [42] := by
    rw [hb]; simp
  have hscheme : getScheme (bytes "spanner://" ++ 47 :: t)
      = some ([115, 112, 97, 110, 110, 101, 114], 47 :: 47 :: 47 :: t) := by
    have := getScheme_name [115, 112, 97, 110, 110, 101, 114] (47 :: 47 :: 47 :: t) (by decide)
    rw [hb]
    simpa using this
  have hlow : toLower [115, 112, 97, 110, 110, 101, 114] = bytes "spanner" := by decide
  have hne : bytes "spanner" ≠ [] := by decide
  simp only [urlParse, cutByte_none 35 _ h35, urlParse.parse, pathByte_ctl _ hall, hnostar,
    hscheme, cutByte_none 63 _ h63, hlow, Bool.false_eq_true, if_false]
  simp only [List.head?_cons, ne_eq, not_true_eq_false, false_and, if_false, hne,
    not_false_eq_true, true_or, List.take_succ_cons, List.take_zero, and_self, if_true,
    List.drop_succ_cons, List.drop_zero, cutByte, true_and, Option.getD_none]
  cases unescape (47 :: t) <;> simp

/-- What `url.Parse` makes of a string without scheme and authority that holds no `?`,
no `#` and no control byte: the path is the string decoded. -/
theorem parse_bare_path (authorityOk : List Byte → Bool) (uri : List Byte)
    (hsafe : ∀ b ∈ uri, pathByte b) (hcolon : (58 : Byte) ∉ (cutByte 47 uri).1)
    (htake : uri.take 2 ≠ [47, 47]) :
    urlParse authorityOk uri
      = (unescape uri).map (fun p =>
          { Scheme := [], Opaque := [], Path := p, RawQuery := [], Fragment := [] }) := by
  have h35 : (35 : Byte) ∉ uri := fun h => (hsafe _ h).2.1 rfl
  have h63 : (63 : Byte) ∉ uri := fun h => (hsafe _ h).1 rfl
  have hscheme : getScheme uri = some ([], uri) := getScheme_loop_none uri uri [] hcolon
  have hcontains : ((cutByte 47 uri).1.contains 58) = false := by
    simpa using hcolon
  by_cases hstar : uri = [42]
  · subst hstar
    rfl
  · simp only [urlParse, cutByte_none 35 _ h35, urlParse.parse, pathByte_ctl _ hsafe, hstar,
      hscheme, cutByte_none 63 _ h63, toLower, List.map_nil, Bool.false_eq_true, if_false,
      ne_eq, not_true_eq_false, and_false, hcontains, htake, Option.getD_none,
      List.nil_eq, reduceCtorEq, false_and, not_false_eq_true]
    cases unescape uri <;> simp

theorem rejects_decoded (authorityOk : List Byte → Bool) (uri path scheme : List Byte)
    (hscheme : scheme = [] ∨ scheme = bytes "spanner")
    (hparse : urlParse authorityOk uri
      = (unescape path).map (fun p =>
          { Scheme := scheme, Opaque := [], Path := p, RawQuery := [], Fragment := [] }))
    (hshape : ∀ p, unescape path = some p → ¬ pathShape p) :
    (unescape path = none ∧ ParseConnectionURI authorityOk uri = .error errInvalidURI)
      ∨ (unescape path ≠ none ∧ ParseConnectionURI authorityOk uri = .error errInvalidPath) := by
  unfold ParseConnectionURI
  rw [hparse]
  rcases hu : unescape path with _ | p
  · left; exact ⟨rfl, rfl⟩
  · right
    refine ⟨by simp, ?_⟩
    simp only [Option.map_some', hscheme, if_true]
    rcases hr : dnsPathRegexp p with _ | m
    · rfl
    · obtain ⟨a, b, c⟩ := m
      exact absurd (dnsPathRegexp_shape _ a b c hr) (hshape p hu)

theorem pathShape_match (p : List Byte) (h : pathShape p) : dnsPathRegexp p ≠ none := by
  obtain ⟨P, I, D, lead, trail, hP, hI, hD, sP, sI, sD, hlead, htrail, rfl⟩ := h
  rw [dnsPathRegexp_canonical P I D lead trail hP hI hD sP sI sD hlead htrail]
  simp

/-- C20 (counterexample): a connection string whose path, as it is written, is the one
segment `projects%2FP%2Finstances%2FI%2Fdatabases%2FD`, not of the shape
`projects/<P>/instances/<I>/databases/<D>`, is accepted, with the names `P`, `I`, `D`:
the path is judged after its percent-encoding is decoded.  A connection string whose
scheme is written `SPANNER`, which is not `spanner`, is accepted too. -/
theorem encoded_path_accepted :
    ParseConnectionURI (fun _ => true)
        (bytes "spanner:///projects%2FP%2Finstances%2FI%2Fdatabases%2FD")
        = .ok { ProjectName := bytes "P", InstanceName := bytes "I", DatabaseName := bytes "D" }
      ∧ ¬ pathShape (bytes "/projects%2FP%2Finstances%2FI%2Fdatabases%2FD")
      ∧ ParseConnectionURI (fun _ => true) (bytes "SPANNER:///projects/P/instances/I/databases/D")
        = .ok { ProjectName := bytes "P", InstanceName := bytes "I", DatabaseName := bytes "D" }
      ∧ bytes "SPANNER" ≠ [] ∧ bytes "SPANNER" ≠ bytes "spanner" := by
  refine ⟨rfl, ?_, rfl, by decide, by decide⟩
  intro h
  exact pathShape_match _ h (by decide)

/-- C20 (amended): `ParseConnectionURI` returns an error, and no `DSN`, for every
connection string that starts with a scheme and a colon when the scheme, its letters
taken in lower case, is not `spanner`; for every `spanner://` followed by a path that
starts with a slash, and for every string without a colon before its first slash that
does not start with two slashes (a path alone), when the path holds no `?`, no `#` and
no control byte and, with its percent-encoding decoded, is not of the shape
`projects/<P>/instances/<I>/databases/<D>` with three names that are not empty and
hold no slash, after at most one slash and before at most one slash.  For a path
without `%` the path as written is judged and the error is the one of an invalid
path.  The empty string, the scheme `http`, six segments with other keywords, four
segments, and a seventh segment at the end all fail. -/
theorem ParseConnectionURI_rejects (authorityOk : List Byte → Bool) :
    (∀ S R : List Byte, schemeName S = true → toLower S ≠ bytes "spanner" →
        ParseConnectionURI authorityOk (S ++ [58] ++ R) = .error errInvalidURI
          ∨ ParseConnectionURI authorityOk (S ++ [58] ++ R) = .error errInvalidScheme)
      ∧ (∀ path : List Byte, path.head? = some 47 → (∀ b ∈ path, pathByte b) →
          (∀ p, unescape path = some p → ¬ pathShape p) →
          ParseConnectionURI authorityOk (bytes "spanner://" ++ path) = .error errInvalidURI
            ∨ ParseConnectionURI authorityOk (bytes "spanner://" ++ path)
                = .error errInvalidPath)
      ∧ (∀ path : List Byte, path.head? = some 47 → (∀ b ∈ path, pathByte b) →
          (37 : Byte) ∉ path → ¬ pathShape path →
          ParseConnectionURI authorityOk (bytes "spanner://" ++ path) = .error errInvalidPath)
      ∧ (∀ uri : List Byte, (∀ b ∈ uri, pathByte b) → (58 : Byte) ∉ (cutByte 47 uri).1 →
          uri.take 2 ≠ [47, 47] → (∀ p, unescape uri = some p → ¬ pathShape p) →
          ParseConnectionURI authorityOk uri = .error errInvalidURI
            ∨ ParseConnectionURI authorityOk uri = .error errInvalidPath)
      ∧ (∀ uri : List Byte, (∀ b ∈ uri, pathByte b) → (58 : Byte) ∉ (cutByte 47 uri).1 →
          uri.take 2 ≠ [47, 47] → (37 : Byte) ∉ uri → ¬ pathShape uri →
          ParseConnectionURI authorityOk uri = .error errInvalidPath)
      ∧ ParseConnectionURI authorityOk [] = .error errInvalidPath
      ∧ ParseConnectionURI authorityOk (bytes "http:///projects/P/instances/I%24/databases/D")
          = .error errInvalidScheme
      ∧ ParseConnectionURI authorityOk (bytes "spanner:///foo/bar/foo/bar/foo/bar")
          = .error errInvalidPath
      ∧ ParseConnectionURI authorityOk (bytes "spanner:///projects/P/instances/I")
          = .error errInvalidPath
      ∧ ParseConnectionURI authorityOk
            (bytes "spanner:///projects/P/instances/I%24/databases/D/foo")
          = .error errInvalidPath := by
  refine ⟨?_, ?_, ?_, ?_, ?_, rfl, rfl, rfl, rfl, rfl⟩
  · intro S R hS hne
    exact rejects_scheme authorityOk S R hS hne
  · intro path hhead hsafe hshape
    rcases rejects_decoded authorityOk _ path (bytes "spanner") (Or.inr rfl)
      (parse_spanner_path authorityOk path hhead hsafe) hshape with h | h
    · exact Or.inl h.2
    · exact Or.inr h.2
  · intro path hhead hsafe h37 hshape
    have hu := unescape_plain path h37
    rcases rejects_decoded authorityOk _ path (bytes "spanner") (Or.inr rfl)
      (parse_spanner_path authorityOk path hhead hsafe)
      (by intro p hp; rw [hu] at hp; simp only [Option.some.injEq] at hp; rw [← hp]; exact hshape)
      with h | h
    · rw [hu] at h; simp at h
    · exact h.2
  · intro uri hsafe hcolon htake hshape
    rcases rejects_decoded authorityOk _ uri [] (Or.inl rfl)
      (parse_bare_path authorityOk uri hsafe hcolon htake) hshape with h | h
    · exact Or.inl h.2
    · exact Or.inr h.2
  · intro uri hsafe hcolon htake h37 hshape
    have hu := unescape_plain uri h37
    rcases rejects_decoded authorityOk _ uri [] (Or.inl rfl)
      (parse_bare_path authorityOk uri hsafe hcolon htake)
      (by intro p hp; rw [hu] at hp; simp only [Option.some.injEq] at hp; rw [← hp]; exact hshape)
      with h | h
    · rw [hu] at h; simp at h
    · exact h.2

/-! ## Totality of the statement compiler -/

theorem writeParam_zero (sb : statmentBuilder) : sb.WriteParam 0 = none := by
  simp [statmentBuilder.WriteParam]

theorem writeParam_none (sb : statmentBuilder) (p : Nat) (h : sb.WriteParam p = none) : p = 0 := by
  by_contra hp
  rw [writeParam_pos sb p (Nat.one_le_iff_ne_zero.2 hp)] at h
  simp at h

theorem noDollarZero_tail (b : Byte) (r : List Byte) (h : noDollarZero (b :: r) = true) :
    noDollarZero r = true := by
  simp only [noDollarZero, Bool.and_eq_true] at h
  exact h.2

theorem noDollarZero_suffix (xs ys : List Byte) (h : noDollarZero (xs ++ ys) = true) :
    noDollarZero ys = true := by
  induction xs with
  | nil => simpa using h
  | cons x xs ih => exact ih (noDollarZero_tail _ _ h)

/-- What the digit loop of `parseArg` returns: the digits at the front of the input, and
the byte after them with the rest, or the zero byte at the end of the input. -/
theorem scan_split (r : List Byte) : ∀ (acc : List Byte) (b : Byte) (r' arg : List Byte),
    parseArg.scan r acc = (b, r', arg) →
    ∃ ds, arg = acc ++ ds ∧ ds.all isDigit = true
      ∧ (r = ds ++ b :: r' ∨ (r = ds ∧ b = 0 ∧ r' = [])) := by
  induction r with
  | nil =>
    intro acc b r' arg h
    simp only [parseArg.scan, Prod.mk.injEq] at h
    exact ⟨[], by simp [h.2.2], by simp, Or.inr ⟨rfl, h.1.symm, h.2.1.symm⟩⟩
  | cons c r ih =>
    intro acc b r' arg h
    simp only [parseArg.scan] at h
    split at h
    · rename_i hc
      obtain ⟨ds, h1, h2, h3⟩ := ih _ _ _ _ h
      refine ⟨c :: ds, by simp [h1], by simp [hc, h2], ?_⟩
      rcases h3 with h3 | ⟨h3, h4, h5⟩
      · left; simp [h3]
      · right; exact ⟨by simp [h3], h4, h5⟩
    · simp only [Prod.mk.injEq] at h
      exact ⟨[], by simp [h.2.2], by simp, Or.inl (by simp [h.1, h.2.1])⟩

theorem foldl_digits_ge (ds : List Byte) : ∀ acc : Nat,
    acc ≤ ds.foldl (fun acc b => 10 * acc + (b.toNat - 48)) acc := by
  induction ds with
  | nil => intro acc; simp
  | cons d ds ih =>
    intro acc
    simp only [List.foldl_cons]
    exact le_trans (by omega) (ih _)

theorem digitsValue_pos (d : Byte) (ds : List Byte) (hd : isDigit d = true) (h0 : d ≠ 48) :
    1 ≤ digitsValue (d :: ds) := by
  have h1 : 1 ≤ d.toNat - 48 := by
    simp only [isDigit, Bool.and_eq_true, decide_eq_true_eq] at hd
    have h48 : (48 : Byte).toNat ≤ d.toNat := hd.1
    have hne : d.toNat ≠ (48 : Byte).toNat := fun h => h0 (UInt8.ext h)
    have : (48 : Byte).toNat = 48 := by decide
    omega
  simp only [digitsValue, List.foldl_cons]
  exact le_trans (by omega) (foldl_digits_ge ds _)

theorem parseArg_noDollarZero (r : List Byte) (sb : statmentBuilder)
    (h : noDollarZero (36 :: r) = true) :
    ∃ b err r' sb', parseArg r sb = some (b, err, r', sb') ∧ noDollarZero (b :: r') = true := by
  rcases hscan : parseArg.scan r [] with ⟨b, r', arg⟩
  obtain ⟨ds, harg, hds, hr⟩ := scan_split r [] b r' arg hscan
  simp only [List.nil_append] at harg
  subst harg
  have hsuf : noDollarZero (b :: r') = true := by
    rcases hr with hr | ⟨_, hb, hr'⟩
    · have := noDollarZero_suffix (36 :: arg) (b :: r') (by simpa [hr] using h)
      exact this
    · subst hb; subst hr'; decide
  unfold parseArg
  rw [hscan]
  simp only
  rcases hp : ParseInt arg with e | pn
  · exact ⟨b, true, r', sb, rfl, hsuf⟩
  · have hpos : 1 ≤ pn := by
      cases arg with
      | nil => simp [ParseInt] at hp
      | cons d ds =>
        simp only [List.all_cons, Bool.and_eq_true] at hds
        have hd0 : d ≠ 48 := by
          intro hd
          have hr0 : r.head? = some 48 := by
            rcases hr with hr | ⟨hr, _, _⟩ <;> simp [hr, hd]
          simp [noDollarZero, hr0] at h
        have := digitsValue_pos d ds hds.1 hd0
        unfold ParseInt at hp
        split at hp
        · simp at hp
        · split at hp
          · split at hp
            · simp only [Except.ok.injEq] at hp
              omega
            · simp at hp
          · simp at hp
    simp only [writeParam_pos sb pn hpos]
    exact ⟨b, false, r', _, rfl, hsuf⟩

theorem readByte_noDollarZero (b : Byte) (r : List Byte) (h : noDollarZero (b :: r) = true) :
    noDollarZero ((ReadByte r).1 :: (ReadByte r).2.2) = true := by
  cases r with
  | nil => decide
  | cons c r => exact noDollarZero_tail _ _ h

theorem loop_noDollarZero : ∀ (k : Nat) (escaped : Bool) (b : Byte) (err : Bool) (r : List Byte)
    (sb : statmentBuilder), noDollarZero (b :: r) = true →
    parseStatement.loop k escaped b err r sb ≠ .panicked := by
  intro k
  induction k with
  | zero => intro escaped b err r sb _; simp [parseStatement.loop]
  | succ k ih =>
    intro escaped b err r sb h
    have hnext := readByte_noDollarZero b r h
    rw [parseStatement.loop]
    split
    · exact ih _ _ _ _ _ hnext
    · split
      · rename_i hb
        subst hb
        obtain ⟨b', err', r', sb', hp, hsuf⟩ := parseArg_noDollarZero r sb h
        rw [hp]
        exact ih _ _ _ _ _ hsuf
      · simp only
        split
        · rename_i hafter
          split at hafter
          · simp at hafter
          · split at hafter
            · simp at hafter
            · split at hafter
              · simp only [statmentBuilder.AutoParam, Prod.mk.injEq] at hafter
                have := writeParam_none _ _ hafter.2
                omega
              · simp at hafter
        · split
          · simp
          · exact ih _ _ _ _ _ hnext

theorem parseStatement_noDollarZero (q : List Byte) (h : noDollarZero q = true) :
    ∃ st, parseStatement q = .done st := by
  have hfuel := parseStatement_fuel q
  have hp : parseStatement.start (q.length + 2) q { pi := 0, sb := [], args := [] }
      ≠ .panicked := by
    unfold parseStatement.start
    cases q with
    | nil => simp [ReadByte, parseStatement.loop]
    | cons b r => exact loop_noDollarZero _ _ _ _ _ _ h
  unfold parseStatement at hfuel ⊢
  rcases hs : parseStatement.start (q.length + 2) q { pi := 0, sb := [], args := [] } with
    sb | _ | _
  · exact ⟨sb.Statement, rfl⟩
  · exact absurd hs hp
  · rw [hs] at hfuel
    exact absurd rfl hfuel

theorem digitsValue_zeros (n : Nat) : digitsValue (List.replicate n 48) = 0 := by
  induction n with
  | zero => rfl
  | succ n ih =>
    rw [List.replicate_succ', digitsValue_append, ih]
    decide

theorem ParseInt_zeros (n : Nat) : ParseInt (List.replicate (n + 1) 48) = .ok 0 := by
  have hall : (List.replicate (n + 1) (48 : Byte)).all isDigit = true := by
    rw [List.all_eq_true]
    intro x hx
    rw [List.eq_of_mem_replicate hx]
    decide
  have hne : List.replicate (n + 1) (48 : Byte) ≠ [] := by simp [List.replicate_succ]
  have hlt : (0 : Nat) < 2 ^ 63 := by decide
  simp only [ParseInt, hne, hall, if_true, if_false, digitsValue_zeros, hlt]

/-- A placeholder with index zero, however many zeros it is written with, makes the
loop panic: `WriteParam(0)` stores at index `-1`. -/
theorem start_dollar_zeros (k n : Nat) (rest : List Byte) (sb : statmentBuilder)
    (hrest : ∀ x ∈ rest.head?, isDigit x = false) :
    parseStatement.start (k + 1) (36 :: (List.replicate (n + 1) 48 ++ rest)) sb = .panicked := by
  have hall : (List.replicate (n + 1) (48 : Byte)).all isDigit = true := by
    rw [List.all_eq_true]
    intro x hx
    rw [List.eq_of_mem_replicate hx]
    decide
  have hscan : ∃ b r', parseArg.scan (List.replicate (n + 1) 48 ++ rest) []
      = (b, r', List.replicate (n + 1) 48) := by
    cases rest with
    | nil =>
      have := scan_digits_end _ hall []
      simp only [List.nil_append] at this
      exact ⟨0, [], by simpa using this⟩
    | cons c r =>
      have := scan_digits _ hall c (hrest c (by simp)) r []
      simp only [List.nil_append] at this
      exact ⟨c, r, this⟩
  obtain ⟨b, r', hscan⟩ := hscan
  simp only [parseStatement.start, ReadByte, parseStatement.loop, parseArg, hscan,
    ParseInt_zeros, writeParam_zero]
  simp

theorem start_dollar_range (k : Nat) (ds : List Byte) (sb : statmentBuilder)
    (hds : ds.all isDigit = true) (hv : 2 ^ 63 ≤ digitsValue ds) :
    parseStatement.start (k + 2) (36 :: ds) sb = .done sb := by
  have hscan := scan_digits_end ds hds []
  simp only [List.nil_append] at hscan
  have hne : ds ≠ [] := by
    intro h; subst h; simp [digitsValue] at hv
  have hp : ParseInt ds = .error .ErrRange := by
    simp only [ParseInt, hne, hds, if_true, if_false, Nat.not_lt.2 hv]
  simp [parseStatement.start, ReadByte, parseStatement.loop, parseArg, hscan, hp]

theorem start_backslash_end (k : Nat) (sb : statmentBuilder) :
    parseStatement.start (k + 3) [92] sb = .done (sb.WriteByte 0) := by
  simp [parseStatement.start, ReadByte, parseStatement.loop]

/-! ## The statement compiler with the allocation of the parameter names -/

theorem writeParamWithin_eq (maxLen : Nat) (s : statmentBuilder) (p : Nat) :
    s.WriteParamWithin maxLen p
      = if p > s.args.length ∧ maxLen < p then none else s.WriteParam p := by
  unfold statmentBuilder.WriteParamWithin statmentBuilder.WriteParam makeStrings
  by_cases hp : p > s.args.length
  · by_cases hm : maxLen < p
    · simp [hp, hm]
    · simp [hp, hm, List.drop_replicate]
  · simp [hp]

theorem writeParam_length (s s' : statmentBuilder) (p : Nat) (h : s.WriteParam p = some s') :
    s'.args.length = max s.args.length p := by
  unfold statmentBuilder.WriteParam at h
  simp only at h
  split at h
  · simp at h
  · simp only [Option.some.injEq] at h
    subst h
    simp only [List.length_set]
    split
    · simp only [List.length_append, List.length_replicate]; omega
    · omega

theorem parseArg_mono (r r' : List Byte) (sb sb' : statmentBuilder) (b : Byte) (err : Bool)
    (hp : parseArg r sb = some (b, err, r', sb')) : sb.args.length ≤ sb'.args.length := by
  unfold parseArg at hp
  split at hp
  split at hp
  · simp only [Option.some.injEq, Prod.mk.injEq] at hp
    rw [← hp.2.2.2]
  · split at hp
    · simp at hp
    · rename_i stmt' hw
      simp only [Option.some.injEq, Prod.mk.injEq] at hp
      rw [← hp.2.2.2, writeParam_length _ _ _ hw]
      omega

theorem loop_mono : ∀ (k : Nat) (escaped : Bool) (b : Byte) (err : Bool) (r : List Byte)
    (sb sb' : statmentBuilder),
    parseStatement.loop k escaped b err r sb = .done sb' →
    sb.args.length ≤ sb'.args.length := by
  intro k
  induction k with
  | zero => intro escaped b err r sb sb' h; simp [parseStatement.loop] at h
  | succ k ih =>
    intro escaped b err r sb sb' h
    rw [parseStatement.loop] at h
    split at h
    · rcases hr : ReadByte r with ⟨b1, err1, r1⟩
      rw [hr] at h
      simp only at h
      exact ih _ _ _ _ (sb.WriteByte b) _ h
    · split at h
      · split at h
        · simp at h
        · rename_i hp
          exact le_trans (parseArg_mono _ _ _ _ _ _ hp) (ih _ _ _ _ _ _ h)
      · simp only at h
        split at h
        · simp at h
        · rename_i escaped' sb1 hafter
          have hal1 : sb.args.length ≤ sb1.args.length := by
            split at hafter
            · simp only [Prod.mk.injEq, Option.some.injEq] at hafter
              rw [← hafter.2]
            · split at hafter
              · simp only [Prod.mk.injEq, Option.some.injEq] at hafter
                rw [← hafter.2]
              · split at hafter
                · simp only [Prod.mk.injEq, statmentBuilder.AutoParam] at hafter
                  rw [writeParam_length _ _ _ hafter.2]
                  simp
                · simp only [Prod.mk.injEq, Option.some.injEq] at hafter
                  rw [← hafter.2]; simp [statmentBuilder.WriteByte]
          split at h
          · simp only [Run.done.injEq] at h
            rw [← h]; exact hal1
          · rcases hr : ReadByte r with ⟨b1, err1, r1⟩
            rw [hr] at h
            simp only at h
            exact le_trans hal1 (ih _ _ _ _ _ _ h)

theorem fit_of_long (maxLen : Nat) (x : Run statmentBuilder) (n : Nat) (hn : maxLen < n)
    (hx : x ≠ .outOfFuel) (hlen : ∀ sb, x = .done sb → n ≤ sb.args.length) :
    Run.fit maxLen x = .panicked := by
  cases x with
  | done sb =>
    have := hlen sb rfl
    have hnot : ¬ sb.args.length ≤ maxLen := by omega
    simp [Run.fit, hnot]
  | panicked => rfl
  | outOfFuel => exact absurd rfl hx

theorem writeParamWithin_step (maxLen : Nat) (sb : statmentBuilder) (p : Nat)
    (hsb : sb.args.length ≤ maxLen) :
    (sb.WriteParam p = none ∧ sb.WriteParamWithin maxLen p = none)
      ∨ (∃ sb', sb.WriteParam p = some sb' ∧ sb.WriteParamWithin maxLen p = none
          ∧ maxLen < sb'.args.length)
      ∨ (∃ sb', sb.WriteParam p = some sb' ∧ sb.WriteParamWithin maxLen p = some sb'
          ∧ sb'.args.length ≤ maxLen) := by
  rw [writeParamWithin_eq]
  rcases hw : sb.WriteParam p with _ | sb'
  · left; simp
  · right
    have hlen := writeParam_length _ _ _ hw
    by_cases hc : p > sb.args.length ∧ maxLen < p
    · left
      refine ⟨sb', rfl, by simp [hc], ?_⟩
      rw [hlen]; omega
    · right
      refine ⟨sb', rfl, by simp [hc], ?_⟩
      rw [hlen]
      by_cases h1 : p > sb.args.length
      · have : ¬ maxLen < p := fun h => hc ⟨h1, h⟩
        omega
      · omega

theorem loop_within (maxLen : Nat) : ∀ (k : Nat) (escaped : Bool) (b : Byte) (err : Bool)
    (r : List Byte) (sb : statmentBuilder), sb.args.length ≤ maxLen →
    parseStatement.loop k escaped b err r sb ≠ .outOfFuel →
    parseStatementWithin.loop maxLen k escaped b err r sb
      = Run.fit maxLen (parseStatement.loop k escaped b err r sb) := by
  intro k
  induction k with
  | zero => intro escaped b err r sb _ h; simp [parseStatement.loop] at h
  | succ k ih =>
    intro escaped b err r sb hsb h
    rw [parseStatement.loop] at h ⊢
    rw [parseStatementWithin.loop]
    by_cases hesc : escaped = true
    · simp only [hesc, if_true] at h ⊢
      exact ih _ _ _ _ _ (by simpa [statmentBuilder.WriteByte] using hsb) h
    · simp only [hesc, Bool.false_eq_true, if_false] at h ⊢
      by_cases hb : b = 36
      · simp only [hb, if_true] at h ⊢
        unfold parseArgWithin parseArg at *
        rcases hscan : parseArg.scan r [] with ⟨b1, rest, arg⟩
        rw [hscan] at h
        simp only at h ⊢
        rcases hp : ParseInt arg with e | pn
        · rw [hp] at h
          simp only at h ⊢
          exact ih _ _ _ _ _ hsb h
        · rw [hp] at h
          simp only at h ⊢
          rcases writeParamWithin_step maxLen sb pn hsb with ⟨h1, h2⟩ | ⟨sb', h1, h2, h3⟩
              | ⟨sb', h1, h2, h3⟩
          · rw [h1, h2]; rfl
          · rw [h1] at h
            rw [h1, h2]
            simp only at h ⊢
            exact (fit_of_long maxLen _ _ h3 h
              (fun x hx => loop_mono _ _ _ _ _ _ _ hx)).symm
          · rw [h1] at h
            rw [h1, h2]
            simp only at h ⊢
            exact ih _ _ _ _ _ h3 h
      · simp only [hb, if_false] at h ⊢
        have key : ∀ (e' : Bool) (sb1 : statmentBuilder), sb1.args.length ≤ maxLen →
            (if err = true then Run.done sb1
              else parseStatement.loop k e' (ReadByte r).1 (ReadByte r).2.1 (ReadByte r).2.2 sb1)
              ≠ .outOfFuel →
            (if err = true then Run.done sb1
              else parseStatementWithin.loop maxLen k e' (ReadByte r).1 (ReadByte r).2.1
                (ReadByte r).2.2 sb1)
              = Run.fit maxLen
                  (if err = true then Run.done sb1
                    else parseStatement.loop k e' (ReadByte r).1 (ReadByte r).2.1
                      (ReadByte r).2.2 sb1) := by
          intro e' sb1 hsb1 hne
          by_cases herr : err = true
          · simp [herr, Run.fit, hsb1]
          · simp only [herr, if_false] at hne ⊢
            exact ih _ _ _ _ _ hsb1 hne
        by_cases h0 : b = 0
        · simp only [h0, if_true] at h ⊢
          exact key _ _ hsb h
        · by_cases h92 : b = 92
          · simp only [h0, h92, if_true, if_false] at h ⊢
            exact key _ _ hsb h
          · by_cases hq : b = 63
            · simp only [h0, h92, if_false, if_pos hq] at h ⊢
              unfold statmentBuilder.AutoParamWithin statmentBuilder.AutoParam at *
              rcases writeParamWithin_step maxLen { sb with pi := sb.pi + 1 } (sb.pi + 1) hsb with
                ⟨h1, h2⟩ | ⟨sb', h1, h2, h3⟩ | ⟨sb', h1, h2, h3⟩
              · rw [h1, h2]; rfl
              · rw [h1] at h
                rw [h1, h2]
                simp only at h ⊢
                refine (fit_of_long maxLen _ _ h3 h ?_).symm
                intro x hx
                split at hx
                · simp only [Run.done.injEq] at hx
                  rw [← hx]
                · exact loop_mono _ _ _ _ _ _ _ hx
              · rw [h1] at h
                rw [h1, h2]
                simp only at h ⊢
                exact key _ _ h3 h
            · simp only [h0, h92, hq, if_false] at h ⊢
              exact key _ _ (by simpa [statmentBuilder.WriteByte] using hsb) h

/-- A run with the allocation returns the statement of the run without it when its
parameter names fit, and does not return when they do not, or when that run panics. -/
theorem parseStatementWithin_eq (maxLen : Nat) (q : List Byte) :
    parseStatementWithin maxLen q
      = match parseStatement q with
        | .done st => if st.args.length ≤ maxLen then .done st else .panicked
        | .panicked => .panicked
        | .outOfFuel => .outOfFuel := by
  have hfuel := parseStatement_fuel q
  unfold parseStatement parseStatement.start at hfuel ⊢
  unfold parseStatementWithin
  rcases hr : ReadByte q with ⟨b, err, r⟩
  rw [hr] at hfuel
  simp only at hfuel ⊢
  have hne : parseStatement.loop (q.length + 2) false b err r { pi := 0, sb := [], args := [] }
      ≠ .outOfFuel := by
    intro h
    rw [h] at hfuel
    exact hfuel rfl
  rw [loop_within maxLen _ _ _ _ _ _ (by simp) hne]
  rcases hl : parseStatement.loop (q.length + 2) false b err r { pi := 0, sb := [], args := [] }
    with sb | _ | _
  · by_cases hlen : sb.args.length ≤ maxLen
    · simp [Run.fit, statmentBuilder.Statement, hlen]
    · simp [Run.fit, statmentBuilder.Statement, hlen]
  · rfl
  · exact absurd hl hne

theorem parseStatementWithin_done (maxLen : Nat) (q : List Byte) (st : Statement)
    (h : parseStatement q = .done st) (hlen : st.args.length ≤ maxLen) :
    parseStatementWithin maxLen q = .done st := by
  rw [parseStatementWithin_eq, h]
  simp [hlen]

theorem parseStatementWithin_long (maxLen : Nat) (q : List Byte) (st : Statement)
    (h : parseStatement q = .done st) (hlen : maxLen < st.args.length) :
    parseStatementWithin maxLen q = .panicked := by
  rw [parseStatementWithin_eq, h]
  have : ¬ st.args.length ≤ maxLen := by omega
  simp [this]

theorem parseStatementWithin_panicked (maxLen : Nat) (q : List Byte)
    (h : parseStatement q = .panicked) : parseStatementWithin maxLen q = .panicked := by
  rw [parseStatementWithin_eq, h]

theorem Prepare_panicked (maxLen : Nat) (c : conn) (q : List Byte)
    (h : parseStatementWithin maxLen q = .panicked) : conn.Prepare maxLen c q = .panicked := by
  simp [conn.Prepare, h]

theorem Prepare_done (maxLen : Nat) (c : conn) (q : List Byte) (st : Statement)
    (h : parseStatementWithin maxLen q = .done st) :
    conn.Prepare maxLen c q = .done (st, none) := by
  simp [conn.Prepare, h]

/-- C1 (amended): for `a`, `b`, `c` without backslash, `$`, `?` and NUL, `b` not
starting with a digit, and `1 ≤ N < 2^63` written in decimal, in a run in which
`make([]string, n)` returns for `n ≤ maxLen` only: when `N ≤ maxLen`, `parseStatement`
maps `a + "$" + N + b + "?" + c` to the text `a + "@param_N" + b + "@param_1" + c` and
to a parameter list of length `max(N, 1)` whose entry 1 is `param_1` and whose entry
`N` is `param_N`; when `N > maxLen` it does not return. -/
theorem parseStatementWithin_mixed (maxLen : Nat) (a b c : List Byte) (N : Nat)
    (ha : ∀ x ∈ a, isPlain x = true) (hb : ∀ x ∈ b, isPlain x = true)
    (hc : ∀ x ∈ c, isPlain x = true) (hb0 : ∀ x ∈ b.head?, isDigit x = false)
    (hN1 : 1 ≤ N) (hN : N < 2 ^ 63) :
    (N ≤ maxLen →
        ∃ st, parseStatementWithin maxLen (a ++ [36] ++ FormatInt N ++ b ++ [63] ++ c) = .done st
          ∧ st.sql = a ++ (64 :: paramName N) ++ b ++ (64 :: paramName 1) ++ c
          ∧ st.args.length = max N 1
          ∧ st.args[0]? = some (paramName 1)
          ∧ st.args[N - 1]? = some (paramName N))
      ∧ (maxLen < N →
          parseStatementWithin maxLen (a ++ [36] ++ FormatInt N ++ b ++ [63] ++ c)
            = .panicked) := by
  obtain ⟨st, h1, h2, h3, h4, h5⟩ := parseStatement_mixed a b c N ha hb hc hb0 hN1 hN
  constructor
  · intro hle
    exact ⟨st, parseStatementWithin_done maxLen _ st h1 (by rw [h3]; omega), h2, h3, h4, h5⟩
  · intro hlt
    exact parseStatementWithin_long maxLen _ st h1 (by rw [h3]; omega)

/-- C1 (witness): the case of `TestStatementParser`, `N = 2`, in a run with room for
two names. -/
theorem parseStatementWithin_mixed_witness :
    ∃ st, parseStatementWithin 2 (bytes "UPDATE balances SET balance = balance + " ++ [36]
              ++ FormatInt 2 ++ bytes " WHERE user_id = " ++ [63] ++ []) = .done st
      ∧ st.sql = bytes "UPDATE balances SET balance = balance + " ++ (64 :: paramName 2)
              ++ bytes " WHERE user_id = " ++ (64 :: paramName 1) ++ []
      ∧ st.args.length = max 2 1
      ∧ st.args[0]? = some (paramName 1)
      ∧ st.args[2 - 1]? = some (paramName 2) :=
  (parseStatementWithin_mixed 2 (bytes "UPDATE balances SET balance = balance + ")
    (bytes " WHERE user_id = ") [] 2 (by decide) (by decide) (by decide) (by decide)
    (by decide) (by decide)).1 (by decide)

theorem start_dollar_any (k n : Nat) (hn : n < 2 ^ 63) (rest : List Byte)
    (hrest : ∀ x ∈ rest.head?, isDigit x = false) (sb sb' : statmentBuilder)
    (h : sb.WriteParam n = some sb') :
    ∃ b' err' r', parseStatement.start (k + 1) (36 :: (FormatInt n ++ rest)) sb
      = parseStatement.loop k false b' err' r' sb' := by
  cases rest with
  | nil =>
    have hs := scan_digits_end (FormatInt n) (formatDigits_all _ _) []
    simp only [List.nil_append] at hs
    refine ⟨0, false, [], ?_⟩
    simp [parseStatement.start, ReadByte, parseStatement.loop, parseArg, hs,
      ParseInt_FormatInt n hn, h]
  | cons c r =>
    have hs := scan_digits (FormatInt n) (formatDigits_all _ _) c (hrest c (by simp)) r []
    simp only [List.nil_append] at hs
    refine ⟨c, false, r, ?_⟩
    simp [parseStatement.start, ReadByte, parseStatement.loop, parseArg, hs,
      ParseInt_FormatInt n hn, h]

/-- A placeholder `$N` with `N` beyond what `make` gives: `parseStatement` does not
return. -/
theorem parseStatementWithin_index_long (maxLen : Nat) (a rest : List Byte) (N : Nat)
    (ha : ∀ x ∈ a, isPlain x = true) (hrest : ∀ x ∈ rest.head?, isDigit x = false)
    (hlt : maxLen < N) (hN : N < 2 ^ 63) :
    parseStatementWithin maxLen (a ++ [36] ++ FormatInt N ++ rest) = .panicked := by
  have hq : a ++ [36] ++ FormatInt N ++ rest = a ++ 36 :: (FormatInt N ++ rest) := by simp
  have hf : (a ++ 36 :: (FormatInt N ++ rest)).length + 2
      = (((FormatInt N).length + rest.length + 2) + 1) + a.length := by
    simp only [List.length_append, List.length_cons]; omega
  have hN1 : 1 ≤ N := by omega
  rcases hp : parseStatement (a ++ [36] ++ FormatInt N ++ rest) with st | _ | _
  · apply parseStatementWithin_long maxLen _ st hp
    rw [hq, parseStatement, hf, start_text a ha] at hp
    obtain ⟨b', err', r', hstart⟩ := start_dollar_any ((FormatInt N).length + rest.length + 2)
      N hN rest hrest _ _ (writeParam_pos { pi := 0, sb := [] ++ a, args := [] } N hN1)
    rw [hstart] at hp
    split at hp
    · rename_i sb' hl
      simp only [Run.done.injEq] at hp
      have := loop_mono _ _ _ _ _ _ _ hl
      rw [← hp]
      simp only [statmentBuilder.Statement]
      refine lt_of_lt_of_le ?_ this
      simp only [List.length_nil, List.length_set]
      split
      · simp only [List.nil_append, List.length_replicate]; omega
      · omega
    · simp at hp
    · simp at hp
  · exact parseStatementWithin_panicked maxLen _ hp
  · exact absurd hp (parseStatement_fuel _)

set_option maxRecDepth 8000 in
/-- C21 (failing input): `parseStatement` is not total.  `WriteParam(0)` stores at index
`-1` of the parameter names, outside their bounds, so the query `$0` makes
`parseStatement` and with it `conn.Prepare` panic, and so does every query in which a
placeholder written with zeros only (`$0`, `$00`, ...) follows text without backslash,
`$`, `?` and NUL.  A placeholder `$N` with `N` below `2^63` and beyond the length
`maxLen` that `make([]string, n)` can give does not return either, as
`$1000000000000000000` where `make` gives up to `2^44` strings.  What holds of the
claim: `Prepare` does not run on for ever; on a query in which no `$` is followed by the
digit `0` there is a statement that `Prepare` returns, with the nil error, in every
run in which `make` gives the length of its parameter list, such as `SELECT $1, ?` with
room for one name; a `$` before digits of value `2^63` or more returns the empty
statement; a trailing backslash returns the text with a NUL byte appended. -/
theorem Prepare_dollar_zero_panics (c : conn) :
    (∀ (maxLen : Nat) (sb : statmentBuilder), sb.WriteParamWithin maxLen 0 = none)
      ∧ (∀ maxLen : Nat, conn.Prepare maxLen c (bytes "$0") = .panicked)
      ∧ (∀ maxLen : Nat,
          conn.Prepare maxLen c (bytes "SELECT * FROM t WHERE a = $0 AND b = ?") = .panicked)
      ∧ (∀ (maxLen : Nat) (a rest : List Byte) (n : Nat), (∀ x ∈ a, isPlain x = true) →
          (∀ x ∈ rest.head?, isDigit x = false) →
          conn.Prepare maxLen c (a ++ [36] ++ List.replicate (n + 1) 48 ++ rest) = .panicked)
      ∧ (∀ (maxLen : Nat) (a rest : List Byte) (N : Nat), (∀ x ∈ a, isPlain x = true) →
          (∀ x ∈ rest.head?, isDigit x = false) → maxLen < N → N < 2 ^ 63 →
          conn.Prepare maxLen c (a ++ [36] ++ FormatInt N ++ rest) = .panicked)
      ∧ conn.Prepare (2 ^ 44) c (bytes "$1000000000000000000") = .panicked
      ∧ (∀ (maxLen : Nat) (q : List Byte), conn.Prepare maxLen c q ≠ .outOfFuel)
      ∧ (∀ q : List Byte, noDollarZero q = true →
          ∃ st, ∀ maxLen : Nat,
            conn.Prepare maxLen c q
              = if st.args.length ≤ maxLen then .done (st, none) else .panicked)
      ∧ noDollarZero (bytes "SELECT $1, ?") = true
      ∧ conn.Prepare 1 c (bytes "SELECT $1, ?")
          = .done ({ sql := bytes "SELECT @param_1, @param_1", args := [bytes "param_1"] }, none)
      ∧ (∀ (maxLen : Nat) (ds : List Byte), ds.all isDigit = true → 2 ^ 63 ≤ digitsValue ds →
          conn.Prepare maxLen c (36 :: ds) = .done ({ sql := [], args := [] }, none))
      ∧ (∀ (maxLen : Nat) (a : List Byte), (∀ x ∈ a, isPlain x = true) →
          conn.Prepare maxLen c (a ++ [92])
            = .done ({ sql := a ++ [0], args := [] }, none)) := by
  refine ⟨?_, ?_, ?_, ?_, ?_, ?_, ?_, ?_, by decide, ?_, ?_, ?_⟩
  · intro maxLen sb
    rw [writeParamWithin_eq, writeParam_zero]
    simp
  · intro maxLen
    exact Prepare_panicked maxLen c _ (parseStatementWithin_panicked maxLen _ (by decide))
  · intro maxLen
    exact Prepare_panicked maxLen c _ (parseStatementWithin_panicked maxLen _ (by decide))
  · intro maxLen a rest n ha hrest
    apply Prepare_panicked
    apply parseStatementWithin_panicked
    have hq : a ++ [36] ++ List.replicate (n + 1) 48 ++ rest
        = a ++ 36 :: (List.replicate (n + 1) 48 ++ rest) := by simp
    have hf : (a ++ 36 :: (List.replicate (n + 1) 48 ++ rest)).length + 2
        = ((n + 1 + rest.length + 2) + 1) + a.length := by
      simp only [List.length_append, List.length_cons, List.length_replicate]; omega
    rw [hq, parseStatement, hf, start_text a ha, start_dollar_zeros _ _ _ _ hrest]
  · intro maxLen a rest N ha hrest hlt hN
    exact Prepare_panicked maxLen c _
      (parseStatementWithin_index_long maxLen a rest N ha hrest hlt hN)
  · exact Prepare_panicked _ c _ (by decide)
  · intro maxLen q h
    have hfuel := parseStatement_fuel q
    unfold conn.Prepare at h
    rw [parseStatementWithin_eq] at h
    rcases hp : parseStatement q with st | _ | _
    · rw [hp] at h
      by_cases hlen : st.args.length ≤ maxLen
      · simp [hlen] at h
      · simp [hlen] at h
    · rw [hp] at h
      simp at h
    · exact hfuel hp
  · intro q hq
    obtain ⟨st, hst⟩ := parseStatement_noDollarZero q hq
    refine ⟨st, fun maxLen => ?_⟩
    unfold conn.Prepare
    rw [parseStatementWithin_eq, hst]
    by_cases hlen : st.args.length ≤ maxLen
    · simp [hlen]
    · simp [hlen]
  · exact Prepare_done 1 c _ _ (by decide)
  · intro maxLen ds hds hv
    apply Prepare_done
    apply parseStatementWithin_done
    · have hf : (36 :: ds).length + 2 = (ds.length + 1) + 2 := by
        simp only [List.length_cons]
      rw [parseStatement, hf, start_dollar_range _ ds _ hds hv]
      rfl
    · simp
  · intro maxLen a ha
    apply Prepare_done
    apply parseStatementWithin_done
    · have hf : (a ++ [92]).length + 2 = (0 + 3) + a.length := by
        simp only [List.length_append, List.length_cons, List.length_nil]; omega
      rw [parseStatement, hf, start_text a ha, start_backslash_end]
      simp [statmentBuilder.Statement, statmentBuilder.WriteByte]
    · simp

end Kine
